import Mathlib

/-!
Verification of the gazelle package walker and BUILD-file merger
(go/tools/gazelle/packages/walk.go: package `packages` and package `merger`).

The embedding models the buildtools AST (`bzl.Expr`) as the inductive
`BExpr`, with the comment envelope (`Before`, `Suffix`, `After` comment
lists) carried on every node, and translates the merger functions
(`mergeList`, `mergeDict`, `mergeExpr`, `mergeRule`, `mergeLoad`,
`MergeWithExisting`, `shouldKeep`, `shouldIgnore`) and the walker
functions (`selectPackage`, `defaultPackageName`, `Walk`) into Lean.
-/

namespace GazelleProof

/-- Comment envelope attached to an AST node, mirroring `bzl.Comments`:
lists of comment tokens before the node, after it on the same line
(suffix), and after it. -/
structure Comments where
  before : List String := []
  suffix : List String := []
  after : List String := []
deriving DecidableEq, Repr

/-- Shallow embedding of `bzl.Expr`: string literals, literal tokens
(identifiers such as `select` or attribute names), lists, calls,
dictionaries, key-value pairs and binary expressions, each carrying its
comment envelope. -/
inductive BExpr where
  | str (com : Comments) (value : String)
  | lit (com : Comments) (token : String)
  | list (com : Comments) (forceMultiLine : Bool) (elems : List BExpr)
  | call (com : Comments) (fn : BExpr) (args : List BExpr)
  | dict (com : Comments) (forceMultiLine : Bool) (entries : List BExpr)
  | kv (com : Comments) (key : BExpr) (value : BExpr)
  | binary (com : Comments) (op : String) (x : BExpr) (y : BExpr)

/-- The comment envelope of an expression (`e.Comment()` in Go). -/
def BExpr.com : BExpr → Comments
  | .str c _ => c
  | .lit c _ => c
  | .list c _ _ => c
  | .call c _ _ => c
  | .dict c _ _ => c
  | .kv c _ _ => c
  | .binary c _ _ _ => c

/-- The `keep` sentinel from walk.go: `keep = "# keep"`. -/
def keepMarker : String := "# keep"

/-- The `gazelleIgnore` sentinel from walk.go: `gazelleIgnore = "# gazelle:ignore"`. -/
def gazelleIgnore : String := "# gazelle:ignore"

/-- `strings.HasPrefix(s, marker)`, implemented over the character
lists so that it evaluates by `rfl`/`decide`. -/
def tokenStarts (s marker : String) : Bool :=
  marker.toList.isPrefixOf s.toList

/-- `shouldKeep(e)`: true if the expression has a trailing (suffix)
comment whose first token starts with `"# keep"`. -/
def shouldKeep (e : BExpr) : Bool :=
  match e.com.suffix with
  | c :: _ => tokenStarts c keepMarker
  | [] => false

/-- `stringValue(e)`: the value of a string expression, `""` otherwise. -/
def stringValue : BExpr → String
  | .str _ v => v
  | _ => ""

/-- A `*bzl.ListExpr` node (the typed pointer passed around by the
merger), with its comment envelope, `ForceMultiLine` flag and elements. -/
structure ListE where
  com : Comments := {}
  forceMultiLine : Bool := false
  elems : List BExpr

/-- A `*bzl.DictExpr` node. -/
structure DictE where
  com : Comments := {}
  forceMultiLine : Bool := false
  entries : List BExpr

/-- Re-wrap a `ListE` as an expression. -/
def ListE.toExpr (l : ListE) : BExpr := .list l.com l.forceMultiLine l.elems

/-- Re-wrap a `DictE` as an expression. -/
def DictE.toExpr (d : DictE) : BExpr := .dict d.com d.forceMultiLine d.entries

/-- First loop of `mergeList`: walk the old list, collecting (in order)
the elements carrying a `# keep` suffix comment, together with the set
of their non-empty literal string values (the Go code builds the
`merged` prefix and the `kept` map in one pass). -/
def keepLoop : List BExpr → List BExpr × List String
  | [] => ([], [])
  | v :: vs =>
    let (m, k) := keepLoop vs
    if shouldKeep v then
      (v :: m, if stringValue v ≠ "" then stringValue v :: k else k)
    else (m, k)

/-- Second loop of `mergeList`: append every generated element whose
string value is not in the kept set. -/
def genLoop (kept : List String) : List BExpr → List BExpr
  | [] => []
  | v :: vs =>
    if kept.any (fun s => s = stringValue v) then genLoop kept vs
    else v :: genLoop kept vs

/-- `mergeList(gen, old)` from walk.go: if `old` is nil return `gen`;
otherwise keep the `# keep`-marked old elements first, then the
generated elements whose string value does not match a kept value;
return nil when the result is empty. -/
def mergeList (gen old : Option ListE) : Option ListE :=
  match old with
  | none => gen
  | some o =>
    let g := gen.getD { elems := [] }
    let (m, kept) := keepLoop o.elems
    let merged := m ++ genLoop kept g.elems
    if merged.isEmpty then none else some { elems := merged }

/-- The list-merge behaviour exactly as claim C1 words it: kept elements
first, then every generated element whose literal string value does not
equal the string value of any kept element (with no restriction to
non-empty values). -/
def mergeListClaimed (g o : ListE) : Option ListE :=
  let kept := o.elems.filter (fun v => shouldKeep v)
  let keptVals := kept.map stringValue
  let merged := kept ++ g.elems.filter (fun v => ¬ keptVals.any (fun s => s = stringValue v))
  if merged.isEmpty then none else some { elems := merged }

/-- The list-merge behaviour as amended: generated elements are
de-duplicated only against the non-empty string values of kept
elements (a kept element whose string value is empty, i.e. an empty
string literal or a non-string expression, suppresses nothing). -/
def mergeListAmended (g o : ListE) : Option ListE :=
  let kept := o.elems.filter (fun v => shouldKeep v)
  let keptVals := (kept.map stringValue).filter (fun s => s ≠ "")
  let merged := kept ++ g.elems.filter (fun v => ¬ keptVals.any (fun s => s = stringValue v))
  if merged.isEmpty then none else some { elems := merged }

theorem keepLoop_eq (l : List BExpr) :
    keepLoop l = (l.filter (fun v => shouldKeep v),
      ((l.filter (fun v => shouldKeep v)).map stringValue).filter (fun s => s ≠ "")) := by
  induction l with
  | nil => rfl
  | cons v vs ih =>
    simp only [keepLoop, ih, List.filter_cons, List.map]
    by_cases h : shouldKeep v
    · simp only [h, if_true, List.map_cons, List.filter_cons]
      by_cases h' : stringValue v ≠ ""
      · simp [h']
      · simp [h']
    · simp [h]

theorem genLoop_eq (kept : List String) (l : List BExpr) :
    genLoop kept l = l.filter (fun v => ¬ kept.any (fun s => s = stringValue v)) := by
  induction l with
  | nil => rfl
  | cons v vs ih =>
    simp only [genLoop, ih, List.filter_cons]
    by_cases h : kept.any (fun s => s = stringValue v)
    · simp [h]
    · simp [h]

/-- C1 counterexample input: existing list whose single element is the
empty string literal marked `# keep`. -/
def c1Old : ListE := { elems := [.str { suffix := [keepMarker] } ""] }

/-- C1 counterexample input: generated list whose single element is the
empty string literal. -/
def c1Gen : ListE := { elems := [.str {} ""] }

/-- C1: the claim as stated is false: with an existing element `""`
marked keep and a generated element `""`, the generated element's
literal string value equals the kept element's value, yet `mergeList`
appends it anyway (the kept map only records non-empty string values),
so the result differs from the claimed one. -/
theorem mergeList_claim_false :
    mergeList (some c1Gen) (some c1Old) =
      some { elems := [.str { suffix := [keepMarker] } "", .str {} ""] } ∧
    mergeListClaimed c1Gen c1Old = some { elems := [.str { suffix := [keepMarker] } ""] } ∧
    mergeList (some c1Gen) (some c1Old) ≠ mergeListClaimed c1Gen c1Old := by
  refine ⟨rfl, rfl, ?_⟩
  intro h
  rw [show mergeList (some c1Gen) (some c1Old) =
      some { elems := [.str { suffix := [keepMarker] } "", .str {} ""] } from rfl,
    show mergeListClaimed c1Gen c1Old =
      some { elems := [.str { suffix := [keepMarker] } ""] } from rfl] at h
  simp at h

/-- C1 (amended): for every generated and existing list, `mergeList`
returns the keep-marked existing elements first, in original order,
followed by the generated elements whose literal string value does not
equal the *non-empty* string value of any kept element (so kept
elements with empty string value suppress nothing, and generated
elements are de-duplicated only against kept values, not against each
other); nil when the result is empty. -/
theorem mergeList_eq_amended (g o : ListE) :
    mergeList (some g) (some o) = mergeListAmended g o := by
  simp [mergeList, mergeListAmended, keepLoop_eq, genLoop_eq]

/-- C5: the claim as stated is false: when the existing list is nil and
the generated list is a (non-nil) empty list expression, `mergeList`
returns that empty list expression, not nil, although the merged list
has no elements. -/
theorem mergeList_empty_claim_false :
    mergeList (some { elems := [] }) none = some { elems := [] } ∧
    (({ elems := [] } : ListE)).elems = [] := ⟨rfl, rfl⟩

/-- C5 (amended): whenever the existing list is present, if the merged
list has no elements then the result is nil, never an empty list
expression; when the existing list is nil, the generated expression is
returned unchanged. -/
theorem mergeList_none_of_empty (g : Option ListE) (o : ListE) (l : ListE)
    (h : mergeList g (some o) = some l) : l.elems ≠ [] := by
  simp only [mergeList] at h
  set merged := (keepLoop o.elems).1 ++ genLoop (keepLoop o.elems).2 ((g.getD { elems := [] }).elems) with hm
  by_cases he : merged.isEmpty
  · rw [if_pos he] at h
    exact absurd h (by simp)
  · rw [if_neg he] at h
    cases h
    simpa [List.isEmpty_iff] using he

/-- C5 witness: the amended theorem applied at a concrete input: merging
a nil generated list into an existing list with one kept element yields
a non-empty result list. -/
theorem mergeList_none_of_empty_witness :
    (({ elems := [.str { suffix := [keepMarker] } "x"] } : ListE)).elems ≠ [] :=
  mergeList_none_of_empty none { elems := [.str { suffix := [keepMarker] } "x"] }
    { elems := [.str { suffix := [keepMarker] } "x"] } (by rfl)

/-- The default-case dictionary key, `"//conditions:default"`. -/
def defaultCondition : String := "//conditions:default"

/-- `sort.Strings`: sort a list of strings ascending (modelled with
insertion sort). -/
def sortStrings (l : List String) : List String :=
  l.insertionSort (fun a b => a ≤ b)

/-- `dictEntryKeyValue(e)`: require a key-value pair whose key is a
string and whose value is a list. -/
def dictEntryKeyValue : BExpr → Except String (String × ListE)
  | .kv _ (.str _ k) (.list c f es) => .ok (k, ⟨c, f, es⟩)
  | .kv _ (.str _ _) _ => .error "dict value was not list"
  | .kv _ _ _ => .error "dict key was not string"
  | _ => .error "dict entry was not a key-value pair"

/-- The transient per-key record built by `mergeDict` (`dictEntry` in
the source): condition key, old value, generated value. -/
structure DictEntryM where
  key : String
  oldValue : Option ListE := none
  genValue : Option ListE := none

/-- First loop of `mergeDict`: parse the old dictionary's entries in
order, failing on a duplicate key. -/
def oldEntriesLoop : List DictEntryM → List BExpr → Except String (List DictEntryM)
  | es, [] => .ok es
  | es, e :: rest =>
    match dictEntryKeyValue e with
    | .error msg => .error msg
    | .ok (k, v) =>
      if es.any (fun d => d.key = k) then
        .error ("old dict contains more than one case named " ++ k)
      else
        oldEntriesLoop (es ++ [{ key := k, oldValue := some v }]) rest

/-- Second loop of `mergeDict`: parse the generated dictionary's
entries, setting the generated value on an existing record or appending
a new one. -/
def genEntriesLoop : List DictEntryM → List BExpr → Except String (List DictEntryM)
  | es, [] => .ok es
  | es, e :: rest =>
    match dictEntryKeyValue e with
    | .error msg => .error msg
    | .ok (k, v) =>
      if es.any (fun d => d.key = k) then
        genEntriesLoop (es.map fun d => if d.key = k then { d with genValue := some v } else d) rest
      else
        genEntriesLoop (es ++ [{ key := k, genValue := some v }]) rest

/-- A per-key merged result: the merged value, with the default case
coerced to an (empty) list. -/
structure MergedEntry where
  key : String
  value : Option ListE

/-- Merge each entry's generated and old value; the default case is
kept even if empty (coerced to an empty list). -/
def mergeEntries (es : List DictEntryM) : List MergedEntry :=
  es.map fun e =>
    let mv := mergeList e.genValue e.oldValue
    if e.key = defaultCondition then
      { key := e.key, value := some (mv.getD { elems := [] }) }
    else { key := e.key, value := mv }

/-- The non-default keys whose merged value is non-nil, in entry
order (the `keys` accumulated by the source before sorting). -/
def liveKeys (ms : List MergedEntry) : List String :=
  (ms.filter fun m => m.key ≠ defaultCondition && m.value.isSome).map (fun m => m.key)

/-- Look up the merged value for a key (`entryMap[k].mergedValue`). -/
def lookupMerged (ms : List MergedEntry) (k : String) : Option ListE :=
  match ms.find? (fun m => m.key = k) with
  | some m => m.value
  | none => none

/-- Whether some entry is the default case (`haveDefault`). -/
def haveDefault (ms : List MergedEntry) : Bool :=
  ms.any (fun m => m.key = defaultCondition)

/-- The element list of the default case's merged value (empty when the
default case is absent; only consulted under `haveDefault`). -/
def defaultElems (ms : List MergedEntry) : List BExpr :=
  match lookupMerged ms defaultCondition with
  | some l => l.elems
  | none => []

/-- Assemble the merged dictionary from the merged entries: nil when
there are no live non-default keys and no (non-empty) default case;
otherwise the live keys sorted ascending, with the default case always
last, each entry rebuilt with a fresh string key. -/
def assembleDict (ms : List MergedEntry) : Option DictE :=
  if (liveKeys ms).isEmpty && (!haveDefault ms || (defaultElems ms).isEmpty) then none
  else
    let ks := sortStrings (liveKeys ms)
    let ks := if haveDefault ms then ks ++ [defaultCondition] else ks
    some { forceMultiLine := true,
           entries := ks.map fun k =>
             .kv {} (.str {} k) (ListE.toExpr ((lookupMerged ms k).getD { elems := [] })) }

/-- `mergeDict(gen, old)` from walk.go. -/
def mergeDict (gen old : Option DictE) : Except String (Option DictE) :=
  match old with
  | none => .ok gen
  | some o =>
    let g := gen.getD { entries := [] }
    match oldEntriesLoop [] o.entries with
    | .error msg => .error msg
    | .ok es =>
      match genEntriesLoop es g.entries with
      | .error msg => .error msg
      | .ok es => .ok (assembleDict (mergeEntries es))

/-- `exprListAndDict(expr)`: match an expression into an optional list
part and an optional select-dictionary part; nil gives both nil; a bare
list, a call `select(dict)`, or `list + select(dict)` are recognized;
anything else is an error. -/
def exprListAndDict : Option BExpr → Except String (Option ListE × Option DictE)
  | none => .ok (none, none)
  | some e =>
    match e with
    | .list c f es => .ok (some ⟨c, f, es⟩, none)
    | .call _ (.lit _ tok) args =>
      match args with
      | [.dict cd fd entries] =>
        if tok = "select" then .ok (none, some ⟨cd, fd, entries⟩)
        else .error "expression could not be matched"
      | _ => .error "expression could not be matched"
    | .binary _ op x y =>
      if op ≠ "+" then .error ("expression could not be matched: unknown operator: " ++ op)
      else
        match x with
        | .list c f es =>
          match y with
          | .call _ (.lit _ tok) [arg] =>
            if tok = "select" then
              match arg with
              | .dict cd fd entries => .ok (some ⟨c, f, es⟩, some ⟨cd, fd, entries⟩)
              | _ => .error "expression could not be matched: argument to right operand not a dict"
            else .error "expression could not be matched: right operand not a call to select"
          | .call _ _ _ => .error "expression could not be matched: right operand not a call with one argument"
          | _ => .error "expression could not be matched: right operand not a call with one argument"
        | _ => .error "expression could not be matched: left operand not a list"
    | _ => .error "expression could not be matched"

/-- `shouldKeep` lifted to the optional existing expression (the Go
call site always passes a non-nil expression). -/
def shouldKeepOpt : Option BExpr → Bool
  | some e => shouldKeep e
  | none => false

/-- Whether the generated expression is a plain string literal. -/
def isStrExpr : Option BExpr → Bool
  | some (.str _ _) => true
  | _ => false

/-- `mergeExpr(gen, old)` from walk.go: a generated string defers to a
kept existing value; otherwise decompose both sides into list and
select-dictionary parts, merge them, and recombine. -/
def mergeExpr (gen old : Option BExpr) : Except String (Option BExpr) :=
  if isStrExpr gen then
    if shouldKeepOpt old then .ok old else .ok gen
  else
    match exprListAndDict gen with
    | .error msg => .error msg
    | .ok (genList, genDict) =>
      match exprListAndDict old with
      | .error msg => .error msg
      | .ok (oldList, oldDict) =>
        let mergedList := mergeList genList oldList
        match mergeDict genDict oldDict with
        | .error msg => .error msg
        | .ok mergedDict =>
          let mergedSelect : Option BExpr :=
            mergedDict.map fun d => .call {} (.lit {} "select") [d.toExpr]
          match mergedList, mergedSelect with
          | none, ms => .ok ms
          | some l, none => .ok (some l.toExpr)
          | some l, some s =>
            .ok (some (.binary {} "+" (ListE.toExpr { l with forceMultiLine := true }) s))

/-- C7: when the generated expression is a string literal, `mergeExpr`
returns the existing expression unchanged when it carries a keep
suffix-comment marker, and the generated expression otherwise; a
string-valued attribute marked keep is never replaced. -/
theorem mergeExpr_string_keep (c : Comments) (v : String) (old : BExpr) :
    mergeExpr (some (.str c v)) (some old) =
      .ok (some (if shouldKeep old then old else .str c v)) := by
  by_cases h : shouldKeep old
  · simp [mergeExpr, isStrExpr, shouldKeepOpt, h]
  · simp [mergeExpr, isStrExpr, shouldKeepOpt, h]

/-- Whether a dict entry parses to the given condition key. -/
def entryKeyIs (k : String) (e : BExpr) : Bool :=
  match dictEntryKeyValue e with
  | .ok (k', _) => k' = k
  | .error _ => false

/-- Whether a dict entry is the default case. -/
def isDefaultEntry (e : BExpr) : Bool := entryKeyIs defaultCondition e

/-- The condition keys of a dictionary expression, in order. -/
def dictKeys (d : DictE) : List String :=
  d.entries.filterMap fun e =>
    match e with
    | .kv _ (.str _ k) _ => some k
    | _ => none

theorem mergeEntries_map_key (es : List DictEntryM) :
    (mergeEntries es).map (fun m => m.key) = es.map (fun d => d.key) := by
  simp only [mergeEntries, List.map_map]
  apply List.map_congr_left
  intro d _
  simp only [Function.comp_apply]
  split <;> rfl

theorem any_key_of_map (l : List MergedEntry) (k : String) :
    l.any (fun m => m.key = k) = (l.map (fun m => m.key)).any (fun s => s = k) := by
  induction l with
  | nil => rfl
  | cons m l ih => simp only [List.any_cons, List.map_cons, ih]

theorem any_key_of_map' (l : List DictEntryM) (k : String) :
    l.any (fun d => d.key = k) = (l.map (fun d => d.key)).any (fun s => s = k) := by
  induction l with
  | nil => rfl
  | cons m l ih => simp only [List.any_cons, List.map_cons, ih]

theorem haveDefault_eq (es : List DictEntryM) :
    haveDefault (mergeEntries es) = es.any (fun d => d.key = defaultCondition) := by
  simp only [haveDefault]
  rw [any_key_of_map, mergeEntries_map_key, ← any_key_of_map']

theorem oldEntriesLoop_any (k : String) :
    ∀ (l : List BExpr) (acc es : List DictEntryM), oldEntriesLoop acc l = .ok es →
      es.any (fun d => d.key = k) =
        (acc.any (fun d => d.key = k) || l.any (entryKeyIs k)) := by
  intro l
  induction l with
  | nil =>
    intro acc es h
    simp only [oldEntriesLoop] at h
    cases h
    simp
  | cons e rest ih =>
    intro acc es h
    simp only [oldEntriesLoop] at h
    split at h
    · exact absurd h (by simp)
    · next k' v hkv =>
      split at h
      · exact absurd h (by simp)
      · rw [ih _ _ h]
        simp only [List.any_append, List.any_cons, List.any_nil, entryKeyIs, hkv,
          Bool.or_false, Bool.or_assoc]

theorem genEntriesLoop_any (k : String) :
    ∀ (l : List BExpr) (acc es : List DictEntryM), genEntriesLoop acc l = .ok es →
      es.any (fun d => d.key = k) =
        (acc.any (fun d => d.key = k) || l.any (entryKeyIs k)) := by
  intro l
  induction l with
  | nil =>
    intro acc es h
    simp only [genEntriesLoop] at h
    cases h
    simp
  | cons e rest ih =>
    intro acc es h
    simp only [genEntriesLoop] at h
    split at h
    · exact absurd h (by simp)
    · next k' v hkv =>
      split at h
      · next hdup =>
        rw [ih _ _ h]
        have hmap : (acc.map fun d =>
            (if d.key = k' then { d with genValue := some v } else d : DictEntryM)).any
              (fun d => d.key = k) = acc.any (fun d => d.key = k) := by
          rw [List.any_map]
          congr 1
          funext d
          simp only [Function.comp_apply]
          have hk2 : (if d.key = k' then ({ d with genValue := some v } : DictEntryM)
              else d).key = d.key := by split <;> rfl
          rw [hk2]
        rw [hmap]
        simp only [List.any_cons, entryKeyIs, hkv]
        by_cases hkk : k' = k
        · subst hkk
          simp [hdup]
        · simp [hkk]
      · rw [ih _ _ h]
        simp only [List.any_append, List.any_cons, List.any_nil, entryKeyIs, hkv,
          Bool.or_false, Bool.or_assoc]

theorem oldEntriesLoop_nodup :
    ∀ (l : List BExpr) (acc es : List DictEntryM), oldEntriesLoop acc l = .ok es →
      (acc.map (fun d => d.key)).Nodup → (es.map (fun d => d.key)).Nodup := by
  intro l
  induction l with
  | nil =>
    intro acc es h hacc
    simp only [oldEntriesLoop] at h
    cases h; exact hacc
  | cons e rest ih =>
    intro acc es h hacc
    simp only [oldEntriesLoop] at h
    split at h
    · exact absurd h (by simp)
    · next k' v hkv =>
      split at h
      · exact absurd h (by simp)
      · next hdup =>
        refine ih _ _ h ?_
        simp only [List.map_append, List.map_cons, List.map_nil]
        rw [List.nodup_append]
        refine ⟨hacc, List.nodup_singleton _, ?_⟩
        intro a ha hb
        simp only [List.mem_singleton] at hb
        subst hb
        simp only [List.mem_map] at ha
        obtain ⟨d, hd, hdk⟩ := ha
        exact hdup (List.any_eq_true.mpr ⟨d, hd, by simp [hdk]⟩)

theorem genEntriesLoop_nodup :
    ∀ (l : List BExpr) (acc es : List DictEntryM), genEntriesLoop acc l = .ok es →
      (acc.map (fun d => d.key)).Nodup → (es.map (fun d => d.key)).Nodup := by
  intro l
  induction l with
  | nil =>
    intro acc es h hacc
    simp only [genEntriesLoop] at h
    cases h; exact hacc
  | cons e rest ih =>
    intro acc es h hacc
    simp only [genEntriesLoop] at h
    split at h
    · exact absurd h (by simp)
    · next k' v hkv =>
      split at h
      · refine ih _ _ h ?_
        have : (acc.map fun d =>
            (if d.key = k' then { d with genValue := some v } else d : DictEntryM)).map
              (fun d => d.key) = acc.map (fun d => d.key) := by
          rw [List.map_map]
          apply List.map_congr_left
          intro d _
          simp only [Function.comp_apply]
          split <;> rfl
        rw [this]
        exact hacc
      · next hdup =>
        refine ih _ _ h ?_
        simp only [List.map_append, List.map_cons, List.map_nil]
        rw [List.nodup_append]
        refine ⟨hacc, List.nodup_singleton _, ?_⟩
        intro a ha hb
        simp only [List.mem_singleton] at hb
        subst hb
        simp only [List.mem_map] at ha
        obtain ⟨d, hd, hdk⟩ := ha
        exact hdup (List.any_eq_true.mpr ⟨d, hd, by simp [hdk]⟩)

theorem liveKeys_sublist (ms : List MergedEntry) :
    List.Sublist (liveKeys ms) (ms.map (fun m => m.key)) :=
  List.Sublist.map _ (List.filter_sublist ms)

theorem liveKeys_nodup (es : List DictEntryM)
    (h : (es.map (fun d => d.key)).Nodup) : (liveKeys (mergeEntries es)).Nodup := by
  have hsub := liveKeys_sublist (mergeEntries es)
  rw [mergeEntries_map_key] at hsub
  exact h.sublist hsub

theorem liveKeys_ne_default (ms : List MergedEntry) :
    defaultCondition ∉ liveKeys ms := by
  intro h
  simp only [liveKeys, List.mem_map, List.mem_filter] at h
  obtain ⟨m, ⟨_, hp⟩, hk⟩ := h
  simp only [Bool.and_eq_true, decide_eq_true_eq, bne_iff_ne, ne_eq] at hp
  rw [hk] at hp
  rcases hp with ⟨hne, _⟩
  simp at hne

theorem sortStrings_sorted (l : List String) :
    List.Sorted (fun a b : String => a ≤ b) (sortStrings l) :=
  List.sorted_insertionSort _ l

theorem sortStrings_perm (l : List String) : List.Perm (sortStrings l) l :=
  List.perm_insertionSort _ l

theorem sortStrings_pairwise_lt (l : List String) (h : l.Nodup) :
    List.Pairwise (fun a b : String => a < b) (sortStrings l) := by
  have h1 := sortStrings_sorted l
  have h2 : (sortStrings l).Nodup := ((sortStrings_perm l).nodup_iff).mpr h
  have h3 := List.Pairwise.and h1 h2
  exact h3.imp (fun hab => lt_of_le_of_ne hab.1 hab.2)

theorem sortStrings_mem (l : List String) (a : String) :
    a ∈ sortStrings l ↔ a ∈ l :=
  (sortStrings_perm l).mem_iff

theorem assembleDict_eq_none_iff (ms : List MergedEntry) :
    assembleDict ms = none ↔
      (liveKeys ms = [] ∧ (haveDefault ms = false ∨ defaultElems ms = [])) := by
  have hPiff : (((liveKeys ms).isEmpty && (!haveDefault ms || (defaultElems ms).isEmpty)) = true) ↔
      (liveKeys ms = [] ∧ (haveDefault ms = false ∨ defaultElems ms = [])) := by
    simp [List.isEmpty_iff, Bool.not_eq_true']
  rw [← hPiff]
  simp only [assembleDict]
  split
  · next hc => simp [hc]
  · next hc => simp [hc]

theorem assembleDict_eq_some (ms : List MergedEntry) (d : DictE)
    (h : assembleDict ms = some d) :
    d = { forceMultiLine := true,
          entries := (if haveDefault ms then sortStrings (liveKeys ms) ++ [defaultCondition]
              else sortStrings (liveKeys ms)).map fun k =>
            .kv {} (.str {} k) (ListE.toExpr ((lookupMerged ms k).getD { elems := [] })) } := by
  simp only [assembleDict] at h
  split at h
  · exact absurd h (by simp)
  · simp only [Option.some.injEq] at h
    exact h.symm

theorem dictKeys_assembled (ks : List String) (vf : String → BExpr) :
    ((ks.map fun k => BExpr.kv {} (.str {} k) (vf k)).filterMap fun e =>
      match e with
      | .kv _ (.str _ k) _ => some k
      | _ => none) = ks := by
  induction ks with
  | nil => rfl
  | cons k ks ih => simp only [List.map_cons, List.filterMap_cons, ih]

/-- C2: for every pair of select dictionaries accepted by `mergeDict`
(both present, all entries parsed, no duplicate old key), the merged
dictionary (a) contains the default case exactly when some input entry
has the default key, (b) is nil exactly when there are no non-default
keys with non-nil merged values and (there is no default case or its
merged list is empty), and (c) when non-nil, lists the live non-default
keys in strictly ascending lexicographic order followed (exactly when a
default case exists) by the default key, whose entry is last and whose
value is a list expression (the merged value, coerced to an empty list
when nil). -/
theorem mergeDict_claim_props (g o : DictE) (es1 es : List DictEntryM)
    (h1 : oldEntriesLoop [] o.entries = Except.ok es1)
    (h2 : genEntriesLoop es1 g.entries = Except.ok es) :
    haveDefault (mergeEntries es) = (o.entries ++ g.entries).any isDefaultEntry ∧
    (mergeDict (some g) (some o) = .ok none ↔
      (liveKeys (mergeEntries es) = [] ∧
        (haveDefault (mergeEntries es) = false ∨ defaultElems (mergeEntries es) = []))) ∧
    ∀ d, mergeDict (some g) (some o) = .ok (some d) →
      dictKeys d = sortStrings (liveKeys (mergeEntries es)) ++
          (if haveDefault (mergeEntries es) then [defaultCondition] else []) ∧
      List.Pairwise (fun a b : String => a < b) (sortStrings (liveKeys (mergeEntries es))) ∧
      defaultCondition ∉ sortStrings (liveKeys (mergeEntries es)) ∧
      (haveDefault (mergeEntries es) = true →
        d.entries.getLast? = some (.kv {} (.str {} defaultCondition)
          (ListE.toExpr ((lookupMerged (mergeEntries es) defaultCondition).getD
            { elems := [] })))) := by
  have hmd : mergeDict (some g) (some o) = .ok (assembleDict (mergeEntries es)) := by
    simp only [mergeDict, Option.getD_some, h1, h2]
  have hnd1 : (es1.map (fun d => d.key)).Nodup :=
    oldEntriesLoop_nodup _ _ _ h1 (by simp)
  have hnd : (es.map (fun d => d.key)).Nodup := genEntriesLoop_nodup _ _ _ h2 hnd1
  have hlive : (liveKeys (mergeEntries es)).Nodup := liveKeys_nodup es hnd
  refine ⟨?_, ?_, ?_⟩
  · rw [haveDefault_eq, genEntriesLoop_any _ _ _ _ h2, oldEntriesLoop_any _ _ _ _ h1]
    simp only [List.any_nil, Bool.false_or, List.any_append]
    rfl
  · rw [hmd]
    constructor
    · intro hd
      have hnone : assembleDict (mergeEntries es) = none := by
        cases hx : assembleDict (mergeEntries es) with
        | none => rfl
        | some d => rw [hx] at hd; exact absurd hd (by simp)
      exact (assembleDict_eq_none_iff _).mp hnone
    · intro hP
      rw [(assembleDict_eq_none_iff _).mpr hP]
  · intro d hd
    rw [hmd] at hd
    simp only [Except.ok.injEq] at hd
    have hds := assembleDict_eq_some _ _ hd
    have hkeys : dictKeys d = (if haveDefault (mergeEntries es) then
        sortStrings (liveKeys (mergeEntries es)) ++ [defaultCondition]
        else sortStrings (liveKeys (mergeEntries es))) := by
      rw [hds]
      simp only [dictKeys]
      exact dictKeys_assembled _ _
    refine ⟨?_, sortStrings_pairwise_lt _ hlive, ?_, ?_⟩
    · rw [hkeys]
      by_cases hD : haveDefault (mergeEntries es)
      · simp [hD]
      · simp [hD]
    · intro hmem
      exact liveKeys_ne_default _ ((sortStrings_mem _ _).mp hmem)
    · intro hD
      rw [hds]
      simp only [hD, if_true, List.map_append, List.map_cons, List.map_nil]
      rw [List.getLast?_concat]

/-- Concrete C2 input: old dict with a kept element under the default key. -/
def c2Old : DictE :=
  { entries := [.kv {} (.str {} defaultCondition)
      (.list {} false [.str { suffix := [keepMarker] } "x"])] }

/-- Concrete C2 input: generated dict with one non-default key. -/
def c2Gen : DictE :=
  { entries := [.kv {} (.str {} "//cond:a") (.list {} false [.str {} "g"])] }

/-- The entry list after parsing the old dict of the C2 witness. -/
def c2Es1 : List DictEntryM :=
  [{ key := defaultCondition,
     oldValue := some { elems := [.str { suffix := [keepMarker] } "x"] } }]

/-- The entry list after parsing both dicts of the C2 witness. -/
def c2Es : List DictEntryM :=
  [{ key := defaultCondition,
     oldValue := some { elems := [.str { suffix := [keepMarker] } "x"] } },
   { key := "//cond:a", genValue := some { elems := [.str {} "g"] } }]

/-- The merged dict of the C2 witness: the non-default key first, the
default case last. -/
def c2Dict : DictE :=
  { forceMultiLine := true,
    entries := [.kv {} (.str {} "//cond:a") (.list {} false [.str {} "g"]),
      .kv {} (.str {} defaultCondition)
        (.list {} false [.str { suffix := [keepMarker] } "x"])] }

theorem mergeDict_claim_props_witness :
    oldEntriesLoop [] c2Old.entries = Except.ok c2Es1 ∧
    genEntriesLoop c2Es1 c2Gen.entries = Except.ok c2Es ∧
    mergeDict (some c2Gen) (some c2Old) = .ok (some c2Dict) ∧
    dictKeys c2Dict = sortStrings (liveKeys (mergeEntries c2Es)) ++
      (if haveDefault (mergeEntries c2Es) then [defaultCondition] else []) := by
  refine ⟨rfl, rfl, rfl, ?_⟩
  exact ((mergeDict_claim_props c2Gen c2Old c2Es1 c2Es rfl rfl).2.2 c2Dict rfl).1

/-- Modelled from the spec: the Package record accumulated per
(directory, package-name) pair. The `Package` type itself, its `HasGo`
predicate ("contains at least one compiled Go source file") and
`firstGoFile` ("one representative Go file") are defined outside this
repository's sources (only their callers are in walk.go), so they are
modelled here from the spec's words: `goFiles` is the list of compiled
Go source files added to the package. -/
structure Package where
  name : String
  dir : String
  goFiles : List String

/-- Modelled from the spec: `HasGo()` - the package contains at least
one compiled Go source file. -/
def Package.hasGo (p : Package) : Bool := !p.goFiles.isEmpty

/-- Modelled from the spec: `firstGoFile()` - one representative Go
file of the package. -/
def Package.firstGoFile (p : Package) : String := p.goFiles.headD ""

/-- Go's `path.Base` / `filepath.Base` (identical for slash-separated
paths with no volume name): `"."` for the empty path, `"/"` when the
path consists only of slashes, otherwise the last path segment after
stripping trailing slashes. -/
def pathBase (p : String) : String :=
  if p = "" then "."
  else
    let cs := p.toList.reverse.dropWhile (fun c => c = '/')
    if cs = [] then "/"
    else String.mk (cs.takeWhile (fun c => c ≠ '/')).reverse

/-- The receiver fields of `packageReader` used by package selection. -/
structure PackageReader where
  repoRoot : String
  goPfx : String
  dir : String

/-- `defaultPackageName()`: the directory base name, unless the
directory is the repository root, in which case the last segment of the
go prefix, with `"unnamed"` as fallback when that base is `"."` or
`"/"` (empty or all-slash prefix). -/
def defaultPackageName (pr : PackageReader) : String :=
  if pr.dir ≠ pr.repoRoot then pathBase pr.dir
  else
    let name := pathBase pr.goPfx
    if name = "." ∨ name = "/" then "unnamed" else name

/-- The two failure signals of `selectPackage`: `build.NoGoError` and
`build.MultiplePackageError` (with the parallel `Packages` and `Files`
lists). -/
inductive SelectError where
  | noGoError (dir : String)
  | multiplePackageError (dir : String) (packages : List String) (files : List String)

/-- `selectPackage(packageMap)` from walk.go: among the packages with
at least one Go file, fail with `NoGoError` if there are none, select
the unique one if there is exactly one, otherwise select the one named
like the default package name, and fail with `MultiplePackageError`
(listing every conflicting package name and one representative Go file
each) when there is none. The Go map is modelled as an association
list in insertion order. -/
def selectPackage (pr : PackageReader) (packageMap : List (String × Package)) :
    Except SelectError Package :=
  let withGo := packageMap.filter (fun p => p.2.hasGo)
  match withGo with
  | [] => .error (.noGoError pr.dir)
  | [p] => .ok p.2
  | _ =>
    match withGo.find? (fun p => p.1 = defaultPackageName pr) with
    | some p => .ok p.2
    | none => .error (.multiplePackageError pr.dir (withGo.map (fun p => p.1))
        (withGo.map (fun p => p.2.firstGoFile)))

/-- C3: package selection over the packages with at least one compiled
Go source file: none yields the no-buildable-sources failure; exactly
one yields that package; more than one yields the package whose name
equals the default package name (directory base name, or, at the
repository root only, the last segment of the go prefix with "unnamed"
as fallback), and otherwise fails with a multiple-packages error
carrying every conflicting package name and one representative Go file
per conflicting package. -/
theorem selectPackage_spec (pr : PackageReader) (packageMap : List (String × Package)) :
    (packageMap.filter (fun p => p.2.hasGo) = [] →
      selectPackage pr packageMap = .error (.noGoError pr.dir)) ∧
    (∀ p, packageMap.filter (fun p => p.2.hasGo) = [p] →
      selectPackage pr packageMap = .ok p.2) ∧
    (2 ≤ (packageMap.filter (fun p => p.2.hasGo)).length →
      (∀ p, (packageMap.filter (fun p => p.2.hasGo)).find?
          (fun q => q.1 = defaultPackageName pr) = some p →
        selectPackage pr packageMap = .ok p.2) ∧
      ((packageMap.filter (fun p => p.2.hasGo)).find?
          (fun q => q.1 = defaultPackageName pr) = none →
        selectPackage pr packageMap = .error (.multiplePackageError pr.dir
          ((packageMap.filter (fun p => p.2.hasGo)).map (fun p => p.1))
          ((packageMap.filter (fun p => p.2.hasGo)).map (fun p => p.2.firstGoFile))))) := by
  refine ⟨?_, ?_, ?_⟩
  · intro h
    simp only [selectPackage, h]
  · intro p h
    simp only [selectPackage, h]
  · intro hlen
    constructor
    · intro p hf
      cases hw : packageMap.filter (fun p => p.2.hasGo) with
      | nil => rw [hw] at hlen; simp at hlen
      | cons a rest =>
        cases rest with
        | nil => rw [hw] at hlen; simp at hlen
        | cons b rest' =>
          rw [hw] at hf
          simp only [selectPackage, hw, hf]
    · intro hf
      cases hw : packageMap.filter (fun p => p.2.hasGo) with
      | nil => rw [hw] at hlen; simp at hlen
      | cons a rest =>
        cases rest with
        | nil => rw [hw] at hlen; simp at hlen
        | cons b rest' =>
          rw [hw] at hf
          simp only [selectPackage, hw, hf]

/-- Concrete C3 witness input: packages `foo` and `bar` in directory
`/repo/bar`, matching the spec's package-selection-determinism scenario. -/
def c3Reader : PackageReader := { repoRoot := "/repo", goPfx := "example.com/repo", dir := "/repo/bar" }

/-- Concrete C3 witness package map with two Go packages. -/
def c3Map : List (String × Package) :=
  [("foo", { name := "foo", dir := "/repo/bar", goFiles := ["a.go"] }),
   ("bar", { name := "bar", dir := "/repo/bar", goFiles := ["b.go"] })]

theorem selectPackage_spec_witness :
    defaultPackageName c3Reader = "bar" ∧
    2 ≤ (c3Map.filter (fun p => p.2.hasGo)).length ∧
    selectPackage c3Reader c3Map =
      .ok { name := "bar", dir := "/repo/bar", goFiles := ["b.go"] } := by
  refine ⟨rfl, by decide, ?_⟩
  exact ((selectPackage_spec c3Reader c3Map).2.2 (by decide)).1
    ("bar", { name := "bar", dir := "/repo/bar", goFiles := ["b.go"] }) (by rfl)

/-- A `*bzl.CallExpr` node (the typed pointer taken by the rule and
load mergers): comment envelope, callee expression `X` and argument
list `List`. -/
structure CallE where
  com : Comments := {}
  fn : BExpr
  args : List BExpr

/-- Re-wrap a `CallE` as an expression. -/
def CallE.toExpr (c : CallE) : BExpr := .call c.com c.fn c.args

/-- View an expression as a call. -/
def asCall : BExpr → Option CallE
  | .call c fn args => some ⟨c, fn, args⟩
  | _ => none

/-- `Rule.Kind()` for a call statement: the callee's literal token
(dotted callees are outside this model), `""` otherwise. -/
def kindOfExpr : BExpr → String
  | .call _ (.lit _ tok) _ => tok
  | _ => ""

/-- `Rule.Kind()` on a `CallE`. -/
def CallE.kind (c : CallE) : String :=
  match c.fn with
  | .lit _ tok => tok
  | _ => ""

/-- `ruleUsed(rule, oldfile)`: whether `oldfile.Rules(rule)` is
non-empty, i.e. some top-level call statement has the given kind (or
any call statement at all when the kind is the empty string, matching
`File.Rules`). -/
def ruleUsed (rule : String) (stmts : List BExpr) : Bool :=
  stmts.any fun s =>
    match s with
    | .call _ fn _ => rule = "" || (match fn with | .lit _ tok => tok | _ => "") = rule
    | _ => false

/-- One entry of the `vals` map of `mergeLoad`: symbol name and the
expression loaded under it. -/
structure LoadVal where
  key : String
  val : BExpr

/-- First loop of `mergeLoad`: `vals[stringValue(v)] = v` for every
generated symbol (a later duplicate overwrites). -/
def loadGenLoop : List LoadVal → List BExpr → List LoadVal
  | vals, [] => vals
  | vals, v :: rest =>
    let k := stringValue v
    let vals := if vals.any (fun w => w.key = k) then
        vals.map (fun w => if w.key = k then { w with val := v } else w)
      else vals ++ [{ key := k, val := v }]
    loadGenLoop vals rest

/-- Second loop of `mergeLoad`: an existing symbol is added only when
it is not already present and is actually used by some rule in the
file. -/
def loadOldLoop (stmts : List BExpr) : List LoadVal → List BExpr → List LoadVal
  | vals, [] => vals
  | vals, v :: rest =>
    let rule := stringValue v
    let vals := if !(vals.any (fun w => w.key = rule)) && ruleUsed rule stmts then
        vals ++ [{ key := rule, val := v }]
      else vals
    loadOldLoop stmts vals rest

/-- The fully-populated `vals` map of `mergeLoad`: generated symbols
first, then the used existing symbols not already present. -/
def mergeLoadVals (gen old : CallE) (stmts : List BExpr) : List LoadVal :=
  loadOldLoop stmts (loadGenLoop [] (gen.args.drop 1)) (old.args.drop 1)

/-- `mergeLoad(gen, old, oldfile)` from walk.go: union of the generated
symbols with the used existing symbols, sorted ascending by name, after
the old load path. -/
def mergeLoad (gen old : CallE) (stmts : List BExpr) : CallE :=
  let vals := mergeLoadVals gen old stmts
  let ks := sortStrings (vals.map (fun w => w.key))
  { old with args := old.args.take 1 ++ ks.map (fun k =>
      (((vals.find? (fun w => w.key = k)).map (fun w => w.val)).getD (.str {} k))) }

theorem loadGenLoop_any (k : String) :
    ∀ (l : List BExpr) (vals : List LoadVal),
      (loadGenLoop vals l).any (fun w => w.key = k) =
        (vals.any (fun w => w.key = k) || l.any (fun v => stringValue v = k)) := by
  intro l
  induction l with
  | nil => intro vals; simp [loadGenLoop]
  | cons v rest ih =>
    intro vals
    simp only [loadGenLoop]
    by_cases hdup : vals.any (fun w => w.key = stringValue v)
    · rw [if_pos hdup, ih]
      have hmap : (vals.map fun w =>
          (if w.key = stringValue v then { w with val := v } else w : LoadVal)).any
            (fun w => w.key = k) = vals.any (fun w => w.key = k) := by
        rw [List.any_map]
        congr 1
        funext w
        simp only [Function.comp_apply]
        have hk2 : (if w.key = stringValue v then ({ w with val := v } : LoadVal)
            else w).key = w.key := by split <;> rfl
        rw [hk2]
      rw [hmap]
      simp only [List.any_cons]
      by_cases hkk : stringValue v = k
      · subst hkk
        simp [hdup]
      · simp [hkk]
    · rw [if_neg hdup, ih]
      simp only [List.any_append, List.any_cons, List.any_nil, Bool.or_false, Bool.or_assoc]

theorem loadOldLoop_any (k : String) (stmts : List BExpr) :
    ∀ (l : List BExpr) (vals : List LoadVal),
      (loadOldLoop stmts vals l).any (fun w => w.key = k) =
        (vals.any (fun w => w.key = k) ||
          l.any (fun v => decide (stringValue v = k) && ruleUsed (stringValue v) stmts)) := by
  intro l
  induction l with
  | nil => intro vals; simp [loadOldLoop]
  | cons v rest ih =>
    intro vals
    simp only [loadOldLoop]
    by_cases hguard : (!(vals.any (fun w => w.key = stringValue v)) &&
        ruleUsed (stringValue v) stmts) = true
    · rw [if_pos hguard, ih]
      simp only [Bool.and_eq_true, Bool.not_eq_true'] at hguard
      obtain ⟨hnodup, hused⟩ := hguard
      simp only [List.any_append, List.any_cons, List.any_nil, Bool.or_false, Bool.or_assoc]
      by_cases hkk : stringValue v = k
      · subst hkk
        simp [hused]
      · simp [hkk]
    · rw [if_neg hguard, ih]
      simp only [Bool.and_eq_true, Bool.not_eq_true'] at hguard
      simp only [List.any_cons]
      by_cases hkk : stringValue v = k
      · subst hkk
        by_cases hdup : vals.any (fun w => w.key = stringValue v) = true
        · simp [hdup]
        · have hdup' : vals.any (fun w => w.key = stringValue v) = false :=
            Bool.eq_false_iff.mpr hdup
          have hused : ruleUsed (stringValue v) stmts = false := by
            cases h : ruleUsed (stringValue v) stmts
            · rfl
            · exact absurd ⟨hdup', h⟩ hguard
          simp [hdup', hused]
      · simp [hkk]

/-- All `vals` entries record the string value of their expression as
their key. -/
def goodVals (vals : List LoadVal) : Prop :=
  ∀ w ∈ vals, w.key = stringValue w.val

theorem loadGenLoop_good :
    ∀ (l : List BExpr) (vals : List LoadVal), goodVals vals → goodVals (loadGenLoop vals l) := by
  intro l
  induction l with
  | nil => intro vals h; simpa [loadGenLoop] using h
  | cons v rest ih =>
    intro vals h
    simp only [loadGenLoop]
    split
    · refine ih _ ?_
      intro w hw
      simp only [List.mem_map] at hw
      obtain ⟨w', hw', hww⟩ := hw
      by_cases hk : w'.key = stringValue v
      · rw [← hww]; simp only [hk, if_true]
      · rw [← hww]; simp only [hk, if_false]; exact h w' hw'
    · refine ih _ ?_
      intro w hw
      rcases List.mem_append.mp hw with h1 | h1
      · exact h w h1
      · simp only [List.mem_singleton] at h1
        subst h1
        rfl

theorem loadOldLoop_good (stmts : List BExpr) :
    ∀ (l : List BExpr) (vals : List LoadVal), goodVals vals →
      goodVals (loadOldLoop stmts vals l) := by
  intro l
  induction l with
  | nil => intro vals h; simpa [loadOldLoop] using h
  | cons v rest ih =>
    intro vals h
    simp only [loadOldLoop]
    split
    · refine ih _ ?_
      intro w hw
      rcases List.mem_append.mp hw with h1 | h1
      · exact h w h1
      · simp only [List.mem_singleton] at h1
        subst h1
        rfl
    · exact ih _ h

/-- C8: the merged load statement keeps the old load path, its symbol
names are sorted ascending, and a symbol is present exactly when it is
a generated symbol or an existing symbol that is used by some rule of
the file (an existing symbol neither generated nor used is dropped). -/
theorem mergeLoad_claim (gen old : CallE) (stmts : List BExpr) (a : BExpr) (rest : List BExpr)
    (hold : old.args = a :: rest) :
    (mergeLoad gen old stmts).args.take 1 = old.args.take 1 ∧
    List.Sorted (fun x y : String => x ≤ y)
      (((mergeLoad gen old stmts).args.drop 1).map stringValue) ∧
    ∀ s, s ∈ ((mergeLoad gen old stmts).args.drop 1).map stringValue ↔
      (s ∈ (gen.args.drop 1).map stringValue ∨
        (s ∈ (old.args.drop 1).map stringValue ∧ s ∉ (gen.args.drop 1).map stringValue ∧
          ruleUsed s stmts = true)) := by
  have hgood : goodVals (mergeLoadVals gen old stmts) :=
    loadOldLoop_good stmts _ _ (loadGenLoop_good _ _ (by intro w hw; simp at hw))
  have hsyms : ((mergeLoad gen old stmts).args.drop 1).map stringValue =
      sortStrings ((mergeLoadVals gen old stmts).map (fun w => w.key)) := by
    simp only [mergeLoad, hold]
    simp only [List.take_succ_cons, List.take_zero, List.cons_append, List.drop_succ_cons,
      List.drop_zero, List.nil_append, List.map_map]
    refine (List.map_congr_left ?_).trans (List.map_id _)
    intro k hk
    have hmem : k ∈ (mergeLoadVals gen old stmts).map (fun w => w.key) :=
      (sortStrings_mem _ _).mp hk
    have hany : ∃ w ∈ mergeLoadVals gen old stmts, w.key = k := by
      simp only [List.mem_map] at hmem
      exact hmem
    obtain ⟨w0, hw0, hw0k⟩ := hany
    have hfind : ∃ w, (mergeLoadVals gen old stmts).find? (fun w => w.key = k) = some w := by
      rcases hf : (mergeLoadVals gen old stmts).find? (fun w => w.key = k) with _ | w'
      · exfalso
        have hnone := List.find?_eq_none.mp hf
        exact hnone w0 hw0 (by simp [hw0k])
      · exact ⟨w', hf⟩
    obtain ⟨w, hw⟩ := hfind
    have hkey : w.key = k := by
      have := List.find?_some hw
      simpa using this
    have hwmem : w ∈ mergeLoadVals gen old stmts := List.mem_of_find?_eq_some hw
    simp only [Function.comp_apply, hw, Option.map_some', Option.getD_some]
    rw [← hgood w hwmem, hkey]
    rfl
  refine ⟨?_, ?_, ?_⟩
  · simp only [mergeLoad, hold]
    simp
  · rw [hsyms]
    exact sortStrings_sorted _
  · intro s
    rw [hsyms]
    have hmem : s ∈ sortStrings ((mergeLoadVals gen old stmts).map (fun w => w.key)) ↔
        (mergeLoadVals gen old stmts).any (fun w => w.key = s) = true := by
      rw [sortStrings_mem, List.any_eq_true]
      simp only [List.mem_map]
      constructor
      · rintro ⟨w, hw, hwk⟩
        exact ⟨w, hw, by simp [hwk]⟩
      · rintro ⟨w, hw, hwk⟩
        simp only [decide_eq_true_eq] at hwk
        exact ⟨w, hw, hwk⟩
    rw [hmem]
    simp only [mergeLoadVals]
    rw [loadOldLoop_any, loadGenLoop_any]
    simp only [List.any_nil, Bool.false_or, Bool.or_eq_true, List.any_eq_true,
      decide_eq_true_eq, Bool.and_eq_true, List.mem_map]
    constructor
    · rintro (⟨v, hv, hvk⟩ | ⟨v, hv, hvk, hused⟩)
      · exact Or.inl ⟨v, hv, hvk⟩
      · by_cases hg : ∃ x ∈ gen.args.drop 1, stringValue x = s
        · obtain ⟨x, hx, hxk⟩ := hg
          exact Or.inl ⟨x, hx, hxk⟩
        · refine Or.inr ⟨⟨v, hv, hvk⟩, ?_, by rw [← hvk]; exact hused⟩
          intro hc
          obtain ⟨x, hx, hxk⟩ := hc
          exact hg ⟨x, hx, hxk⟩
    · rintro (⟨v, hv, hvk⟩ | ⟨⟨v, hv, hvk⟩, hnog, hused⟩)
      · exact Or.inl ⟨v, hv, hvk⟩
      · exact Or.inr ⟨v, hv, hvk, by rw [hvk]; exact hused⟩

/-- C8 witness generated load: `load("//go:def.bzl", "go_library")`. -/
def c8Gen : CallE :=
  { fn := .lit {} "load", args := [.str {} "//go:def.bzl", .str {} "go_library"] }

/-- C8 witness existing load with one used and one stale symbol. -/
def c8Old : CallE :=
  { fn := .lit {} "load", args := [.str {} "//go:def.bzl", .str {} "go_test", .str {} "stale"] }

/-- C8 witness file statements: a `go_test` rule (so `go_test` is used,
`stale` is not). -/
def c8Stmts : List BExpr := [.call {} (.lit {} "go_test") []]

theorem mergeLoad_claim_witness :
    (mergeLoad c8Gen c8Old c8Stmts).args.take 1 = c8Old.args.take 1 ∧
    List.Sorted (fun x y : String => x ≤ y)
      (((mergeLoad c8Gen c8Old c8Stmts).args.drop 1).map stringValue) ∧
    ("stale" ∈ ((mergeLoad c8Gen c8Old c8Stmts).args.drop 1).map stringValue ↔
      ("stale" ∈ (c8Gen.args.drop 1).map stringValue ∨
        ("stale" ∈ (c8Old.args.drop 1).map stringValue ∧
          "stale" ∉ (c8Gen.args.drop 1).map stringValue ∧
          ruleUsed "stale" c8Stmts = true))) := by
  have h := mergeLoad_claim c8Gen c8Old c8Stmts (.str {} "//go:def.bzl")
    [.str {} "go_test", .str {} "stale"] rfl
  exact ⟨h.1, h.2.1, h.2.2 "stale"⟩

/-- The `mergeableFields` allowlist: `srcs`, `deps`, `library`. -/
def mergeableFields (k : String) : Bool :=
  k = "srcs" || k = "deps" || k = "library"

/-- Whether an argument is a named-attribute assignment (`BinaryExpr`
with operator `=`), where the old rule's positional-argument copying
stops. -/
def isEqBinary : BExpr → Bool
  | .binary _ op _ _ => op = "="
  | _ => false

/-- The attribute name of an argument: a `BinaryExpr` `=` whose
left-hand side is a literal token. -/
def attrKeyOf : BExpr → Option String
  | .binary _ op (.lit _ k) _ => if op = "=" then some k else none
  | _ => none

/-- The right-hand side of an attribute assignment. -/
def defnY : BExpr → Option BExpr
  | .binary _ _ _ y => some y
  | _ => none

/-- Replace the right-hand side of an attribute assignment, keeping its
comments, operator and key. -/
def setDefnY (defn v : BExpr) : BExpr :=
  match defn with
  | .binary c op x _ => .binary c op x v
  | e => e

/-- `Rule.AttrDefn(key)` at the argument-list level: the first
assignment with the given key. -/
def findAttrDefn (args : List BExpr) (key : String) : Option BExpr :=
  args.find? (fun a => attrKeyOf a = some key)

/-- `Rule.Attr(key)` at the argument-list level. -/
def findAttrY (args : List BExpr) (key : String) : Option BExpr :=
  (findAttrDefn args key).bind defnY

/-- `Rule.AttrDefn(key)` on a call. -/
def attrDefn (c : CallE) (key : String) : Option BExpr :=
  findAttrDefn c.args key

/-- `Rule.Attr(key)` on a call. -/
def attrOf (c : CallE) (key : String) : Option BExpr :=
  findAttrY c.args key

/-- `Rule.Name()`: the string value of the `name` attribute. -/
def CallE.name (c : CallE) : String :=
  match attrOf c "name" with
  | some (.str _ v) => v
  | _ => ""

/-- Replace the first assignment to `key` in the argument list. -/
def setAttrArgs (key : String) (v : BExpr) : List BExpr → List BExpr
  | [] => []
  | a :: rest =>
    if attrKeyOf a = some key then setDefnY a v :: rest
    else a :: setAttrArgs key v rest

/-- `Rule.SetAttr(key, v)`: replace the first existing assignment, or
append a fresh one. -/
def setAttr (c : CallE) (key : String) (v : BExpr) : CallE :=
  if (attrDefn c key).isSome then { c with args := setAttrArgs key v c.args }
  else { c with args := c.args ++ [.binary {} "=" (.lit {} key) v] }

/-- The merged value of one mergeable attribute, with `mergeRule`'s
fallback to the generated value on a merge error. -/
def mergedAttrValue (genE : Option BExpr) (oldE : BExpr) : Option BExpr :=
  match mergeExpr genE (some oldE) with
  | .error _ => genE
  | .ok m => m

/-- The attribute loop of `mergeRule` over the old rule's attribute
keys: a non-mergeable attribute is copied unchanged (with its comment
envelope); a mergeable one is replaced by the merged value (in the old
assignment's comment envelope), or dropped when the merged value is
nil. -/
def mergeAttrs (gen old : CallE) : List String → List BExpr
  | [] => []
  | k :: ks =>
    match attrDefn old k with
    | none => mergeAttrs gen old ks
    | some defn =>
      if mergeableFields k then
        match defnY defn with
        | none => mergeAttrs gen old ks
        | some oldE =>
          match mergedAttrValue (attrOf gen k) oldE with
          | some m => setDefnY defn m :: mergeAttrs gen old ks
          | none => mergeAttrs gen old ks
      else defn :: mergeAttrs gen old ks

/-- The final loop of `mergeRule`: copy through every generated
attribute not yet present in the merged rule. -/
def addGenAttrs (gen : CallE) : CallE → List String → CallE
  | m, [] => m
  | m, k :: ks =>
    addGenAttrs gen
      (if (attrOf m k).isSome then m
       else setAttr m k ((attrOf gen k).getD (.lit {} ""))) ks

/-- `Rule.AttrKeys()` of a call: the keys of all assignments in order
(duplicates included, as in buildtools). -/
def callAttrKeys (c : CallE) : List String := c.args.filterMap attrKeyOf

/-- `mergeRule(gen, old)` from walk.go: copy the old rule's leading
unnamed arguments, merge/copy the old rule's attributes, then append
the generated attributes not processed yet. The merged call keeps the
old call's callee and comments. -/
def mergeRule (gen old : CallE) : CallE :=
  let pos := old.args.takeWhile (fun a => !(isEqBinary a))
  let m : CallE := { old with args := pos ++ mergeAttrs gen old (callAttrKeys old) }
  addGenAttrs gen m (callAttrKeys gen)

/-- A parsed build file: its ordered top-level statements
(`bzl.File.Stmt`). -/
structure BFile where
  stmts : List BExpr

/-- `shouldIgnore(oldFile)`: whether any top-level statement carries an
after- or before-comment starting with the ignore sentinel. -/
def shouldIgnore (f : BFile) : Bool :=
  f.stmts.any fun s =>
    s.com.after.any (fun c => tokenStarts c gazelleIgnore) ||
    s.com.before.any (fun c => tokenStarts c gazelleIgnore)

/-- The matcher built by `match` for a generated statement: a load
matcher on the load path (none when the generated load has no
arguments, in which case `match` reports no match), or a (kind, name)
matcher for rules. -/
def matcherFor (c : CallE) : Option (BExpr → Bool) :=
  if c.kind = "load" then
    match c.args with
    | [] => none
    | a0 :: _ => some (fun s =>
        match asCall s with
        | some oc => oc.kind = "load" && !oc.args.isEmpty &&
            stringValue (oc.args.headD (.lit {} "")) = stringValue a0
        | none => false)
  else some (fun s =>
      match asCall s with
      | some oc => oc.kind = c.kind && oc.name = c.name
      | none => false)

/-- Find the first statement satisfying the matcher, with its index. -/
def findMatch (p : BExpr → Bool) : List BExpr → Option (Nat × BExpr)
  | [] => none
  | s :: rest =>
    if p s then some (0, s)
    else (findMatch p rest).map (fun x => (x.1 + 1, x.2))

/-- The result of `MergeWithExisting`: no output because the file is
ignored, a fatal internal-consistency failure (the Go code panics on a
generated statement that is not a call), or the merged file. -/
inductive MergeOutcome where
  | ignored
  | internalError (msg : String)
  | merged (f : BFile)

/-- One step of the `MergeWithExisting` loop over generated statements:
replace the matching existing statement in place with the merged load
or rule, or record the statement as newly introduced. -/
def mergeStep (acc : List BExpr × List BExpr) (s : BExpr) :
    Except String (List BExpr × List BExpr) :=
  match asCall s with
  | none => .error "expected only CallExpr in generated file"
  | some genC =>
    match matcherFor genC with
    | none => .ok (acc.1, acc.2 ++ [s])
    | some p =>
      match findMatch p acc.1 with
      | none => .ok (acc.1, acc.2 ++ [s])
      | some (i, olds) =>
        match asCall olds with
        | none => .ok (acc.1, acc.2)
        | some oldC =>
          let merged := if oldC.kind = "load" then (mergeLoad genC oldC acc.1).toExpr
            else (mergeRule genC oldC).toExpr
          .ok (acc.1.set i merged, acc.2)

/-- `MergeWithExisting(genFile, existing)` from walk.go, with the file
reading and parsing abstracted away (the existing file is given
parsed): abort with no output if the existing file carries the ignore
sentinel; otherwise replace matching statements in place and append the
newly introduced ones after all existing statements. -/
def mergeWithExisting (gen old : BFile) : MergeOutcome :=
  if shouldIgnore old then .ignored
  else
    match gen.stmts.foldlM mergeStep (old.stmts, []) with
    | .error msg => .internalError msg
    | .ok (stmts, news) => .merged ⟨stmts ++ news⟩

/-- C9: whenever some top-level statement of the existing file carries
a before- or after-comment beginning with the ignore sentinel,
`MergeWithExisting` returns no result (and, being a pure function of
the parsed files, leaves the existing file's content unchanged). -/
theorem mergeWithExisting_ignored (gen old : BFile) (h : shouldIgnore old = true) :
    mergeWithExisting gen old = .ignored := by
  simp [mergeWithExisting, h]

/-- C9 witness existing file: one statement preceded by the ignore
sentinel comment. -/
def c9Old : BFile :=
  ⟨[.call { before := ["# gazelle:ignore"] } (.lit {} "go_library") []]⟩

/-- C9 witness generated file: a single generated rule. -/
def c9Gen : BFile := ⟨[.call {} (.lit {} "go_library") []]⟩

theorem mergeWithExisting_ignored_witness :
    shouldIgnore c9Old = true ∧ mergeWithExisting c9Gen c9Old = .ignored :=
  ⟨by rfl, mergeWithExisting_ignored c9Gen c9Old (by rfl)⟩

theorem attrKeyOf_isEqBinary (a : BExpr) (k : String) (h : attrKeyOf a = some k) :
    isEqBinary a = true := by
  unfold attrKeyOf at h
  split at h
  · next c op cl k' y =>
    by_cases hop : op = "="
    · simp [isEqBinary, hop]
    · rw [if_neg hop] at h
      exact absurd h (by simp)
  · exact absurd h (by simp)

theorem attrKeyOf_setDefnY (a v : BExpr) : attrKeyOf (setDefnY a v) = attrKeyOf a := by
  cases a with
  | binary c op x y =>
    cases x <;> simp only [setDefnY, attrKeyOf]
  | str c s => rfl
  | lit c t => rfl
  | list c f es => rfl
  | call c fn args => rfl
  | dict c f es => rfl
  | kv c a b => rfl

theorem defnY_isSome_of_attrKeyOf (a : BExpr) (k : String) (h : attrKeyOf a = some k) :
    (defnY a).isSome := by
  unfold attrKeyOf at h
  split at h
  · rfl
  · exact absurd h (by simp)

theorem attrKeyOf_eq_binary (a : BExpr) (k : String) (h : attrKeyOf a = some k) :
    ∃ c x y, a = .binary c "=" x y := by
  unfold attrKeyOf at h
  split at h
  · next c op cl k' y =>
    by_cases hop : op = "="
    · subst hop
      exact ⟨c, _, y, rfl⟩
    · rw [if_neg hop] at h
      exact absurd h (by simp)
  · exact absurd h (by simp)

theorem attrOf_isSome_of_mem_keys (c : CallE) (k : String) (h : k ∈ callAttrKeys c) :
    (attrOf c k).isSome := by
  simp only [callAttrKeys, List.mem_filterMap] at h
  obtain ⟨a, ha, hka⟩ := h
  have hfind : ((c.args.find? (fun a => attrKeyOf a = some k)).isSome) :=
    List.find?_isSome.mpr ⟨a, ha, by simp [hka]⟩
  rcases hf : c.args.find? (fun a => attrKeyOf a = some k) with _ | a'
  · rw [hf] at hfind; exact absurd hfind (by simp)
  · have hka' : attrKeyOf a' = some k := by
      have := List.find?_some hf
      simpa using this
    have hy := defnY_isSome_of_attrKeyOf a' k hka'
    simp only [attrOf, findAttrY, findAttrDefn, hf, Option.bind_some]
    exact hy

theorem findAttrY_setAttrArgs_ne (k' k : String) (v : BExpr) (h : k' ≠ k) :
    ∀ args : List BExpr, findAttrY (setAttrArgs k' v args) k = findAttrY args k := by
  intro args
  induction args with
  | nil => rfl
  | cons a rest ih =>
    simp only [setAttrArgs]
    by_cases ha : attrKeyOf a = some k'
    · rw [if_pos (by simp [ha])]
      simp only [findAttrY, findAttrDefn, List.find?]
      rw [attrKeyOf_setDefnY, ha]
      simp [h, ha]
    · rw [if_neg (by simp [ha])]
      simp only [findAttrY, findAttrDefn, List.find?] at ih ⊢
      by_cases hk : attrKeyOf a = some k
      · simp [hk]
      · simp only [hk, decide_eq_true_eq, if_neg]
        simpa [findAttrY, findAttrDefn, hk] using ih

theorem attrOf_setAttr_ne (c : CallE) (k' k : String) (v : BExpr) (h : k' ≠ k) :
    attrOf (setAttr c k' v) k = attrOf c k := by
  simp only [setAttr]
  split
  · simp only [attrOf, findAttrY]
    show (findAttrDefn (setAttrArgs k' v c.args) k).bind defnY = _
    have := findAttrY_setAttrArgs_ne k' k v h c.args
    simpa [findAttrY] using this
  · simp only [attrOf, findAttrY, findAttrDefn, List.find?_append]
    have : ([BExpr.binary {} "=" (.lit {} k') v].find? (fun a => attrKeyOf a = some k)) = none := by
      simp only [List.find?]
      have : attrKeyOf (BExpr.binary {} "=" (.lit {} k') v) = some k' := rfl
      simp [this, h]
    rw [this]
    cases c.args.find? (fun a => attrKeyOf a = some k) <;> rfl

theorem addGenAttrs_attrOf_ne (gen : CallE) (k : String) (hgen : attrOf gen k = none) :
    ∀ (ks : List String) (m : CallE), (∀ k' ∈ ks, k' ∈ callAttrKeys gen) →
      attrOf (addGenAttrs gen m ks) k = attrOf m k := by
  intro ks
  induction ks with
  | nil => intro m _; rfl
  | cons k' ks ih =>
    intro m hks
    have hk' : k' ∈ callAttrKeys gen := hks k' (by simp)
    have hne : k' ≠ k := by
      intro he
      subst he
      have := attrOf_isSome_of_mem_keys gen k' hk'
      rw [hgen] at this
      exact absurd this (by simp)
    simp only [addGenAttrs]
    rw [ih _ (fun x hx => hks x (by simp [hx]))]
    split
    · rfl
    · exact attrOf_setAttr_ne m k' k _ hne

theorem mergeExpr_none_list (cx : Comments) (fx : Bool) (l : List BExpr) :
    mergeExpr none (some (.list cx fx l)) =
      .ok (if (l.filter (fun v => shouldKeep v)).isEmpty then none
        else some (.list {} false (l.filter (fun v => shouldKeep v)))) := by
  have hml : mergeList none (some ⟨cx, fx, l⟩) =
      if (l.filter (fun v => shouldKeep v)).isEmpty then none
      else some { elems := l.filter (fun v => shouldKeep v) } := by
    simp [mergeList, keepLoop_eq, genLoop]
  simp only [mergeExpr, isStrExpr, exprListAndDict, mergeDict, hml]
  by_cases hE : (l.filter (fun v => shouldKeep v)).isEmpty
  · simp [hE]
  · simp [hE, ListE.toExpr]

theorem mergedAttrValue_none_list (cx : Comments) (fx : Bool) (l : List BExpr) :
    mergedAttrValue none (.list cx fx l) =
      if (l.filter (fun v => shouldKeep v)).isEmpty then none
      else some (.list {} false (l.filter (fun v => shouldKeep v))) := by
  simp only [mergedAttrValue, mergeExpr_none_list]

theorem mergeAttrs_findAttrY (gen old : CallE) (k : String) (cb cl cx : Comments)
    (fx : Bool) (l : List BExpr)
    (hk : mergeableFields k = true)
    (hgen : attrOf gen k = none)
    (hdefn : attrDefn old k = some (.binary cb "=" (.lit cl k) (.list cx fx l))) :
    ∀ ks : List String, findAttrY (mergeAttrs gen old ks) k =
      if k ∈ ks then
        (if (l.filter (fun v => shouldKeep v)).isEmpty then none
         else some (.list {} false (l.filter (fun v => shouldKeep v))))
      else none := by
  intro ks
  induction ks with
  | nil => simp [mergeAttrs, findAttrY, findAttrDefn]
  | cons k' ks ih =>
    simp only [mergeAttrs]
    by_cases hkk : k' = k
    · subst hkk
      rw [hdefn]
      simp only [hk, if_true, defnY]
      rw [hgen, mergedAttrValue_none_list]
      by_cases hE : (l.filter (fun v => shouldKeep v)).isEmpty
      · rw [if_pos hE]
        rw [ih]
        by_cases hmem : k' ∈ ks
        · simp [hmem, hE]
        · simp [hmem, hE]
      · rw [if_neg hE]
        simp only [findAttrY, findAttrDefn, List.find?, setDefnY]
        have hkey : attrKeyOf (BExpr.binary cb "=" (.lit cl k')
            (.list {} false (l.filter (fun v => shouldKeep v)))) = some k' := by
          simp [attrKeyOf]
        simp [hkey, hE, defnY]
    · have hkk' : ¬(k = k') := fun he => hkk he.symm
      split
      · rw [ih]; simp [hkk']
      · next defn hd =>
        have hkeydefn : attrKeyOf defn = some k' := by
          have := List.find?_some hd
          simpa using this
        split
        · split
          · rw [ih]; simp [hkk']
          · next oldE hy =>
            split
            · next m hmv =>
              simp only [findAttrY, findAttrDefn, List.find?]
              rw [attrKeyOf_setDefnY, hkeydefn]
              have hdec : (decide (attrKeyOf defn = some k)) = false := by
                simp [hkeydefn, hkk]
              simp only [Option.some.injEq, hkk, decide_eq_true_eq, if_false]
              simpa [findAttrY, findAttrDefn, hkk'] using ih
            · rw [ih]; simp [hkk']
        · simp only [findAttrY, findAttrDefn, List.find?]
          rw [hkeydefn]
          simp only [Option.some.injEq, hkk, decide_eq_true_eq, if_false]
          simpa [findAttrY, findAttrDefn, hkk'] using ih

/-- C10: for a mergeable attribute (`srcs`, `deps`, `library`) whose
value on the existing rule is a list and which is absent from the
generated rule, the merged rule keeps exactly the keep-marked existing
elements, and omits the attribute entirely when no element is kept. -/
theorem mergeRule_absent_attr (gen old : CallE) (k : String) (cb cl cx : Comments)
    (fx : Bool) (l : List BExpr)
    (hk : mergeableFields k = true)
    (hgen : attrOf gen k = none)
    (hdefn : attrDefn old k = some (.binary cb "=" (.lit cl k) (.list cx fx l))) :
    attrOf (mergeRule gen old) k =
      if (l.filter (fun v => shouldKeep v)).isEmpty then none
      else some (.list {} false (l.filter (fun v => shouldKeep v))) := by
  have hmem : k ∈ callAttrKeys old := by
    simp only [callAttrKeys, List.mem_filterMap]
    refine ⟨_, List.mem_of_find?_eq_some hdefn, ?_⟩
    have := List.find?_some hdefn
    simpa using this
  simp only [mergeRule]
  rw [addGenAttrs_attrOf_ne gen k hgen _ _ (fun x hx => hx)]
  show findAttrY (old.args.takeWhile (fun a => !(isEqBinary a)) ++
      mergeAttrs gen old (callAttrKeys old)) k = _
  rw [show findAttrY (old.args.takeWhile (fun a => !(isEqBinary a)) ++
      mergeAttrs gen old (callAttrKeys old)) k =
      findAttrY (mergeAttrs gen old (callAttrKeys old)) k from ?_]
  · rw [mergeAttrs_findAttrY gen old k cb cl cx fx l hk hgen hdefn]
    simp [hmem]
  · simp only [findAttrY, findAttrDefn, List.find?_append]
    have hpos : (old.args.takeWhile (fun a => !(isEqBinary a))).find?
        (fun a => attrKeyOf a = some k) = none := by
      rw [List.find?_eq_none]
      intro a ha
      have hpa := List.mem_takeWhile_imp ha
      simp only [Bool.not_eq_true'] at hpa
      intro hcontra
      simp only [decide_eq_true_eq] at hcontra
      rw [attrKeyOf_isEqBinary a k hcontra] at hpa
      exact absurd hpa (by simp)
    rw [hpos]
    rfl

/-- C10 witness existing rule: `go_library(name = "l", deps = ["//a:a",
"//b:b"  # keep])`. -/
def c10Old : CallE :=
  { fn := .lit {} "go_library",
    args := [.binary {} "=" (.lit {} "name") (.str {} "l"),
      .binary {} "=" (.lit {} "deps")
        (.list {} false [.str {} "//a:a", .str { suffix := [keepMarker] } "//b:b"])] }

/-- C10 witness generated rule without a `deps` attribute. -/
def c10Gen : CallE :=
  { fn := .lit {} "go_library",
    args := [.binary {} "=" (.lit {} "name") (.str {} "l")] }

theorem mergeRule_absent_attr_witness :
    mergeableFields "deps" = true ∧
    attrOf c10Gen "deps" = none ∧
    attrOf (mergeRule c10Gen c10Old) "deps" =
      some (.list {} false [.str { suffix := [keepMarker] } "//b:b"]) := by
  refine ⟨rfl, rfl, ?_⟩
  have h := mergeRule_absent_attr c10Gen c10Old "deps" {} {} {} false
    [.str {} "//a:a", .str { suffix := [keepMarker] } "//b:b"] rfl rfl rfl
  rw [h]
  rfl

/-- A file-system tree for the walker model: plain files, and
directories with a name, a readability flag (whether listing the
directory's entries succeeds) and children. -/
inductive FSEntry where
  | file (name : String)
  | dir (name : String) (readable : Bool) (children : List FSEntry)

/-- The name of an entry. -/
def FSEntry.name : FSEntry → String
  | .file n => n
  | .dir n _ _ => n

/-- The skip test of the Walk callback in walk.go:
`base == "" || base[0] == '.' || base == "testdata"`. -/
def skipName (base : String) : Bool :=
  base = "" || tokenStarts base "." || base = "testdata"

/-- Return value of the walk callback: continue, skip this directory,
or propagate an error (which stops the whole walk). -/
inductive FnOut where
  | ok
  | skipDir
  | failErr
deriving DecidableEq

/-- The callback passed to `filepath.Walk` by `Walk` in walk.go: an
incoming I/O error is returned as-is (aborting the walk); files are
ignored; dot- and testdata-directories are skipped; otherwise
`FindPackage` (abstracted as `find`, which returns none when package
resolution fails or logs an error) is consulted and the callback `f` is
invoked on its result. The second component is the list of packages
passed to `f` by this invocation. -/
def walkFn (find : String → Option Package) (path base : String) (isDir errIn : Bool) :
    FnOut × List Package :=
  if errIn then (.failErr, [])
  else if !isDir then (.ok, [])
  else if skipName base then (.skipDir, [])
  else
    match find path with
    | some pkg => (.ok, [pkg])
    | none => (.ok, [])

mutual

/-- Modelled from the documented semantics of Go's `filepath.Walk`
(stdlib, external to this repository): visit the entry (calling the
callback), and for a directory whose listing fails call the callback
again with the error — a non-nil, non-SkipDir return aborts the entire
walk; otherwise recurse into the children, stopping at the first
aborting child. Returns the packages delivered to the walk callback
and whether the walk aborted with an error (which `Walk` then logs). -/
def walkEntry (find : String → Option Package) (path : String) : FSEntry → List Package × Bool
  | .file n => ((walkFn find path n false false).2, false)
  | .dir n readable children =>
    let r := walkFn find path n true false
    match r.1 with
    | .skipDir => (r.2, false)
    | .failErr => (r.2, true)
    | .ok =>
      if readable then
        let rest := walkList find path children
        (r.2 ++ rest.1, rest.2)
      else
        let r2 := walkFn find path n true true
        (r.2 ++ r2.2, r2.1 = .failErr)

/-- The sibling loop of `filepath.Walk`: walk each child in order; an
aborting child stops the loop (later siblings are not visited). -/
def walkList (find : String → Option Package) (parent : String) :
    List FSEntry → List Package × Bool
  | [] => ([], false)
  | c :: rest =>
    let rc := walkEntry find (parent ++ "/" ++ c.name) c
    if rc.2 then (rc.1, true)
    else
      let rr := walkList find parent rest
      (rc.1 ++ rr.1, rr.2)

end

/-- `Walk(…, dir, f)` from walk.go over the file-system model: run the
traversal from the root; the Boolean records whether `filepath.Walk`
returned an error (which `Walk` logs). -/
def goWalk (find : String → Option Package) (rootPath : String) (root : FSEntry) :
    List Package × Bool :=
  walkEntry find rootPath root

mutual

/-- The packages the walk is expected to deliver per the claim: every
non-skipped directory contributes its resolved package (if any), and
all children are visited. -/
def visitPkgs (find : String → Option Package) (path : String) : FSEntry → List Package
  | .file _ => []
  | .dir n _ children =>
    if skipName n then []
    else (find path).toList ++ visitList find path children

/-- Expected packages of a list of sibling entries. -/
def visitList (find : String → Option Package) (parent : String) :
    List FSEntry → List Package
  | [] => []
  | c :: rest => visitPkgs find (parent ++ "/" ++ c.name) c ++ visitList find parent rest

end

mutual

/-- Whether every directory in the tree is readable. -/
def allReadable : FSEntry → Bool
  | .file _ => true
  | .dir _ r children => r && allReadableList children

/-- `allReadable` over a list of entries. -/
def allReadableList : List FSEntry → Bool
  | [] => true
  | c :: rest => allReadable c && allReadableList rest

end

theorem walkFn_dir_noerr (find : String → Option Package) (path n : String) :
    walkFn find path n true false =
      (if skipName n then (.skipDir, []) else (.ok, (find path).toList)) := by
  simp only [walkFn, Bool.not_true, Bool.false_eq_true, if_false]
  by_cases hs : skipName n
  · simp [hs]
  · cases hf : find path <;> simp [hs, hf]

theorem walk_no_abort (find : String → Option Package) (t : FSEntry) :
    ∀ path, allReadable t = true → walkEntry find path t = (visitPkgs find path t, false) := by
  refine @FSEntry.rec
    (fun t => ∀ path, allReadable t = true →
      walkEntry find path t = (visitPkgs find path t, false))
    (fun l => ∀ parent, allReadableList l = true →
      walkList find parent l = (visitList find parent l, false))
    ?_ ?_ ?_ ?_ t
  · intro n path _
    simp [walkEntry, walkFn, visitPkgs]
  · intro n r children ih path h
    simp only [allReadable, Bool.and_eq_true] at h
    obtain ⟨hr, hcl⟩ := h
    subst hr
    rw [walkEntry, walkFn_dir_noerr]
    by_cases hskip : skipName n
    · simp [hskip, visitPkgs]
    · simp only [hskip, if_false, Bool.false_eq_true, if_true]
      rw [ih path hcl]
      simp [visitPkgs, hskip]
  · intro parent _
    simp [walkList, visitList]
  · intro c rest ih1 ih2 parent h
    simp only [allReadableList, Bool.and_eq_true] at h
    obtain ⟨h1, h2⟩ := h
    rw [walkList, ih1 _ h1, ih2 parent h2]
    simp [visitList]

/-- C4 (amended): resolution failures do not abort the walk: as long as
every directory listing succeeds, the walk never aborts, visits every
non-skipped directory (siblings included) and delivers exactly the
resolved packages to the callback — in particular `FindPackage`
returning nil for a directory (a logged resolution or read error inside
package reading) only skips that directory. An I/O error surfaced by
the underlying `filepath.Walk` itself (an unreadable directory),
however, aborts the entire traversal (see the counterexample). -/
theorem goWalk_no_abort (find : String → Option Package) (rootPath : String) (root : FSEntry)
    (h : allReadable root = true) :
    goWalk find rootPath root = (visitPkgs find rootPath root, false) :=
  walk_no_abort find root rootPath h

/-- C4 counterexample package for directory `r/b`. -/
def c4Pkg : Package := { name := "b", dir := "r/b", goFiles := ["b.go"] }

/-- C4 counterexample resolver: only `r/b` has a package. -/
def c4Find : String → Option Package :=
  fun p => if p = "r/b" then some c4Pkg else none

/-- C4 counterexample tree: unreadable directory `a` before its sibling
`b`. -/
def c4Tree : FSEntry := .dir "r" true [.dir "a" false [], .dir "b" true []]

/-- C4: the claim as stated is false: with an unreadable directory `a`
ordered before its sibling `b`, the walk aborts at `a` (filepath.Walk
propagates the error returned by the callback), so `b` is never
visited and its package is not passed to the callback, although the
resolver would deliver it. -/
theorem walk_abort_claim_false :
    goWalk c4Find "r" c4Tree = ([], true) ∧
    c4Find "r/b" = some c4Pkg ∧
    visitPkgs c4Find "r" c4Tree = [c4Pkg] := ⟨rfl, rfl, rfl⟩

/-- C4 witness tree: same shape but with `a` readable. -/
def c4TreeReadable : FSEntry := .dir "r" true [.dir "a" true [], .dir "b" true []]

theorem goWalk_no_abort_witness :
    allReadable c4TreeReadable = true ∧
    goWalk c4Find "r" c4TreeReadable = ([c4Pkg], false) := by
  refine ⟨rfl, ?_⟩
  rw [goWalk_no_abort c4Find "r" c4TreeReadable rfl]
  rfl

/-- C6 counterexample generated file: one rule whose `deps` is a select
over a condition with an empty list value. -/
def c6Gen : BFile :=
  ⟨[.call {} (.lit {} "go_library")
      [.binary {} "=" (.lit {} "name") (.str {} "a"),
       .binary {} "=" (.lit {} "deps")
         (.call {} (.lit {} "select")
           [.dict {} false [.kv {} (.str {} "c") (.list {} false [])]])]]⟩

/-- C6 counterexample existing file: the same rule with a kept `deps`
element. -/
def c6Old : BFile :=
  ⟨[.call {} (.lit {} "go_library")
      [.binary {} "=" (.lit {} "name") (.str {} "a"),
       .binary {} "=" (.lit {} "deps")
         (.list {} false [.str { suffix := [keepMarker] } "x"])]]⟩

/-- The first merge result of the C6 counterexample. -/
def c6M1 : BFile :=
  match mergeWithExisting c6Gen c6Old with
  | .merged f => f
  | _ => ⟨[]⟩

/-- The second merge result of the C6 counterexample. -/
def c6M2 : BFile :=
  match mergeWithExisting c6Gen c6M1 with
  | .merged f => f
  | _ => ⟨[]⟩

/-- The `deps` value of the first statement of a file. -/
def firstDeps (f : BFile) : Option BExpr :=
  match f.stmts with
  | s :: _ =>
    match asCall s with
    | some c => attrOf c "deps"
    | none => none
  | [] => none

/-- Whether an optional expression is a `+` binary expression. -/
def isBinaryPlus : Option BExpr → Bool
  | some (.binary _ "+" _ _) => true
  | _ => false

/-- C6: the claim as stated is false: merging the generated file
against the output of a previous merge does not reproduce that output.
After the first merge the rule's `deps` is `["x"] + select({"c": []})`;
in the second merge the select dictionary collapses (its only condition
merges to an empty list and is dropped), leaving a bare list, so the
structure changes. -/
theorem mergeWithExisting_idem_claim_false :
    mergeWithExisting c6Gen c6Old = .merged c6M1 ∧
    mergeWithExisting c6Gen c6M1 = .merged c6M2 ∧
    isBinaryPlus (firstDeps c6M1) = true ∧
    isBinaryPlus (firstDeps c6M2) = false ∧
    c6M1 ≠ c6M2 := by
  refine ⟨rfl, rfl, rfl, rfl, ?_⟩
  intro h
  have h1 : isBinaryPlus (firstDeps c6M1) = true := rfl
  rw [h] at h1
  have h2 : isBinaryPlus (firstDeps c6M2) = false := rfl
  rw [h1] at h2
  exact Bool.noConfusion h2

/-- No element of the list carries a keep marker (generated elements
have no comments). -/
def noKeepElems (l : List BExpr) : Bool := l.all (fun v => !(shouldKeep v))

theorem filter_keep_of_noKeep (l : List BExpr) (h : noKeepElems l = true) :
    l.filter (fun v => shouldKeep v) = [] := by
  rw [List.filter_eq_nil]
  intro a ha
  simp only [noKeepElems, List.all_eq_true] at h
  have := h a ha
  simp only [Bool.not_eq_true'] at this
  simp [this]

theorem mergeList_some_shape (g : Option ListE) (o m1 : ListE)
    (h : mergeList g (some o) = some m1) :
    m1 = { elems := o.elems.filter (fun v => shouldKeep v) ++
        (g.getD { elems := [] }).elems.filter (fun v =>
          ¬ (((o.elems.filter (fun v => shouldKeep v)).map stringValue).filter
              (fun s => s ≠ "")).any (fun s => s = stringValue v)) } ∧
      m1.elems ≠ [] := by
  simp only [mergeList, keepLoop_eq, genLoop_eq] at h
  split at h
  · exact absurd h (by simp)
  · next hne =>
    simp only [Option.some.injEq] at h
    subst h
    refine ⟨rfl, ?_⟩
    simpa [List.isEmpty_iff] using hne

/-- List-merge idempotence: when no generated element carries a keep
marker, re-merging the generated list into a previous merge result
reproduces it. -/
theorem mergeList_idem (g : Option ListE) (o m1 : ListE)
    (hg : ∀ l, g = some l → noKeepElems l.elems = true)
    (h : mergeList g (some o) = some m1) :
    mergeList g (some m1) = some m1 := by
  obtain ⟨hm1, hne⟩ := mergeList_some_shape g o m1 h
  have hgenfilt : ∀ p : BExpr → Bool,
      ((g.getD { elems := [] }).elems.filter p).filter (fun v => shouldKeep v) = [] := by
    intro p
    rw [List.filter_eq_nil]
    intro a ha
    have ha' := List.mem_of_mem_filter ha
    cases hg' : g with
    | none => rw [hg'] at ha'; simp at ha'
    | some l =>
      rw [hg'] at ha'
      simp only [Option.getD_some] at ha'
      have := hg l hg'
      simp only [noKeepElems, List.all_eq_true] at this
      have := this a ha'
      simp only [Bool.not_eq_true'] at this
      simp [this]
  have hkeep2 : m1.elems.filter (fun v => shouldKeep v) =
      o.elems.filter (fun v => shouldKeep v) := by
    rw [hm1]
    simp only [List.filter_append]
    rw [List.filter_filter]
    rw [hgenfilt]
    simp only [List.append_nil, Bool.and_self]
  simp only [mergeList, keepLoop_eq, genLoop_eq, hkeep2]
  split
  · next hE =>
    exfalso
    rw [List.isEmpty_iff] at hE
    rw [hm1] at hne
    exact hne (by simpa using hE)
  · next hE =>
    rw [hm1]

/-- Merging a canonical list with itself reproduces it. -/
theorem mergeList_self (l : ListE) (hk : noKeepElems l.elems = true) :
    mergeList (some l) (some l) =
      if l.elems.isEmpty then none else some { elems := l.elems } := by
  simp only [mergeList, keepLoop_eq, genLoop_eq, filter_keep_of_noKeep l.elems hk]
  simp only [List.map_nil, List.filter_nil, List.any_nil, Bool.false_eq_true, decide_not,
    decide_False, Bool.not_false, List.filter_true, List.nil_append, Option.getD_some]

/-- Strictly ascending list of strings. -/
def strAsc : List String → Bool
  | [] => true
  | [_] => true
  | a :: b :: t => (a < b) && strAsc (b :: t)

theorem strAsc_pairwise :
    ∀ l : List String, strAsc l = true → List.Pairwise (fun a b : String => a < b) l := by
  intro l
  induction l with
  | nil => intro _; exact List.Pairwise.nil
  | cons a t ih =>
    intro h
    cases t with
    | nil => exact List.pairwise_singleton _ _
    | cons b t' =>
      simp only [strAsc, Bool.and_eq_true, decide_eq_true_eq] at h
      obtain ⟨hab, ht⟩ := h
      have hp := ih ht
      refine List.Pairwise.cons ?_ hp
      intro c hc
      rcases List.mem_cons.mp hc with h1 | h1
      · subst h1; exact hab
      · have := (List.pairwise_cons.mp hp).1 c h1
        exact lt_trans hab this

theorem strAsc_sorted (l : List String) (h : strAsc l = true) :
    List.Sorted (fun a b : String => a ≤ b) l :=
  (strAsc_pairwise l h).imp le_of_lt

theorem strAsc_nodup (l : List String) (h : strAsc l = true) : l.Nodup :=
  (strAsc_pairwise l h).imp ne_of_lt

theorem sortStrings_of_sorted (l : List String)
    (h : List.Sorted (fun a b : String => a ≤ b) l) : sortStrings l = l :=
  List.Sorted.insertionSort_eq h

/-- The key of a canonical dict entry. -/
def entryKey : BExpr → String
  | .kv _ (.str _ k) _ => k
  | _ => ""

/-- The value of a canonical dict entry. -/
def entryVal : BExpr → ListE
  | .kv _ _ (.list c f es) => ⟨c, f, es⟩
  | _ => { elems := [] }

/-- A canonical dict entry: a comment-free key-value pair with a string
key and a non-empty, comment-free, single-line list value without keep
markers. -/
def canonDictEntry (e : BExpr) : Bool :=
  match e with
  | .kv c (.str ck _) (.list cl fl es) =>
    c = ({} : Comments) && ck = ({} : Comments) && cl = ({} : Comments) && fl = false &&
    !es.isEmpty && noKeepElems es
  | _ => false

/-- The keys of a dict entry list. -/
def entriesKeys (entries : List BExpr) : List String := entries.map entryKey

/-- Canonical key order: the non-default keys strictly ascending, with
the default case, if present, exactly once and last. -/
def canonKeys (ks : List String) : Bool :=
  (decide (ks = ks.filter (fun k => k ≠ defaultCondition)) ||
    decide (ks = ks.filter (fun k => k ≠ defaultCondition) ++ [defaultCondition])) &&
  strAsc (ks.filter (fun k => k ≠ defaultCondition))

/-- A canonical select dictionary node: comment-free, multi-line, with
at least one entry, every entry canonical, and canonical key order. -/
def canonDictNode (e : BExpr) : Bool :=
  match e with
  | .dict c f entries =>
    c = ({} : Comments) && f = true && !entries.isEmpty &&
    entries.all canonDictEntry && canonKeys (entriesKeys entries)
  | _ => false

theorem canonDictEntry_parse (e : BExpr) (h : canonDictEntry e = true) :
    dictEntryKeyValue e = .ok (entryKey e, entryVal e) := by
  unfold canonDictEntry at h
  split at h
  · rfl
  · exact absurd h (by simp)

theorem canonDictEntry_eta (e : BExpr) (h : canonDictEntry e = true) :
    e = .kv {} (.str {} (entryKey e)) (ListE.toExpr (entryVal e)) ∧
    (entryVal e).com = ({} : Comments) ∧ (entryVal e).forceMultiLine = false ∧
    (entryVal e).elems ≠ [] ∧ noKeepElems (entryVal e).elems = true := by
  unfold canonDictEntry at h
  split at h
  · next c ck k cl fl es =>
    simp only [Bool.and_eq_true, decide_eq_true_eq, Bool.not_eq_true'] at h
    obtain ⟨⟨⟨⟨⟨hc, hck⟩, hcl⟩, hfl⟩, hes⟩, hkeep⟩ := h
    subst hc; subst hck; subst hcl; subst hfl
    refine ⟨rfl, rfl, rfl, ?_, hkeep⟩
    intro hE
    simp only [entryVal] at hE
    rw [hE] at hes
    exact absurd hes (by simp)
  · exact absurd h (by simp)

theorem canonKeys_nodup (ks : List String) (h : canonKeys ks = true) : ks.Nodup := by
  simp only [canonKeys, Bool.and_eq_true, Bool.or_eq_true, decide_eq_true_eq] at h
  obtain ⟨hshape, hasc⟩ := h
  have hnd := strAsc_nodup _ hasc
  rcases hshape with h1 | h1
  · rw [h1]; exact hnd
  · rw [h1]
    rw [List.nodup_append]
    refine ⟨hnd, List.nodup_singleton _, ?_⟩
    intro a ha hb
    simp only [List.mem_singleton] at hb
    subst hb
    have := List.of_mem_filter ha
    simp at this

theorem dictEntryKeyValue_shape (e : BExpr) (k : String) (v : ListE)
    (h : dictEntryKeyValue e = .ok (k, v)) : k = entryKey e ∧ v = entryVal e := by
  unfold dictEntryKeyValue at h
  split at h <;> first
    | (simp only [Except.ok.injEq, Prod.mk.injEq] at h
       obtain ⟨h1, h2⟩ := h
       subst h1; subst h2
       exact ⟨rfl, rfl⟩)
    | exact absurd h (by simp)

theorem oldEntriesLoop_shape :
    ∀ (todo : List BExpr) (acc es : List DictEntryM), oldEntriesLoop acc todo = .ok es →
      es = acc ++ todo.map (fun e => { key := entryKey e, oldValue := some (entryVal e) }) ∧
      ∀ e ∈ todo, dictEntryKeyValue e = .ok (entryKey e, entryVal e) := by
  intro todo
  induction todo with
  | nil =>
    intro acc es h
    simp only [oldEntriesLoop] at h
    cases h
    simp
  | cons e rest ih =>
    intro acc es h
    simp only [oldEntriesLoop] at h
    split at h
    · exact absurd h (by simp)
    · next k' v hkv =>
      split at h
      · exact absurd h (by simp)
      · obtain ⟨hk', hv⟩ := dictEntryKeyValue_shape e k' v hkv
        subst hk'; subst hv
        obtain ⟨hshape, hparse⟩ := ih _ _ h
        refine ⟨?_, ?_⟩
        · rw [hshape]
          simp [List.append_assoc]
        · intro e' he'
          rcases List.mem_cons.mp he' with h1 | h1
          · subst h1; exact hkv
          · exact hparse e' h1

theorem oldEntriesLoop_canon :
    ∀ (todo : List BExpr) (acc : List DictEntryM),
      (∀ e ∈ todo, dictEntryKeyValue e = .ok (entryKey e, entryVal e)) →
      (acc.map (fun d => d.key) ++ todo.map entryKey).Nodup →
      oldEntriesLoop acc todo =
        .ok (acc ++ todo.map (fun e => { key := entryKey e, oldValue := some (entryVal e) })) := by
  intro todo
  induction todo with
  | nil =>
    intro acc _ _
    simp [oldEntriesLoop]
  | cons e rest ih =>
    intro acc hp hnd
    simp only [oldEntriesLoop, hp e (by simp)]
    have hnotin : entryKey e ∉ acc.map (fun d => d.key) := by
      simp only [List.map_cons] at hnd
      rw [List.nodup_append] at hnd
      intro hmem
      exact hnd.2.2 hmem (by simp)
    have hany : (acc.any (fun d => d.key = entryKey e)) = false := by
      rw [Bool.eq_false_iff]
      intro hc
      rw [List.any_eq_true] at hc
      obtain ⟨d, hd, hdk⟩ := hc
      simp only [decide_eq_true_eq] at hdk
      exact hnotin (List.mem_map.mpr ⟨d, hd, hdk⟩)
    rw [if_neg (by simp [hany])]
    rw [ih _ (fun e' he' => hp e' (by simp [he'])) ?_]
    · simp [List.append_assoc]
    · simp only [List.map_append, List.map_cons, List.map_nil]
      have : acc.map (fun d => d.key) ++ [entryKey e] ++ rest.map entryKey =
          acc.map (fun d => d.key) ++ entryKey e :: rest.map entryKey := by
        simp [List.append_assoc]
      rw [this]
      simpa using hnd

theorem genEntriesLoop_preserves :
    ∀ (todo : List BExpr) (acc es : List DictEntryM), genEntriesLoop acc todo = .ok es →
      ∀ (k : String) (ov gv : Option ListE), (∀ e ∈ todo, entryKeyIs k e = false) →
        (∃ d ∈ acc, d.key = k ∧ d.oldValue = ov ∧ d.genValue = gv) →
        ∃ d ∈ es, d.key = k ∧ d.oldValue = ov ∧ d.genValue = gv := by
  intro todo
  induction todo with
  | nil =>
    intro acc es h k ov gv _ hex
    simp only [genEntriesLoop] at h
    cases h
    exact hex
  | cons e rest ih =>
    intro acc es h k ov gv hnk hex
    simp only [genEntriesLoop] at h
    split at h
    · exact absurd h (by simp)
    · next k' v hkv =>
      have hk'ne : k' ≠ k := by
        have := hnk e (by simp)
        simp only [entryKeyIs, hkv] at this
        simpa using this
      split at h
      · refine ih _ _ h k ov gv (fun e' he' => hnk e' (by simp [he'])) ?_
        obtain ⟨d, hd, hdk, hdo, hdg⟩ := hex
        refine ⟨if d.key = k' then { d with genValue := some v } else d,
          List.mem_map.mpr ⟨d, hd, rfl⟩, ?_⟩
        rw [if_neg (by rw [hdk]; exact fun hc => hk'ne hc.symm)]
        exact ⟨hdk, hdo, hdg⟩
      · refine ih _ _ h k ov gv (fun e' he' => hnk e' (by simp [he'])) ?_
        obtain ⟨d, hd, hdk, hdo, hdg⟩ := hex
        exact ⟨d, List.mem_append_left _ hd, hdk, hdo, hdg⟩

theorem genEntriesLoop_sets :
    ∀ (todo : List BExpr) (acc es : List DictEntryM), genEntriesLoop acc todo = .ok es →
      (todo.map entryKey).Nodup →
      ∀ e ∈ todo, ∃ d ∈ es, d.key = entryKey e ∧ d.genValue = some (entryVal e) := by
  intro todo
  induction todo with
  | nil =>
    intro acc es _ _ e he
    exact absurd he (by simp)
  | cons e0 rest ih =>
    intro acc es h hnd e he
    simp only [genEntriesLoop] at h
    split at h
    · exact absurd h (by simp)
    · next k' v hkv =>
      obtain ⟨hk', hv⟩ := dictEntryKeyValue_shape e0 k' v hkv
      subst hk'; subst hv
      rcases List.mem_cons.mp he with h1 | h1
      · subst h1
        have hnotrest : ∀ e' ∈ rest, entryKeyIs (entryKey e) e' = false := by
          intro e' he'
          simp only [entryKeyIs]
          cases hkv' : dictEntryKeyValue e' with
          | error msg => rfl
          | ok kv =>
            obtain ⟨k2, v2⟩ := kv
            obtain ⟨hk2, _⟩ := dictEntryKeyValue_shape e' k2 v2 hkv'
            subst hk2
            simp only [List.map_cons, List.nodup_cons] at hnd
            have : entryKey e' ≠ entryKey e := by
              intro hc
              exact hnd.1 (hc ▸ List.mem_map.mpr ⟨e', he', rfl⟩)
            simpa using this
        split at h
        · next hdup =>
          have hex : ∃ d ∈ acc.map (fun d =>
              if d.key = entryKey e then { d with genValue := some (entryVal e) } else d),
              d.key = entryKey e ∧ d.oldValue = d.oldValue ∧
                d.genValue = some (entryVal e) := by
            rw [List.any_eq_true] at hdup
            obtain ⟨d, hd, hdk⟩ := hdup
            simp only [decide_eq_true_eq] at hdk
            refine ⟨{ d with genValue := some (entryVal e) },
              List.mem_map.mpr ⟨d, hd, by rw [if_pos hdk]⟩, hdk, rfl, rfl⟩
          obtain ⟨d, hd, hdk, _, hdg⟩ := hex
          obtain ⟨d', hd', hdk', _, hdg'⟩ :=
            genEntriesLoop_preserves rest _ _ h (entryKey e) d.oldValue
              (some (entryVal e)) hnotrest ⟨d, hd, hdk, rfl, hdg⟩
          exact ⟨d', hd', hdk', hdg'⟩
        · have hex : ∃ d ∈ acc ++ [{ key := entryKey e, genValue := some (entryVal e) }],
              d.key = entryKey e ∧ d.oldValue = none ∧ d.genValue = some (entryVal e) := by
            refine ⟨{ key := entryKey e, genValue := some (entryVal e) },
              List.mem_append_right _ (by simp), rfl, rfl, rfl⟩
          obtain ⟨d, hd, hdk, hdo, hdg⟩ := hex
          obtain ⟨d', hd', hdk', _, hdg'⟩ :=
            genEntriesLoop_preserves rest _ _ h (entryKey e) none
              (some (entryVal e)) hnotrest ⟨d, hd, hdk, hdo, hdg⟩
          exact ⟨d', hd', hdk', hdg'⟩
      · split at h
        · exact ih _ _ h (by simp only [List.map_cons, List.nodup_cons] at hnd; exact hnd.2)
            e h1
        · exact ih _ _ h (by simp only [List.map_cons, List.nodup_cons] at hnd; exact hnd.2)
            e h1

theorem genEntriesLoop_present :
    ∀ (todo : List BExpr) (acc : List DictEntryM),
      (∀ e ∈ todo, dictEntryKeyValue e = .ok (entryKey e, entryVal e)) →
      (todo.map entryKey).Nodup →
      (∀ e ∈ todo, ∃ d ∈ acc, d.key = entryKey e) →
      genEntriesLoop acc todo = .ok (acc.map (fun d =>
        match todo.find? (fun e => entryKey e = d.key) with
        | some e => { d with genValue := some (entryVal e) }
        | none => d)) := by
  intro todo
  induction todo with
  | nil =>
    intro acc _ _ _
    simp [genEntriesLoop]
  | cons e rest ih =>
    intro acc hp hnd hpres
    simp only [genEntriesLoop, hp e (by simp)]
    have hany : (acc.any (fun d => d.key = entryKey e)) = true := by
      rw [List.any_eq_true]
      obtain ⟨d, hd, hdk⟩ := hpres e (by simp)
      exact ⟨d, hd, by simp [hdk]⟩
    rw [if_pos (by simp [hany])]
    have hndr : (rest.map entryKey).Nodup := by
      simp only [List.map_cons, List.nodup_cons] at hnd
      exact hnd.2
    have hkey_notin : entryKey e ∉ rest.map entryKey := by
      simp only [List.map_cons, List.nodup_cons] at hnd
      exact hnd.1
    rw [ih _ (fun e' he' => hp e' (by simp [he'])) hndr ?_]
    · congr 1
      rw [List.map_map]
      apply List.map_congr_left
      intro d _
      simp only [Function.comp_apply]
      by_cases hdk : d.key = entryKey e
      · rw [if_pos hdk]
        have hfind1 : (e :: rest).find? (fun e' => entryKey e' = d.key) = some e := by
          simp [List.find?, hdk]
        have hfind2 : rest.find? (fun e' =>
            entryKey e' = ({ d with genValue := some (entryVal e) } : DictEntryM).key) =
            none := by
          rw [List.find?_eq_none]
          intro e' he'
          simp only [decide_eq_true_eq]
          intro hc
          exact hkey_notin (List.mem_map.mpr ⟨e', he', hc.trans hdk⟩)
        rw [hfind1, hfind2]
      · rw [if_neg hdk]
        have hd2 : (decide (entryKey e = d.key)) = false := by
          simp only [decide_eq_false_iff_not]
          exact fun hc => hdk hc.symm
        have : (e :: rest).find? (fun e' => entryKey e' = d.key) =
            rest.find? (fun e' => entryKey e' = d.key) := by
          simp only [List.find?]
          rw [hd2]
        rw [this]
    · intro e' he'
      obtain ⟨d, hd, hdk⟩ := hpres e' (by simp [he'])
      refine ⟨if d.key = entryKey e then { d with genValue := some (entryVal e) } else d,
        List.mem_map.mpr ⟨d, hd, rfl⟩, ?_⟩
      split <;> exact hdk

theorem lookupMerged_of_nodup (ms : List MergedEntry) (hnd : (ms.map (fun m => m.key)).Nodup)
    (m : MergedEntry) (hm : m ∈ ms) : lookupMerged ms m.key = m.value := by
  induction ms with
  | nil => exact absurd hm (by simp)
  | cons a rest ih =>
    simp only [List.map_cons, List.nodup_cons] at hnd
    rcases List.mem_cons.mp hm with h1 | h1
    · subst h1
      simp [lookupMerged, List.find?]
    · have hne : a.key ≠ m.key := by
        intro hc
        exact hnd.1 (hc ▸ List.mem_map.mpr ⟨m, h1, rfl⟩)
      simp only [lookupMerged, List.find?]
      rw [show (decide (a.key = m.key)) = false by simp [hne]]
      exact ih hnd.2 h1

theorem mergeList_canon_some (v : ListE) (hne : v.elems ≠ []) (o : Option ListE) :
    ∃ m : ListE, mergeList (some v) o = some m ∧ m.elems ≠ [] := by
  cases o with
  | none => exact ⟨v, rfl, hne⟩
  | some o' =>
    simp only [mergeList, keepLoop_eq, genLoop_eq, Option.getD_some]
    split
    · next hE =>
      exfalso
      rw [List.isEmpty_iff, List.append_eq_nil] at hE
      obtain ⟨h1, h2⟩ := hE
      rw [h1] at h2
      simp only [List.map_nil, List.filter_nil, List.any_nil, Bool.false_eq_true, decide_not,
        decide_False, Bool.not_false, List.filter_true] at h2
      exact hne h2
    · next hE =>
      refine ⟨_, rfl, ?_⟩
      simpa [List.isEmpty_iff] using hE

theorem find?_key_self {α : Type} (key : α → String) (l : List α)
    (hnd : (l.map key).Nodup) (x : α) (hx : x ∈ l) :
    l.find? (fun y => key y = key x) = some x := by
  induction l with
  | nil => exact absurd hx (by simp)
  | cons a rest ih =>
    simp only [List.map_cons, List.nodup_cons] at hnd
    rcases List.mem_cons.mp hx with h1 | h1
    · subst h1
      simp [List.find?]
    · have hne : key a ≠ key x := by
        intro hc
        exact hnd.1 (hc ▸ List.mem_map.mpr ⟨x, h1, rfl⟩)
      simp only [List.find?]
      rw [show (decide (key a = key x)) = false by simp [hne]]
      exact ih hnd.2 h1

/-- The per-entry merge of `mergeDict` as a named function. -/
def mergeEntryF (d : DictEntryM) : MergedEntry :=
  let mv := mergeList d.genValue d.oldValue
  if d.key = defaultCondition then
    { key := d.key, value := some (mv.getD { elems := [] }) }
  else { key := d.key, value := mv }

theorem mergeEntries_eq_map (es : List DictEntryM) :
    mergeEntries es = es.map mergeEntryF := rfl

theorem mergeEntryF_key (d : DictEntryM) : (mergeEntryF d).key = d.key := by
  simp only [mergeEntryF]
  split <;> rfl

theorem liveKeys_eq_filter (ms : List MergedEntry)
    (h : ∀ m ∈ ms, m.value.isSome = true) :
    liveKeys ms = (ms.map (fun m => m.key)).filter (fun k => k ≠ defaultCondition) := by
  induction ms with
  | nil => rfl
  | cons m rest ih =>
    have hm := h m (by simp)
    simp only [liveKeys, List.filter_cons, List.map_cons] at *
    by_cases hk : m.key = defaultCondition
    · simp only [hk, bne_self_eq_false, Bool.false_and, decide_eq_true_eq]
      rw [if_neg (by simp [hk]), if_neg (by simp)]
      exact ih (fun m' hm' => h m' (by simp [hm']))
    · rw [if_pos (by simp [hk, hm]), if_pos (by simp [hk])]
      simp only [List.map_cons]
      congr 1
      exact ih (fun m' hm' => h m' (by simp [hm']))

theorem liveKeys_mem (ms : List MergedEntry) (k : String) (hk : k ∈ liveKeys ms) :
    ∃ m ∈ ms, m.key = k ∧ k ≠ defaultCondition ∧ m.value.isSome = true := by
  simp only [liveKeys, List.mem_map, List.mem_filter] at hk
  obtain ⟨m, ⟨hm, hp⟩, hkey⟩ := hk
  simp only [Bool.and_eq_true, bne_iff_ne, ne_eq, decide_eq_true_eq] at hp
  subst hkey
  exact ⟨m, hm, rfl, by simpa using hp.1, hp.2⟩

theorem assembleDict_some_cond (ms : List MergedEntry) (d : DictE)
    (h : assembleDict ms = some d) :
    ((liveKeys ms).isEmpty && (!haveDefault ms || (defaultElems ms).isEmpty)) = false := by
  simp only [assembleDict] at h
  split at h
  · exact absurd h (by simp)
  · next hc => simpa using hc

/-- Canonical select dictionary as a `DictE`. -/
def canonDictE (d : DictE) : Bool :=
  d.com = ({} : Comments) && d.forceMultiLine = true && !d.entries.isEmpty &&
  d.entries.all canonDictEntry && canonKeys (entriesKeys d.entries)

/-- Merging a canonical dictionary with itself (regardless of the
node-level comments of the copies) reproduces the canonical node. -/
theorem mergeDict_self (g o : DictE) (entries : List BExpr)
    (hge : g.entries = entries) (hoe : o.entries = entries)
    (hcanon : entries.all canonDictEntry = true)
    (hkeys : canonKeys (entriesKeys entries) = true)
    (hne : entries ≠ []) :
    mergeDict (some g) (some o) = .ok (some { forceMultiLine := true, entries := entries }) := by
  have hp : ∀ e ∈ entries, dictEntryKeyValue e = .ok (entryKey e, entryVal e) := by
    intro e he
    exact canonDictEntry_parse e (by rw [List.all_eq_true] at hcanon; exact hcanon e he)
  have hnd : (entries.map entryKey).Nodup := by
    have := canonKeys_nodup _ hkeys
    simpa [entriesKeys] using this
  have h1 : oldEntriesLoop [] o.entries =
      .ok (entries.map (fun e => { key := entryKey e, oldValue := some (entryVal e) })) := by
    rw [hoe]
    have := oldEntriesLoop_canon entries [] hp (by simpa using hnd)
    simpa using this
  set es0 := entries.map (fun e =>
    ({ key := entryKey e, oldValue := some (entryVal e) } : DictEntryM)) with hes0
  have hes0keys : es0.map (fun d => d.key) = entries.map entryKey := by
    rw [hes0, List.map_map]
    rfl
  have h2 : genEntriesLoop es0 g.entries = .ok (entries.map (fun e =>
      ({ key := entryKey e, oldValue := some (entryVal e),
         genValue := some (entryVal e) } : DictEntryM))) := by
    rw [hge]
    rw [genEntriesLoop_present entries es0 hp hnd ?_]
    · congr 1
      rw [hes0, List.map_map]
      apply List.map_congr_left
      intro e he
      simp only [Function.comp_apply]
      rw [show es0.map (fun d => d.key) = entries.map entryKey from hes0keys] at *
      have hfind : entries.find? (fun e' => entryKey e' =
          ({ key := entryKey e, oldValue := some (entryVal e) } : DictEntryM).key) = some e :=
        find?_key_self entryKey entries hnd e he
      rw [hfind]
    · intro e he
      exact ⟨{ key := entryKey e, oldValue := some (entryVal e) },
        List.mem_map.mpr ⟨e, he, rfl⟩, rfl⟩
  set es1 := entries.map (fun e =>
    ({ key := entryKey e, oldValue := some (entryVal e),
       genValue := some (entryVal e) } : DictEntryM)) with hes1
  have hms : mergeEntries es1 = entries.map (fun e =>
      ({ key := entryKey e, value := some (entryVal e) } : MergedEntry)) := by
    rw [mergeEntries_eq_map, hes1, List.map_map]
    apply List.map_congr_left
    intro e he
    have hcan := canonDictEntry_eta e (by rw [List.all_eq_true] at hcanon; exact hcanon e he)
    obtain ⟨_, hcom, hfml, hvne, hvnk⟩ := hcan
    have hml : mergeList (some (entryVal e)) (some (entryVal e)) = some (entryVal e) := by
      rw [mergeList_self (entryVal e) hvnk]
      rw [if_neg (by simpa [List.isEmpty_iff] using hvne)]
      congr 1
      cases hEV : entryVal e with
      | mk c f es =>
        rw [hEV] at hcom hfml
        simp only at hcom hfml
        rw [hcom, hfml]
    simp only [Function.comp_apply, mergeEntryF, hml]
    split <;> rfl
  set ms := entries.map (fun e =>
    ({ key := entryKey e, value := some (entryVal e) } : MergedEntry)) with hmsdef
  have hmskeys : ms.map (fun m => m.key) = entries.map entryKey := by
    rw [hmsdef, List.map_map]
    rfl
  have hmsnd : (ms.map (fun m => m.key)).Nodup := by rw [hmskeys]; exact hnd
  have hlive : liveKeys ms = (entries.map entryKey).filter (fun k => k ≠ defaultCondition) := by
    rw [liveKeys_eq_filter ms ?_, hmskeys]
    intro m hm
    rw [hmsdef] at hm
    simp only [List.mem_map] at hm
    obtain ⟨e, _, he⟩ := hm
    rw [← he]
    rfl
  have hassemble : assembleDict ms = some { forceMultiLine := true, entries := entries } := by
    simp only [canonKeys, Bool.and_eq_true, Bool.or_eq_true, decide_eq_true_eq,
      entriesKeys] at hkeys
    obtain ⟨hshape, hasc⟩ := hkeys
    have hsortnd : sortStrings ((entries.map entryKey).filter
        (fun k => k ≠ defaultCondition)) =
        (entries.map entryKey).filter (fun k => k ≠ defaultCondition) :=
      sortStrings_of_sorted _ (strAsc_sorted _ hasc)
    have hvals : ∀ e ∈ entries,
        lookupMerged ms (entryKey e) = some (entryVal e) := by
      intro e he
      have hmem : ({ key := entryKey e, value := some (entryVal e) } : MergedEntry) ∈ ms := by
        rw [hmsdef]
        exact List.mem_map.mpr ⟨e, he, rfl⟩
      have := lookupMerged_of_nodup ms hmsnd _ hmem
      simpa using this
    have hentries_eta : ∀ f : String → BExpr,
        (∀ e ∈ entries, f (entryKey e) = e) → (entries.map entryKey).map f = entries := by
      intro f hf
      rw [List.map_map]
      have : entries.map (f ∘ entryKey) = entries.map id := by
        apply List.map_congr_left
        intro e he
        simp only [Function.comp_apply, id]
        exact hf e he
      rw [this, List.map_id]
    rcases hshape with hks | hks
    · -- no default case in the keys
      have hhd : haveDefault ms = false := by
        rw [Bool.eq_false_iff]
        intro hc
        simp only [haveDefault, List.any_eq_true, decide_eq_true_eq] at hc
        obtain ⟨m, hm, hmk⟩ := hc
        have hmem : defaultCondition ∈ ms.map (fun m => m.key) :=
          hmk ▸ List.mem_map.mpr ⟨m, hm, rfl⟩
        rw [hmskeys] at hmem
        rw [hks] at hmem
        have := List.of_mem_filter hmem
        simp at this
      have hlivene : liveKeys ms ≠ [] := by
        rw [hlive]
        intro hc
        rw [← hks] at hc
        exact hne (List.map_eq_nil.mp hc)
      have hmap : ((entries.map entryKey).filter (fun k => k ≠ defaultCondition)).map
          (fun k => BExpr.kv {} (.str {} k)
            (ListE.toExpr ((lookupMerged ms k).getD { elems := [] }))) = entries := by
        rw [← hks]
        apply hentries_eta
        intro e he
        rw [hvals e he]
        simp only [Option.getD_some]
        exact ((canonDictEntry_eta e
          (by rw [List.all_eq_true] at hcanon; exact hcanon e he)).1).symm
      simp only [assembleDict, hhd]
      rw [if_neg (by simp [List.isEmpty_iff, hlivene])]
      rw [hlive, hsortnd]
      simp only [Bool.false_eq_true, if_false, hmap]
    · -- default case present and last
      have hdefmem : ∃ e ∈ entries, entryKey e = defaultCondition := by
        have : defaultCondition ∈ entries.map entryKey := by
          rw [hks]
          simp
        obtain ⟨e, he, hek⟩ := List.mem_map.mp this
        exact ⟨e, he, hek⟩
      obtain ⟨edef, hedef, hedefk⟩ := hdefmem
      have hhd : haveDefault ms = true := by
        simp only [haveDefault, List.any_eq_true, decide_eq_true_eq]
        refine ⟨{ key := entryKey edef, value := some (entryVal edef) }, ?_, hedefk⟩
        rw [hmsdef]
        exact List.mem_map.mpr ⟨edef, hedef, rfl⟩
      have hdefval : lookupMerged ms defaultCondition = some (entryVal edef) := by
        rw [← hedefk]
        exact hvals edef hedef
      have hdefelems : defaultElems ms ≠ [] := by
        simp only [defaultElems, hdefval]
        exact (canonDictEntry_eta edef
          (by rw [List.all_eq_true] at hcanon; exact hcanon edef hedef)).2.2.2.1
      have hmap : (((entries.map entryKey).filter (fun k => k ≠ defaultCondition)) ++
          [defaultCondition]).map
          (fun k => BExpr.kv {} (.str {} k)
            (ListE.toExpr ((lookupMerged ms k).getD { elems := [] }))) = entries := by
        rw [← hks]
        apply hentries_eta
        intro e he
        rw [hvals e he]
        simp only [Option.getD_some]
        exact ((canonDictEntry_eta e
          (by rw [List.all_eq_true] at hcanon; exact hcanon e he)).1).symm
      simp only [assembleDict, hhd]
      rw [if_neg (by simp [List.isEmpty_iff, hdefelems])]
      rw [hlive, hsortnd]
      simp only [if_true, hmap]
  simp only [mergeDict, Option.getD_some, h1, h2, ← hes1, ← hes0]
  rw [show mergeEntries es1 = ms from by rw [hms, hmsdef]]
  rw [hassemble]

theorem nodup_key_unique {α : Type} (key : α → String) (l : List α)
    (hnd : (l.map key).Nodup) (a b : α) (ha : a ∈ l) (hb : b ∈ l)
    (hk : key a = key b) : a = b := by
  induction l with
  | nil => exact absurd ha (by simp)
  | cons x rest ih =>
    simp only [List.map_cons, List.nodup_cons] at hnd
    rcases List.mem_cons.mp ha with h1 | h1 <;> rcases List.mem_cons.mp hb with h2 | h2
    · rw [h1, h2]
    · subst h1
      exact absurd (hk ▸ List.mem_map.mpr ⟨b, h2, rfl⟩) hnd.1
    · subst h2
      exact absurd (hk ▸ List.mem_map.mpr ⟨a, h1, rfl⟩ : key b ∈ rest.map key) hnd.1
    · exact ih hnd.2 h1 h2

theorem canonDictE_parts (d : DictE) (h : canonDictE d = true) :
    d.com = ({} : Comments) ∧ d.forceMultiLine = true ∧ d.entries ≠ [] ∧
    (∀ e ∈ d.entries, canonDictEntry e = true) ∧
    canonKeys (entriesKeys d.entries) = true := by
  simp only [canonDictE, Bool.and_eq_true, decide_eq_true_eq, Bool.not_eq_true',
    List.all_eq_true] at h
  obtain ⟨⟨⟨⟨hc, hf⟩, hne⟩, hall⟩, hkeys⟩ := h
  refine ⟨hc, hf, ?_, hall, hkeys⟩
  intro hE
  rw [hE] at hne
  exact absurd hne (by simp)

theorem es0_entry_shape (o : DictE) (es0 : List DictEntryM)
    (h : oldEntriesLoop [] o.entries = .ok es0) :
    ∀ d ∈ es0, d.genValue = none ∧ ∃ v, d.oldValue = some v := by
  obtain ⟨hshape, _⟩ := oldEntriesLoop_shape o.entries [] es0 h
  intro d hd
  rw [hshape] at hd
  simp only [List.nil_append, List.mem_map] at hd
  obtain ⟨e, _, he⟩ := hd
  rw [← he]
  exact ⟨rfl, _, rfl⟩

/-- A canonical generated dictionary never collapses: `mergeDict` with
a canonical generated side returns a dictionary whenever it succeeds. -/
theorem mergeDict_canon_ne_none (gd : DictE) (hgd : canonDictE gd = true) (o : DictE)
    (r : Option DictE) (h : mergeDict (some gd) (some o) = .ok r) : r ≠ none := by
  obtain ⟨_, _, hne, hall, hkeys⟩ := canonDictE_parts gd hgd
  simp only [mergeDict, Option.getD_some] at h
  split at h
  · exact absurd h (by simp)
  · next es0 heq0 =>
    split at h
    · exact absurd h (by simp)
    · next es1 heq1 =>
      simp only [Except.ok.injEq] at h
      subst h
      have hnd0 : (es0.map (fun d => d.key)).Nodup :=
        oldEntriesLoop_nodup _ _ _ heq0 (by simp)
      have hnd1 : (es1.map (fun d => d.key)).Nodup :=
        genEntriesLoop_nodup _ _ _ heq1 hnd0
      have hmsnd : ((mergeEntries es1).map (fun m => m.key)).Nodup := by
        rw [mergeEntries_map_key]
        exact hnd1
      obtain ⟨e0, he0⟩ := List.exists_mem_of_ne_nil _ hne
      have hgnd : (gd.entries.map entryKey).Nodup := by
        have := canonKeys_nodup _ hkeys
        simpa [entriesKeys] using this
      obtain ⟨d, hd, hdk, hdg⟩ := genEntriesLoop_sets gd.entries es0 es1 heq1 hgnd e0 he0
      have hveta := canonDictEntry_eta e0 (hall e0 he0)
      obtain ⟨_, _, _, hvne, _⟩ := hveta
      obtain ⟨m, hm, hmne⟩ := mergeList_canon_some (entryVal e0) hvne d.oldValue
      have hFmem : mergeEntryF d ∈ mergeEntries es1 := by
        rw [mergeEntries_eq_map]
        exact List.mem_map.mpr ⟨d, hd, rfl⟩
      rw [Ne, assembleDict_eq_none_iff]
      intro hc
      obtain ⟨hlive, hdis⟩ := hc
      by_cases hdef : d.key = defaultCondition
      · have hFval : (mergeEntryF d).value = some ((mergeList d.genValue d.oldValue).getD
            { elems := [] }) := by
          simp [mergeEntryF, hdef]
        have hhd : haveDefault (mergeEntries es1) = true := by
          simp only [haveDefault, List.any_eq_true, decide_eq_true_eq]
          exact ⟨mergeEntryF d, hFmem, by rw [mergeEntryF_key]; exact hdef⟩
        have hlookup : lookupMerged (mergeEntries es1) defaultCondition =
            (mergeEntryF d).value := by
          have := lookupMerged_of_nodup (mergeEntries es1) hmsnd (mergeEntryF d) hFmem
          rw [mergeEntryF_key, hdef] at this
          exact this
        have hdefelems : defaultElems (mergeEntries es1) ≠ [] := by
          simp only [defaultElems, hlookup, hFval, hdg, hm]
          simpa using hmne
        rcases hdis with h1 | h1
        · rw [hhd] at h1; exact Bool.noConfusion h1
        · exact hdefelems h1
      · have hFval : (mergeEntryF d).value = mergeList d.genValue d.oldValue := by
          simp only [mergeEntryF, hdef, if_neg]
          rfl
        have hkmem : d.key ∈ liveKeys (mergeEntries es1) := by
          simp only [liveKeys, List.mem_map, List.mem_filter]
          refine ⟨mergeEntryF d, ⟨hFmem, ?_⟩, mergeEntryF_key d⟩
          rw [mergeEntryF_key]
          simp only [Bool.and_eq_true, bne_iff_ne, ne_eq, decide_eq_true_eq]
          refine ⟨by simpa using hdef, ?_⟩
          rw [hFval, hdg, hm]
          rfl
        rw [hlive] at hkmem
        exact absurd hkmem (by simp)

theorem mergeList_none_none : mergeList none (some { elems := [] }) = none := rfl

/-- Per-key value stability of `mergeDict`: re-merging a key's
generated value into its previously merged value reproduces it. -/
theorem mergeDict_idem_value (genEnt : List BExpr) (es0 es1 : List DictEntryM) (o : DictE)
    (heq0 : oldEntriesLoop [] o.entries = .ok es0)
    (heq1 : genEntriesLoop es0 genEnt = .ok es1)
    (hgencanon : ∀ e ∈ genEnt, canonDictEntry e = true)
    (hgennd : (genEnt.map entryKey).Nodup)
    (hnd1 : (es1.map (fun d => d.key)).Nodup)
    (k : String) (d : DictEntryM) (hd : d ∈ es1) (hdk : d.key = k)
    (hsome : k ≠ defaultCondition → ((mergeEntryF d).value).isSome = true) :
    mergeEntryF { key := k,
                  oldValue := some ((lookupMerged (mergeEntries es1) k).getD { elems := [] }),
                  genValue := (match genEnt.find? (fun e => entryKey e = k) with
                    | some e => some (entryVal e)
                    | none => none) } =
      { key := k, value := some ((lookupMerged (mergeEntries es1) k).getD { elems := [] }) } := by
  have hms1nd : ((mergeEntries es1).map (fun m => m.key)).Nodup := by
    rw [mergeEntries_map_key]
    exact hnd1
  have hFmem : mergeEntryF d ∈ mergeEntries es1 := by
    rw [mergeEntries_eq_map]
    exact List.mem_map.mpr ⟨d, hd, rfl⟩
  have hlookup : lookupMerged (mergeEntries es1) k = (mergeEntryF d).value := by
    have := lookupMerged_of_nodup (mergeEntries es1) hms1nd (mergeEntryF d) hFmem
    rw [mergeEntryF_key, hdk] at this
    exact this
  have hgenparse : ∀ e ∈ genEnt, dictEntryKeyValue e = .ok (entryKey e, entryVal e) :=
    fun e he => canonDictEntry_parse e (hgencanon e he)
  cases hgf : genEnt.find? (fun e => entryKey e = k) with
  | some e =>
    have hee : e ∈ genEnt := List.mem_of_find?_eq_some hgf
    have hek : entryKey e = k := by simpa using List.find?_some hgf
    obtain ⟨d', hd', hd'k, hd'g⟩ := genEntriesLoop_sets genEnt es0 es1 heq1 hgennd e hee
    have hdd : d' = d :=
      nodup_key_unique (fun d => d.key) es1 hnd1 d' d hd' hd
        (by show d'.key = d.key; rw [hd'k, hek, hdk])
    subst hdd
    have hgval : d'.genValue = some (entryVal e) := hd'g
    obtain ⟨heta, hcom, hfml, hvne, hvnk⟩ := canonDictEntry_eta e (hgencanon e hee)
    obtain ⟨m1, hm1, hm1ne⟩ := mergeList_canon_some (entryVal e) hvne d'.oldValue
    have hFval : (mergeEntryF d').value = some m1 := by
      by_cases hdq : d'.key = defaultCondition <;>
        simp [mergeEntryF, hgval, hm1, hdq]
    have hV : (lookupMerged (mergeEntries es1) k).getD { elems := [] } = m1 := by
      rw [hlookup, hFval]
      rfl
    have hmv2 : mergeList (some (entryVal e)) (some m1) = some m1 := by
      cases hdo : d'.oldValue with
      | some o' =>
        rw [hdo] at hm1
        refine mergeList_idem (some (entryVal e)) o' m1 ?_ hm1
        intro l hl
        cases hl
        exact hvnk
      | none =>
        rw [hdo] at hm1
        have hm1e : entryVal e = m1 := by simpa [mergeList] using hm1
        have hself := mergeList_self (entryVal e) hvnk
        rw [if_neg (by simpa [List.isEmpty_iff] using hvne)] at hself
        rw [← hm1e, hself]
        congr 1
        cases hEV : entryVal e with
        | mk c f es =>
          rw [hEV] at hcom hfml
          simp only at hcom hfml
          rw [hcom, hfml]
    rw [hV]
    by_cases hdq : k = defaultCondition <;> simp [mergeEntryF, hmv2, hdq]
  | none =>
    have hgnone : ∀ e ∈ genEnt, entryKeyIs k e = false := by
      intro e he
      have hne := List.find?_eq_none.mp hgf e he
      simp only [decide_eq_true_eq] at hne
      simp only [entryKeyIs, hgenparse e he]
      simpa using hne
    have hany1 : es1.any (fun d => d.key = k) = true := by
      rw [List.any_eq_true]
      exact ⟨d, hd, by simp [hdk]⟩
    rw [genEntriesLoop_any k genEnt es0 es1 heq1] at hany1
    have hgenany : genEnt.any (entryKeyIs k) = false := by
      rw [Bool.eq_false_iff]
      intro hc
      rw [List.any_eq_true] at hc
      obtain ⟨e, he, hke⟩ := hc
      rw [hgnone e he] at hke
      exact Bool.noConfusion hke
    rw [hgenany, Bool.or_false] at hany1
    rw [List.any_eq_true] at hany1
    obtain ⟨d0, hd0, hd0k⟩ := hany1
    simp only [decide_eq_true_eq] at hd0k
    obtain ⟨hd0g, v0, hd0o⟩ := es0_entry_shape o es0 heq0 d0 hd0
    obtain ⟨d'', hd'', hd''k, hd''o, hd''g⟩ :=
      genEntriesLoop_preserves genEnt es0 es1 heq1 k (some v0) none hgnone
        ⟨d0, hd0, hd0k, hd0o, hd0g⟩
    have hdd : d'' = d :=
      nodup_key_unique (fun d => d.key) es1 hnd1 d'' d hd'' hd
        (by show d''.key = d.key; rw [hd''k, hdk])
    rw [hdd] at hd''o hd''g
    cases hmv : mergeList none (some v0) with
    | some w =>
      have hFval : (mergeEntryF d).value = some w := by
        by_cases hdq : d.key = defaultCondition <;>
          simp [mergeEntryF, hd''g, hd''o, hmv, hdq]
      have hV : (lookupMerged (mergeEntries es1) k).getD { elems := [] } = w := by
        rw [hlookup, hFval]
        rfl
      have hmv2 : mergeList none (some w) = some w := by
        refine mergeList_idem none v0 w ?_ hmv
        intro l hl
        exact absurd hl (by simp)
      rw [hV]
      by_cases hdq : k = defaultCondition <;> simp [mergeEntryF, hmv2, hdq]
    | none =>
      by_cases hdq : k = defaultCondition
      · have hFval : (mergeEntryF d).value = some { elems := [] } := by
          simp [mergeEntryF, hd''g, hd''o, hmv, hdk, hdq]
        have hV : (lookupMerged (mergeEntries es1) k).getD { elems := [] } =
            { elems := [] } := by
          rw [hlookup, hFval]
          rfl
        rw [hV]
        simp [mergeEntryF, hdq, mergeList_none_none]
      · exfalso
        have hs := hsome hdq
        have hFval : (mergeEntryF d).value = none := by
          simp [mergeEntryF, hd''g, hd''o, hmv, hdk, hdq]
        rw [hFval] at hs
        exact Bool.noConfusion hs

/-- Merged value assigned to a key by a dict merge round. -/
def vOf (es1 : List DictEntryM) (k : String) : ListE :=
  (lookupMerged (mergeEntries es1) k).getD { elems := [] }

/-- Key order of the dictionary assembled from a merge round. -/
def keysOf (es1 : List DictEntryM) : List String :=
  if haveDefault (mergeEntries es1) then
    sortStrings (liveKeys (mergeEntries es1)) ++ [defaultCondition]
  else sortStrings (liveKeys (mergeEntries es1))

/-- Entry expression of the assembled dictionary for a key. -/
def entryOf (es1 : List DictEntryM) (k : String) : BExpr :=
  .kv {} (.str {} k) (ListE.toExpr (vOf es1 k))

/-- Old-side parse of an assembled entry in a second merge round. -/
def round1Entry (es1 : List DictEntryM) (k : String) : DictEntryM :=
  { key := k, oldValue := some (vOf es1 k) }

theorem sortStrings_isEmpty (l : List String) :
    (sortStrings l).isEmpty = l.isEmpty := by
  cases hl : l with
  | nil => rfl
  | cons a t =>
    have hperm := sortStrings_perm (a :: t)
    cases hs : sortStrings (a :: t) with
    | nil =>
      rw [hs] at hperm
      exact absurd hperm.length_eq (by simp)
    | cons b u => rfl

/-- Merging a canonical generated dictionary into the result of a
previous merge with the same generated side reproduces the result. -/
theorem mergeDict_idem (g : Option DictE) (o md : DictE)
    (hg : ∀ d, g = some d → canonDictE d = true)
    (h : mergeDict g (some o) = .ok (some md)) :
    mergeDict g (some md) = .ok (some md) := by
  simp only [mergeDict] at h
  split at h
  · exact absurd h (by simp)
  next es0 heq0 =>
  split at h
  · exact absurd h (by simp)
  next es1 heq1 =>
  simp only [Except.ok.injEq] at h
  have hnd0 : (es0.map (fun d => d.key)).Nodup :=
    oldEntriesLoop_nodup _ _ _ heq0 (by simp)
  have hnd1 : (es1.map (fun d => d.key)).Nodup :=
    genEntriesLoop_nodup _ _ _ heq1 hnd0
  have hlivend : (liveKeys (mergeEntries es1)).Nodup := liveKeys_nodup es1 hnd1
  have hmd := assembleDict_eq_some _ _ h
  have hmd' : md = { forceMultiLine := true, entries := (keysOf es1).map (entryOf es1) } := by
    rw [hmd]
    rfl
  have hSLnd : (sortStrings (liveKeys (mergeEntries es1))).Nodup :=
    ((sortStrings_perm _).nodup_iff).mpr hlivend
  have hSLnotdef : ∀ k ∈ sortStrings (liveKeys (mergeEntries es1)),
      k ≠ defaultCondition := by
    intro k hk hke
    rw [sortStrings_mem] at hk
    rw [hke] at hk
    exact liveKeys_ne_default _ hk
  have hKSnd : (keysOf es1).Nodup := by
    unfold keysOf
    split
    · refine List.nodup_append.mpr ⟨hSLnd, List.nodup_singleton _, ?_⟩
      intro a ha hb
      simp only [List.mem_singleton] at hb
      exact hSLnotdef a ha hb
    · exact hSLnd
  have hKSmem : ∀ k, k ∈ keysOf es1 →
      (k ∈ liveKeys (mergeEntries es1) ∨
        (k = defaultCondition ∧ haveDefault (mergeEntries es1) = true)) := by
    intro k hk
    unfold keysOf at hk
    split at hk
    · next hhd =>
      rcases List.mem_append.mp hk with h1 | h1
      · exact Or.inl ((sortStrings_mem _ _).mp h1)
      · simp only [List.mem_singleton] at h1
        exact Or.inr ⟨h1, hhd⟩
    · exact Or.inl ((sortStrings_mem _ _).mp hk)
  have hKSd : ∀ k ∈ keysOf es1, ∃ d ∈ es1, d.key = k ∧
      (k ≠ defaultCondition → ((mergeEntryF d).value).isSome = true) := by
    intro k hk
    rcases hKSmem k hk with h1 | ⟨h1, hhd⟩
    · obtain ⟨m, hm, hmk, hkne, hms⟩ := liveKeys_mem _ _ h1
      rw [mergeEntries_eq_map] at hm
      obtain ⟨d, hd, hdm⟩ := List.mem_map.mp hm
      refine ⟨d, hd, ?_, ?_⟩
      · rw [← mergeEntryF_key d, hdm, hmk]
      · intro _
        rw [hdm]
        exact hms
    · rw [haveDefault_eq, List.any_eq_true] at hhd
      obtain ⟨d, hd, hdk⟩ := hhd
      simp only [decide_eq_true_eq] at hdk
      exact ⟨d, hd, by rw [hdk, h1], fun hne => absurd h1 hne⟩
  have hparse2 : ∀ e ∈ (keysOf es1).map (entryOf es1),
      dictEntryKeyValue e = .ok (entryKey e, entryVal e) := by
    intro e he
    obtain ⟨k, _, rfl⟩ := List.mem_map.mp he
    rfl
  have hek2 : ((keysOf es1).map (entryOf es1)).map entryKey = keysOf es1 := by
    have h1 : List.map (entryKey ∘ entryOf es1) (keysOf es1) =
        List.map id (keysOf es1) := rfl
    rw [List.map_map, h1, List.map_id]
  have h1' : oldEntriesLoop [] ((keysOf es1).map (entryOf es1)) =
      .ok (((keysOf es1).map (entryOf es1)).map
        (fun e => { key := entryKey e, oldValue := some (entryVal e) })) := by
    apply oldEntriesLoop_canon _ [] hparse2
    simpa [hek2] using hKSnd
  have hES0 : ((keysOf es1).map (entryOf es1)).map
      (fun e => ({ key := entryKey e, oldValue := some (entryVal e) } : DictEntryM)) =
      (keysOf es1).map (round1Entry es1) := by
    rw [List.map_map]
    rfl
  rw [hES0] at h1'
  have hgenfacts : (∀ e ∈ (g.getD { entries := [] }).entries, canonDictEntry e = true) ∧
      (((g.getD { entries := [] }).entries).map entryKey).Nodup := by
    cases g with
    | none => exact ⟨fun e he => absurd he (by simp), by simp⟩
    | some gd =>
      obtain ⟨_, _, _, hall, hkeys⟩ := canonDictE_parts gd (hg gd rfl)
      refine ⟨hall, ?_⟩
      have := canonKeys_nodup _ hkeys
      simpa [entriesKeys] using this
  obtain ⟨hgencanon, hgennd⟩ := hgenfacts
  have hgenparse : ∀ e ∈ (g.getD { entries := [] }).entries,
      dictEntryKeyValue e = .ok (entryKey e, entryVal e) :=
    fun e he => canonDictEntry_parse e (hgencanon e he)
  have hpres : ∀ e ∈ (g.getD { entries := [] }).entries, entryKey e ∈ keysOf es1 := by
    intro e he
    obtain ⟨d', hd', hd'k, hd'g⟩ := genEntriesLoop_sets _ _ _ heq1 hgennd e he
    obtain ⟨_, _, _, hvne, _⟩ := canonDictEntry_eta e (hgencanon e he)
    obtain ⟨m1, hm1, hm1ne⟩ := mergeList_canon_some (entryVal e) hvne d'.oldValue
    by_cases hdq : d'.key = defaultCondition
    · have hhd : haveDefault (mergeEntries es1) = true := by
        rw [haveDefault_eq, List.any_eq_true]
        exact ⟨d', hd', by simp [hdq]⟩
      rw [← hd'k, hdq]
      unfold keysOf
      rw [if_pos hhd]
      exact List.mem_append_right _ (by simp)
    · have hval : (mergeEntryF d').value = some m1 := by
        simp [mergeEntryF, hd'g, hm1, hdq]
      have hlive : d'.key ∈ liveKeys (mergeEntries es1) := by
        simp only [liveKeys, List.mem_map]
        refine ⟨mergeEntryF d', List.mem_filter.mpr ⟨?_, ?_⟩, mergeEntryF_key d'⟩
        · rw [mergeEntries_eq_map]
          exact List.mem_map.mpr ⟨d', hd', rfl⟩
        · simp [mergeEntryF_key, hval, hdq]
      rw [← hd'k]
      unfold keysOf
      split
      · exact List.mem_append_left _ ((sortStrings_mem _ _).mpr hlive)
      · exact (sortStrings_mem _ _).mpr hlive
  have h2' : genEntriesLoop ((keysOf es1).map (round1Entry es1))
      ((g.getD { entries := [] }).entries) =
      .ok (((keysOf es1).map (round1Entry es1)).map (fun d =>
        match ((g.getD { entries := [] }).entries).find? (fun e => entryKey e = d.key) with
        | some e => { d with genValue := some (entryVal e) }
        | none => d)) := by
    apply genEntriesLoop_present _ _ hgenparse hgennd
    intro e he
    exact ⟨round1Entry es1 (entryKey e),
      List.mem_map.mpr ⟨entryKey e, hpres e he, rfl⟩, rfl⟩
  have hms2 : mergeEntries (((keysOf es1).map (round1Entry es1)).map (fun d =>
      match ((g.getD { entries := [] }).entries).find? (fun e => entryKey e = d.key) with
      | some e => { d with genValue := some (entryVal e) }
      | none => d)) =
      (keysOf es1).map (fun k => { key := k, value := some (vOf es1 k) }) := by
    rw [mergeEntries_eq_map, List.map_map, List.map_map]
    apply List.map_congr_left
    intro k hk
    obtain ⟨d, hd, hdk, hds⟩ := hKSd k hk
    have hval := mergeDict_idem_value ((g.getD { entries := [] }).entries)
      es0 es1 o heq0 heq1 hgencanon hgennd hnd1 k d hd hdk hds
    show mergeEntryF (match ((g.getD { entries := [] }).entries).find?
        (fun e => entryKey e = k) with
      | some e => { key := k, oldValue := some (vOf es1 k), genValue := some (entryVal e) }
      | none => { key := k, oldValue := some (vOf es1 k) }) =
      { key := k, value := some (vOf es1 k) }
    cases hf : ((g.getD { entries := [] }).entries).find? (fun e => entryKey e = k) with
    | some e =>
      rw [hf] at hval
      exact hval
    | none =>
      rw [hf] at hval
      exact hval
  have hall2 : ∀ m ∈ (keysOf es1).map
      (fun k => ({ key := k, value := some (vOf es1 k) } : MergedEntry)),
      m.value.isSome = true := by
    intro m hm
    obtain ⟨k, _, rfl⟩ := List.mem_map.mp hm
    rfl
  have hkeys2 : ((keysOf es1).map
      (fun k => ({ key := k, value := some (vOf es1 k) } : MergedEntry))).map
        (fun m => m.key) = keysOf es1 := by
    rw [List.map_map]
    exact List.map_id _
  have hnd2 : (((keysOf es1).map
      (fun k => ({ key := k, value := some (vOf es1 k) } : MergedEntry))).map
        (fun m => m.key)).Nodup := by
    rw [hkeys2]
    exact hKSnd
  have hlookup2 : ∀ k ∈ keysOf es1, lookupMerged ((keysOf es1).map
      (fun k => ({ key := k, value := some (vOf es1 k) } : MergedEntry))) k =
      some (vOf es1 k) := by
    intro k hk
    have hm : ({ key := k, value := some (vOf es1 k) } : MergedEntry) ∈
        (keysOf es1).map (fun k => ({ key := k, value := some (vOf es1 k) } : MergedEntry)) :=
      List.mem_map.mpr ⟨k, hk, rfl⟩
    exact lookupMerged_of_nodup _ hnd2 _ hm
  have hlive2 : liveKeys ((keysOf es1).map
      (fun k => ({ key := k, value := some (vOf es1 k) } : MergedEntry))) =
      sortStrings (liveKeys (mergeEntries es1)) := by
    rw [liveKeys_eq_filter _ hall2, hkeys2]
    unfold keysOf
    split
    · rw [List.filter_append]
      have hf1 : (sortStrings (liveKeys (mergeEntries es1))).filter
          (fun k => k ≠ defaultCondition) = sortStrings (liveKeys (mergeEntries es1)) :=
        List.filter_eq_self.mpr (fun a ha => by simpa using hSLnotdef a ha)
      have hf2 : [defaultCondition].filter (fun k => k ≠ defaultCondition) =
          ([] : List String) := by simp
      rw [hf1, hf2, List.append_nil]
    · exact List.filter_eq_self.mpr (fun a ha => by simpa using hSLnotdef a ha)
  have hhd2 : haveDefault ((keysOf es1).map
      (fun k => ({ key := k, value := some (vOf es1 k) } : MergedEntry))) =
      haveDefault (mergeEntries es1) := by
    have h0 : haveDefault ((keysOf es1).map
        (fun k => ({ key := k, value := some (vOf es1 k) } : MergedEntry))) =
        (keysOf es1).any (fun s => s = defaultCondition) := by
      simp only [haveDefault]
      rw [any_key_of_map, hkeys2]
    rw [h0]
    unfold keysOf
    cases hhd : haveDefault (mergeEntries es1)
    · rw [if_neg (by simp)]
      rw [List.any_eq_false]
      intro a ha
      simpa using hSLnotdef a ha
    · rw [if_pos rfl, List.any_append]
      simp
  have hde : haveDefault (mergeEntries es1) = true →
      defaultElems ((keysOf es1).map
        (fun k => ({ key := k, value := some (vOf es1 k) } : MergedEntry))) =
      defaultElems (mergeEntries es1) := by
    intro hhd
    have hdefmem : defaultCondition ∈ keysOf es1 := by
      unfold keysOf
      rw [if_pos hhd]
      exact List.mem_append_right _ (by simp)
    have hl2 := hlookup2 defaultCondition hdefmem
    simp only [defaultElems, hl2]
    unfold vOf
    cases lookupMerged (mergeEntries es1) defaultCondition <;> rfl
  have hcond1 := assembleDict_some_cond _ _ h
  have hcond2 : ((liveKeys ((keysOf es1).map
      (fun k => ({ key := k, value := some (vOf es1 k) } : MergedEntry)))).isEmpty &&
      (!haveDefault ((keysOf es1).map
        (fun k => ({ key := k, value := some (vOf es1 k) } : MergedEntry))) ||
       (defaultElems ((keysOf es1).map
        (fun k => ({ key := k, value := some (vOf es1 k) } : MergedEntry)))).isEmpty)) =
      false := by
    rw [hlive2, hhd2, sortStrings_isEmpty]
    cases hhd : haveDefault (mergeEntries es1)
    · rw [hhd] at hcond1
      simpa using hcond1
    · rw [hde hhd]
      rw [hhd] at hcond1
      exact hcond1
  have hsort2 : sortStrings (liveKeys ((keysOf es1).map
      (fun k => ({ key := k, value := some (vOf es1 k) } : MergedEntry)))) =
      sortStrings (liveKeys (mergeEntries es1)) := by
    rw [hlive2]
    exact sortStrings_of_sorted _ (sortStrings_sorted _)
  have hE : (keysOf es1).map (fun k => BExpr.kv {} (.str {} k)
      (ListE.toExpr ((lookupMerged ((keysOf es1).map
        (fun k => ({ key := k, value := some (vOf es1 k) } : MergedEntry))) k).getD
          { elems := [] }))) = (keysOf es1).map (entryOf es1) := by
    apply List.map_congr_left
    intro k hk
    rw [hlookup2 k hk]
    rfl
  rw [hmd']
  simp only [mergeDict]
  simp only [h1']
  simp only [h2']
  rw [hms2]
  simp only [assembleDict]
  rw [if_neg (by simp [hcond2])]
  rw [hhd2, hsort2]
  show (Except.ok (some
    { forceMultiLine := true,
      entries := (keysOf es1).map (fun k => BExpr.kv {} (.str {} k)
        (ListE.toExpr ((lookupMerged ((keysOf es1).map
          (fun k => ({ key := k, value := some (vOf es1 k) } : MergedEntry))) k).getD
            { elems := [] }))) }) : Except String (Option DictE)) =
    Except.ok (some { forceMultiLine := true, entries := (keysOf es1).map (entryOf es1) })
  exact congrArg (fun E => (Except.ok (some { forceMultiLine := true, entries := E }) :
    Except String (Option DictE))) hE

/-- A canonical generated list value: comment-free, single-line,
non-empty, without keep markers. -/
def canonListE (l : ListE) : Bool :=
  l.com = ({} : Comments) && l.forceMultiLine = false && !l.elems.isEmpty &&
    noKeepElems l.elems

theorem canonListE_parts (l : ListE) (h : canonListE l = true) :
    l.com = ({} : Comments) ∧ l.forceMultiLine = false ∧ l.elems ≠ [] ∧
      noKeepElems l.elems = true := by
  simp only [canonListE, Bool.and_eq_true, decide_eq_true_eq, Bool.not_eq_true'] at h
  obtain ⟨⟨⟨hc, hf⟩, hne⟩, hk⟩ := h
  refine ⟨hc, hf, ?_, hk⟩
  intro hE
  rw [hE] at hne
  exact absurd hne (by simp)

/-- Comment envelope of an optional string expression. -/
def strCom : Option BExpr → Comments
  | some (.str c _) => c
  | _ => {}

/-- A canonical generated attribute value: absent, a comment-free string
literal, or an expression whose list part is a canonical list and whose
select part is a canonical dictionary. -/
def canonValue (g : Option BExpr) : Bool :=
  if isStrExpr g then strCom g = ({} : Comments)
  else match g with
    | none => true
    | some e =>
      match exprListAndDict (some e) with
      | .ok (gl, gd) =>
        (match gl with | some l => canonListE l | none => true) &&
        (match gd with | some d => canonDictE d | none => true)
      | .error _ => false

theorem isStrExpr_shape (g : Option BExpr) (h : isStrExpr g = true) :
    ∃ c v, g = some (.str c v) := by
  unfold isStrExpr at h
  split at h
  · next c v => exact ⟨c, v, rfl⟩
  · exact absurd h (by simp)

theorem canonValue_parts (gen : Option BExpr) (gl : Option ListE) (gd : Option DictE)
    (hstr : isStrExpr gen = false) (hg : canonValue gen = true)
    (hpg : exprListAndDict gen = .ok (gl, gd)) :
    (∀ l, gl = some l → canonListE l = true) ∧
    (∀ d, gd = some d → canonDictE d = true) := by
  unfold canonValue at hg
  rw [hstr] at hg
  simp only [Bool.false_eq_true, if_false] at hg
  cases gen with
  | none =>
    simp only [exprListAndDict, Except.ok.injEq, Prod.mk.injEq] at hpg
    obtain ⟨h1, h2⟩ := hpg
    exact ⟨fun l hl => absurd (h1 ▸ hl) (by simp),
      fun d hd => absurd (h2 ▸ hd) (by simp)⟩
  | some e =>
    simp only [hpg, Bool.and_eq_true] at hg
    obtain ⟨hgl, hgd⟩ := hg
    constructor
    · intro l hl
      rw [hl] at hgl
      exact hgl
    · intro d hd
      rw [hd] at hgd
      exact hgd

theorem mergeList_none_gl (gl ol : Option ListE)
    (hc : ∀ l, gl = some l → canonListE l = true)
    (h : mergeList gl ol = none) : gl = none := by
  cases gl with
  | none => rfl
  | some l =>
    obtain ⟨_, _, hne, _⟩ := canonListE_parts l (hc l rfl)
    cases ol with
    | none => exact absurd h (by simp [mergeList])
    | some o =>
      obtain ⟨m, hm, _⟩ := mergeList_canon_some l hne (some o)
      rw [hm] at h
      exact absurd h (by simp)

theorem mergeDict_none_gd (gd od : Option DictE)
    (hc : ∀ d, gd = some d → canonDictE d = true)
    (h : mergeDict gd od = .ok none) : gd = none := by
  cases gd with
  | none => rfl
  | some d =>
    cases od with
    | none =>
      simp only [mergeDict, Except.ok.injEq] at h
      exact absurd h (by simp)
    | some o =>
      exact absurd rfl (mergeDict_canon_ne_none d (hc d rfl) o none h)

theorem mergeList_round2 (gl ol : Option ListE) (l : ListE)
    (hc : ∀ l', gl = some l' → canonListE l' = true)
    (h : mergeList gl ol = some l) (o2 : ListE) (he : o2.elems = l.elems) :
    mergeList gl (some o2) = some l := by
  have hcongr : mergeList gl (some o2) = mergeList gl (some l) := by
    simp only [mergeList]
    rw [he]
  rw [hcongr]
  cases ol with
  | some o =>
    refine mergeList_idem gl o l ?_ h
    intro l' hl'
    exact (canonListE_parts l' (hc l' hl')).2.2.2
  | none =>
    simp only [mergeList] at h
    obtain ⟨hcom, hfml, hne, hk⟩ := canonListE_parts l (hc l h)
    have hself := mergeList_self l hk
    rw [if_neg (by simpa [List.isEmpty_iff] using hne)] at hself
    rw [h, hself]
    congr 1
    cases hL : l with
    | mk c f es =>
      rw [hL] at hcom hfml
      simp only at hcom hfml
      rw [hcom, hfml]

theorem mergeDict_round2 (gd od : Option DictE) (d : DictE)
    (hc : ∀ d', gd = some d' → canonDictE d' = true)
    (h : mergeDict gd od = .ok (some d)) : mergeDict gd (some d) = .ok (some d) := by
  cases od with
  | some o => exact mergeDict_idem gd o d hc h
  | none =>
    simp only [mergeDict, Except.ok.injEq] at h
    have hcd : canonDictE d = true := hc d h
    obtain ⟨hcom, hfml, hne, hall, hkeys⟩ := canonDictE_parts d hcd
    have hself := mergeDict_self d d d.entries rfl rfl
      (by rw [List.all_eq_true]; exact hall) hkeys hne
    rw [h, hself]
    congr 2
    cases hD : d with
    | mk c f es =>
      rw [hD] at hcom hfml
      simp only at hcom hfml
      rw [hcom, hfml]

/-- Merging a canonical generated expression into the result of a
previous merge with the same generated side reproduces the result. -/
theorem mergeExpr_idem (gen : Option BExpr) (old m : BExpr)
    (hg : canonValue gen = true)
    (h : mergeExpr gen (some old) = .ok (some m)) :
    mergeExpr gen (some m) = .ok (some m) := by
  by_cases hstr : isStrExpr gen = true
  · obtain ⟨c, v, rfl⟩ := isStrExpr_shape gen hstr
    have hc : c = ({} : Comments) := by simpa [canonValue] using hg
    subst hc
    by_cases hko : shouldKeep old = true
    · simp only [mergeExpr, isStrExpr, shouldKeepOpt, hko, if_true, Except.ok.injEq,
        Option.some.injEq, if_pos] at h
      subst h
      simp [mergeExpr, isStrExpr, shouldKeepOpt, hko]
    · rw [Bool.not_eq_true] at hko
      simp only [mergeExpr, isStrExpr, shouldKeepOpt, hko, Except.ok.injEq,
        Option.some.injEq, Bool.false_eq_true, if_false, if_true] at h
      subst h
      simp [mergeExpr, isStrExpr, shouldKeepOpt, shouldKeep]
  · have hstr' : isStrExpr gen = false := Bool.eq_false_iff.mpr hstr
    simp only [mergeExpr, hstr', Bool.false_eq_true, if_false] at h
    split at h
    · exact absurd h (by simp)
    next gl gd hpg =>
    split at h
    · exact absurd h (by simp)
    next ol od hpo =>
    obtain ⟨hcl, hcd⟩ := canonValue_parts gen gl gd hstr' hg hpg
    split at h
    · exact absurd h (by simp)
    next mdo hmd =>
    cases hml : mergeList gl ol with
    | none =>
      simp only [hml] at h
      cases hmdo : mdo with
      | none =>
        rw [hmdo] at h
        exact absurd h (by simp)
      | some d =>
        -- mergedList is none: the result is the bare select call.
        rw [hmdo] at h
        simp only [Option.map_some', Except.ok.injEq, Option.some.injEq] at h
        have hglnone : gl = none := mergeList_none_gl gl ol hcl hml
        rw [hmdo] at hmd
        have hgd2 : mergeDict gd (some d) = .ok (some d) := mergeDict_round2 gd od d hcd hmd
        subst h
        subst hglnone
        simp only [mergeExpr, hstr', Bool.false_eq_true, if_false, hpg]
        have hpo2 : exprListAndDict (some (BExpr.call {} (.lit {} "select") [d.toExpr])) =
            .ok (none, some d) := rfl
        simp only [hpo2, hgd2]
        rfl
    | some l =>
      simp only [hml] at h
      cases hmdo : mdo with
      | none =>
        -- mergedList present, no select part.
        rw [hmdo] at h
        simp only [Option.map_none', Except.ok.injEq, Option.some.injEq] at h
        rw [hmdo] at hmd
        have hgdnone : gd = none := mergeDict_none_gd gd od hcd hmd
        subst h
        subst hgdnone
        simp only [mergeExpr, hstr', Bool.false_eq_true, if_false, hpg]
        have hpo2 : exprListAndDict (some l.toExpr) =
            .ok (some l, none) := rfl
        simp only [hpo2]
        have hml2 : mergeList gl (some l) = some l := mergeList_round2 gl ol l hcl hml l rfl
        simp only [mergeDict, hml2]
        rfl
      | some d =>
        -- both parts present: list + select.
        rw [hmdo] at h
        simp only [Option.map_some', Except.ok.injEq, Option.some.injEq] at h
        rw [hmdo] at hmd
        have hgd2 : mergeDict gd (some d) = .ok (some d) := mergeDict_round2 gd od d hcd hmd
        subst h
        simp only [mergeExpr, hstr', Bool.false_eq_true, if_false, hpg]
        have hpo2 : exprListAndDict (some (BExpr.binary {} "+"
            (ListE.toExpr { l with forceMultiLine := true })
            (BExpr.call {} (.lit {} "select") [d.toExpr]))) =
            .ok (some { com := l.com, forceMultiLine := true, elems := l.elems },
              some d) := rfl
        simp only [hpo2, hgd2]
        have hml2 : mergeList gl
            (some { com := l.com, forceMultiLine := true, elems := l.elems }) = some l :=
          mergeList_round2 gl ol l hcl hml _ rfl
        simp only [hml2]
        rfl

/-- Shape restriction for canonical generated attribute values: absent,
a string, a bare list, or a bare comment-free `select(dict)` call (the
shapes the generator emits; a `list + select` sum is not one of them). -/
def canonShape (g : Option BExpr) : Bool :=
  match g with
  | none => true
  | some e =>
    match e with
    | .str _ _ => true
    | .list _ _ _ => true
    | .call c fn args =>
      (match fn with | .lit cl _ => decide (cl = ({} : Comments)) | _ => false) &&
      (match args with | [.dict _ _ _] => true | _ => false) &&
      decide (c = ({} : Comments))
    | _ => false

theorem canonShape_call (c : Comments) (fn : BExpr) (args : List BExpr)
    (h : canonShape (some (.call c fn args)) = true) :
    ∃ cl tok cd fd entries, fn = .lit cl tok ∧ args = [.dict cd fd entries] ∧
      c = ({} : Comments) ∧ cl = ({} : Comments) := by
  simp only [canonShape, Bool.and_eq_true, decide_eq_true_eq] at h
  obtain ⟨⟨hfn, hargs⟩, hc⟩ := h
  cases fn with
  | lit cl tok =>
    cases args with
    | nil => exact absurd hargs (by simp)
    | cons a rest =>
      cases a with
      | dict cd fd entries =>
        cases rest with
        | nil => exact ⟨cl, tok, cd, fd, entries, rfl, rfl, hc, by simpa using hfn⟩
        | cons b t => exact absurd hargs (by simp)
      | str c2 v2 => exact absurd hargs (by simp)
      | lit c2 v2 => exact absurd hargs (by simp)
      | list c2 f2 es2 => exact absurd hargs (by simp)
      | call c2 fn2 a2 => exact absurd hargs (by simp)
      | kv c2 k2 v2 => exact absurd hargs (by simp)
      | binary c2 o2 x2 y2 => exact absurd hargs (by simp)
  | str c2 v2 => exact absurd hfn (by simp)
  | list c2 f2 es2 => exact absurd hfn (by simp)
  | call c2 fn2 a2 => exact absurd hfn (by simp)
  | dict c2 f2 es2 => exact absurd hfn (by simp)
  | kv c2 k2 v2 => exact absurd hfn (by simp)
  | binary c2 o2 x2 y2 => exact absurd hfn (by simp)

/-- Merging a canonical generated value with itself reproduces it. -/
theorem mergeExpr_self (v : BExpr) (h1 : canonValue (some v) = true)
    (h2 : canonShape (some v) = true) :
    mergeExpr (some v) (some v) = .ok (some v) := by
  cases v with
  | str c s =>
    have hc : c = ({} : Comments) := by simpa [canonValue, isStrExpr, strCom] using h1
    subst hc
    simp [mergeExpr, isStrExpr, shouldKeepOpt, shouldKeep]
  | list c f es =>
    have hcl : canonListE ⟨c, f, es⟩ = true := by
      simpa [canonValue, isStrExpr, exprListAndDict] using h1
    obtain ⟨hcom, hfml, hne, hk⟩ := canonListE_parts _ hcl
    have hc : c = ({} : Comments) := hcom
    have hf : f = false := hfml
    subst hc
    subst hf
    have hml : mergeList (some ⟨{}, false, es⟩) (some ⟨{}, false, es⟩) =
        some ⟨{}, false, es⟩ := by
      have hself := mergeList_self ⟨{}, false, es⟩ hk
      rw [if_neg (by simpa [List.isEmpty_iff] using hne)] at hself
      exact hself
    simp only [mergeExpr, isStrExpr, Bool.false_eq_true, if_false, exprListAndDict,
      mergeDict, hml]
    rfl
  | call c fn args =>
    obtain ⟨cl, tok, cd, fd, entries, rfl, rfl, hc, hcl⟩ := canonShape_call c fn args h2
    subst hc
    subst hcl
    by_cases htok : tok = "select"
    · subst htok
      have hcd : canonDictE ⟨cd, fd, entries⟩ = true := by
        simpa [canonValue, isStrExpr, exprListAndDict] using h1
      obtain ⟨hcom, hfml, hne, _, _⟩ := canonDictE_parts _ hcd
      have hc2 : cd = ({} : Comments) := hcom
      have hf2 : fd = true := hfml
      subst hc2
      subst hf2
      have hmd : mergeDict (some ⟨{}, true, entries⟩) (some ⟨{}, true, entries⟩) =
          .ok (some ⟨{}, true, entries⟩) :=
        mergeDict_round2 (some ⟨{}, true, entries⟩) none ⟨{}, true, entries⟩
          (fun d' hd' => by injection hd' with h'; rw [← h']; exact hcd) rfl
      simp only [mergeExpr, isStrExpr, Bool.false_eq_true, if_false, exprListAndDict]
      simp [DictE.toExpr, hmd, mergeList]
    · exfalso
      simp [canonValue, isStrExpr, exprListAndDict, htok] at h1
  | lit c t => exact absurd h2 (by simp [canonShape])
  | dict c f es => exact absurd h2 (by simp [canonShape])
  | kv c k v => exact absurd h2 (by simp [canonShape])
  | binary c op x y => exact absurd h2 (by simp [canonShape])

/-- Merging a canonical generated value with any existing value never
yields nil: a present generated attribute survives the merge. -/
theorem mergeExpr_canon_ne_none (v o : BExpr) (r : Option BExpr)
    (h1 : canonValue (some v) = true) (h2 : canonShape (some v) = true)
    (h : mergeExpr (some v) (some o) = .ok r) : r.isSome = true := by
  cases v with
  | str c s =>
    cases hko : shouldKeep o <;>
      simp [mergeExpr, isStrExpr, shouldKeepOpt, hko] at h <;> simp [← h]
  | list c f es =>
    have hcl : canonListE ⟨c, f, es⟩ = true := by
      simpa [canonValue, isStrExpr, exprListAndDict] using h1
    obtain ⟨_, _, hne, _⟩ := canonListE_parts _ hcl
    simp only [mergeExpr, isStrExpr, Bool.false_eq_true, if_false, exprListAndDict] at h
    split at h
    · exact absurd h (by simp)
    next ol od hpo =>
    split at h
    · exact absurd h (by simp)
    next mdo hmd =>
    have hml : ∃ m, mergeList (some ⟨c, f, es⟩) ol = some m := by
      cases ol with
      | none => exact ⟨⟨c, f, es⟩, rfl⟩
      | some o' =>
        obtain ⟨m, hm, _⟩ := mergeList_canon_some ⟨c, f, es⟩ hne (some o')
        exact ⟨m, hm⟩
    obtain ⟨m, hm⟩ := hml
    rw [hm] at h
    cases hmdo : mdo <;> rw [hmdo] at h <;> simp at h <;> simp [← h]
  | call c fn args =>
    obtain ⟨cl, tok, cd, fd, entries, rfl, rfl, hc, hcl⟩ := canonShape_call c fn args h2
    by_cases htok : tok = "select"
    · subst htok
      have hcd : canonDictE ⟨cd, fd, entries⟩ = true := by
        simpa [canonValue, isStrExpr, exprListAndDict] using h1
      have hpg : exprListAndDict (some (BExpr.call c (.lit cl "select")
          [.dict cd fd entries])) = .ok (none, some ⟨cd, fd, entries⟩) := by
        simp [exprListAndDict]
      simp only [mergeExpr, isStrExpr, Bool.false_eq_true, if_false, hpg] at h
      split at h
      · exact absurd h (by simp)
      next ol od hpo =>
      split at h
      · exact absurd h (by simp)
      next mdo hmd =>
      have hmdo : ∃ d', mdo = some d' := by
        cases od with
        | none =>
          simp only [mergeDict, Except.ok.injEq] at hmd
          exact ⟨_, hmd.symm⟩
        | some o' =>
          have := mergeDict_canon_ne_none ⟨cd, fd, entries⟩ hcd o' mdo hmd
          cases hm : mdo with
          | none => exact absurd hm this
          | some d' => exact ⟨d', rfl⟩
      obtain ⟨d', rfl⟩ := hmdo
      cases hml : mergeList none ol <;> rw [hml] at h <;> simp at h <;> simp [← h]
    · exfalso
      simp [canonValue, isStrExpr, exprListAndDict, htok] at h1
  | lit c t => exact absurd h2 (by simp [canonShape])
  | dict c f es => exact absurd h2 (by simp [canonShape])
  | kv c k v => exact absurd h2 (by simp [canonShape])
  | binary c op x y => exact absurd h2 (by simp [canonShape])

theorem defnY_setDefnY (a v : BExpr) (k : String) (h : attrKeyOf a = some k) :
    defnY (setDefnY a v) = some v := by
  obtain ⟨c, x, y, rfl⟩ := attrKeyOf_eq_binary a k h
  rfl

theorem setDefnY_setDefnY (a v w : BExpr) : setDefnY (setDefnY a v) w = setDefnY a w := by
  cases a <;> rfl

theorem setDefnY_of_defnY (a y : BExpr) (h : defnY a = some y) : setDefnY a y = a := by
  cases a with
  | binary c op x y' =>
    simp only [defnY, Option.some.injEq] at h
    rw [setDefnY, h]
  | str c v => exact absurd h (by simp [defnY])
  | lit c v => exact absurd h (by simp [defnY])
  | list c f es => exact absurd h (by simp [defnY])
  | call c fn args => exact absurd h (by simp [defnY])
  | dict c f es => exact absurd h (by simp [defnY])
  | kv c k v => exact absurd h (by simp [defnY])

theorem attrKeyOf_none_of_not_isEq (a : BExpr) (h : isEqBinary a = false) :
    attrKeyOf a = none := by
  cases hk : attrKeyOf a with
  | none => rfl
  | some k =>
    rw [attrKeyOf_isEqBinary a k hk] at h
    exact absurd h (by simp)

theorem findAttrDefn_some (args : List BExpr) (k : String) (a : BExpr)
    (h : findAttrDefn args k = some a) : a ∈ args ∧ attrKeyOf a = some k := by
  refine ⟨List.mem_of_find?_eq_some h, ?_⟩
  have := List.find?_some h
  simpa using this

theorem attrDefn_none_of_attrOf_none (c : CallE) (k : String)
    (h : attrOf c k = none) : attrDefn c k = none := by
  cases hd : attrDefn c k with
  | none => rfl
  | some a =>
    obtain ⟨_, hka⟩ := findAttrDefn_some c.args k a hd
    have hy := defnY_isSome_of_attrKeyOf a k hka
    have : attrOf c k = defnY a := by
      simp only [attrOf, findAttrY]
      show (findAttrDefn c.args k).bind defnY = defnY a
      rw [show findAttrDefn c.args k = attrDefn c k from rfl, hd]
      rfl
    rw [h] at this
    rw [← this] at hy
    exact absurd hy (by simp)

theorem findAttrDefn_append_none (xs ys : List BExpr) (k : String)
    (h : findAttrDefn xs k = none) :
    findAttrDefn (xs ++ ys) k = findAttrDefn ys k := by
  simp only [findAttrDefn, List.find?_append]
  rw [show xs.find? (fun a => attrKeyOf a = some k) = none from h]
  rfl

theorem findAttrDefn_append_some (xs ys : List BExpr) (k : String) (a : BExpr)
    (h : findAttrDefn xs k = some a) :
    findAttrDefn (xs ++ ys) k = some a := by
  simp only [findAttrDefn, List.find?_append]
  rw [show xs.find? (fun a => attrKeyOf a = some k) = some a from h]
  rfl

theorem findAttrY_append_singleton_ne (xs : List BExpr) (a : BExpr) (ka k : String)
    (hka : attrKeyOf a = some ka) (h : k ≠ ka) :
    findAttrY (xs ++ [a]) k = findAttrY xs k := by
  simp only [findAttrY]
  cases hf : findAttrDefn xs k with
  | some b => rw [findAttrDefn_append_some xs [a] k b hf]
  | none =>
    rw [findAttrDefn_append_none xs [a] k hf]
    have : findAttrDefn [a] k = none := by
      simp only [findAttrDefn, List.find?]
      rw [hka]
      simp [Ne.symm h]
    rw [this]

/-- The output of the `mergeRule` attribute loop for one existing
attribute key, as a function of the key alone. -/
def mergeAttrStep (gen old : CallE) (k : String) : Option BExpr :=
  match attrDefn old k with
  | none => none
  | some defn =>
    if mergeableFields k then
      match defnY defn with
      | none => none
      | some oldE => (mergedAttrValue (attrOf gen k) oldE).map (setDefnY defn)
    else some defn

theorem mergeAttrs_eq (gen old : CallE) (ks : List String) :
    mergeAttrs gen old ks = ks.filterMap (mergeAttrStep gen old) := by
  induction ks with
  | nil => rfl
  | cons k ks ih =>
    simp only [mergeAttrs, List.filterMap_cons, mergeAttrStep]
    cases hd : attrDefn old k with
    | none => simp [ih]
    | some defn =>
      cases hm : mergeableFields k with
      | false => simp [hm, ih]
      | true =>
        cases hy : defnY defn with
        | none => simp [hm, hy, ih]
        | some oldE =>
          cases hv : mergedAttrValue (attrOf gen k) oldE with
          | none => simp [hm, hy, hv, ih]
          | some m => simp [hm, hy, hv, ih]

/-- The fresh assignment appended by `addGenAttrs` for a generated-only
attribute. -/
def freshAttr (gen : CallE) (k : String) : BExpr :=
  .binary {} "=" (.lit {} k) ((attrOf gen k).getD (.lit {} ""))

theorem attrKeyOf_freshAttr (gen : CallE) (k : String) :
    attrKeyOf (freshAttr gen k) = some k := rfl

theorem addGenAttrs_all_present (gen : CallE) (ks : List String) :
    ∀ m : CallE, (∀ k ∈ ks, (attrOf m k).isSome = true) → addGenAttrs gen m ks = m := by
  induction ks with
  | nil => intro m _; rfl
  | cons k ks ih =>
    intro m h
    simp only [addGenAttrs]
    rw [if_pos (h k (by simp))]
    exact ih m (fun k' hk' => h k' (by simp [hk']))

theorem filterMap_congr_mem {α β : Type} (l : List α) (f g : α → Option β)
    (h : ∀ a ∈ l, f a = g a) : l.filterMap f = l.filterMap g := by
  induction l with
  | nil => rfl
  | cons a rest ih =>
    simp only [List.filterMap_cons, h a (by simp)]
    cases g a <;> rw [ih (fun x hx => h x (by simp [hx]))]

theorem filterMap_id_mem {α : Type} (l : List α) (f : α → Option α)
    (h : ∀ a ∈ l, f a = some a) : l.filterMap f = l := by
  induction l with
  | nil => rfl
  | cons a rest ih =>
    simp only [List.filterMap_cons, h a (by simp)]
    rw [ih (fun x hx => h x (by simp [hx]))]

theorem addGenAttrs_eq (gen : CallE) :
    ∀ (ks : List String) (m : CallE), ks.Nodup →
      addGenAttrs gen m ks = { m with args := m.args ++ ks.filterMap (fun k =>
        if (attrOf m k).isSome then none else some (freshAttr gen k)) } := by
  intro ks
  induction ks with
  | nil =>
    intro m _
    simp only [addGenAttrs, List.filterMap_nil, List.append_nil]
  | cons k ks ih =>
    intro m hnd
    rw [List.nodup_cons] at hnd
    obtain ⟨hk, hnd'⟩ := hnd
    simp only [addGenAttrs, List.filterMap_cons]
    by_cases hs : (attrOf m k).isSome = true
    · rw [if_pos hs, if_pos hs]
      exact ih m hnd'
    · rw [if_neg hs, if_neg hs]
      have hnone : attrOf m k = none := by
        cases ha : attrOf m k with
        | none => rfl
        | some v => rw [ha] at hs; exact absurd rfl hs
      have hsetA : setAttr m k ((attrOf gen k).getD (.lit {} "")) =
          { m with args := m.args ++ [freshAttr gen k] } := by
        have hdn : attrDefn m k = none := attrDefn_none_of_attrOf_none m k hnone
        simp only [setAttr, hdn]
        rfl
      rw [hsetA]
      rw [ih _ hnd']
      have hfm : ks.filterMap (fun k' =>
          if (attrOf { m with args := m.args ++ [freshAttr gen k] } k').isSome then none
          else some (freshAttr gen k')) = ks.filterMap (fun k' =>
          if (attrOf m k').isSome then none else some (freshAttr gen k')) := by
        apply filterMap_congr_mem
        intro k' hk'
        have hne : k' ≠ k := by
          intro he
          exact hk (he ▸ hk')
        have : attrOf { m with args := m.args ++ [freshAttr gen k] } k' = attrOf m k' := by
          show findAttrY (m.args ++ [freshAttr gen k]) k' = findAttrY m.args k'
          exact findAttrY_append_singleton_ne m.args (freshAttr gen k) k k'
            (attrKeyOf_freshAttr gen k) hne
        rw [this]
      rw [hfm, List.append_assoc]
      rfl

/-- A canonical generated rule: all arguments are named attribute
assignments, attribute keys are distinct, and every mergeable
attribute's value is canonical. -/
def canonRule (c : CallE) : Bool :=
  decide (callAttrKeys c).Nodup &&
  c.args.all (fun a => (attrKeyOf a).isSome) &&
  c.args.all (fun a => match attrKeyOf a, defnY a with
    | some k, some v => !mergeableFields k || (canonValue (some v) && canonShape (some v))
    | _, _ => true)

theorem canonRule_nodup (c : CallE) (h : canonRule c = true) :
    (callAttrKeys c).Nodup := by
  simp only [canonRule, Bool.and_eq_true, decide_eq_true_eq] at h
  exact h.1.1

theorem canonRule_named (c : CallE) (h : canonRule c = true) :
    ∀ a ∈ c.args, (attrKeyOf a).isSome = true := by
  simp only [canonRule, Bool.and_eq_true, decide_eq_true_eq, List.all_eq_true] at h
  exact h.1.2

theorem attrOf_some_shape (c : CallE) (k : String) (v : BExpr)
    (h : attrOf c k = some v) :
    ∃ a ∈ c.args, attrKeyOf a = some k ∧ defnY a = some v := by
  cases hf : findAttrDefn c.args k with
  | none =>
    have : attrOf c k = none := by
      show (findAttrDefn c.args k).bind defnY = none
      rw [hf]
      rfl
    rw [h] at this
    exact absurd this (by simp)
  | some a =>
    obtain ⟨hmem, hka⟩ := findAttrDefn_some c.args k a hf
    have : attrOf c k = defnY a := by
      show (findAttrDefn c.args k).bind defnY = defnY a
      rw [hf]
      rfl
    rw [h] at this
    exact ⟨a, hmem, hka, this.symm⟩

theorem canonRule_value (c : CallE) (h : canonRule c = true) (k : String) (v : BExpr)
    (hm : mergeableFields k = true) (hv : attrOf c k = some v) :
    canonValue (some v) = true ∧ canonShape (some v) = true := by
  obtain ⟨a, hmem, hka, hdy⟩ := attrOf_some_shape c k v hv
  have hall : ∀ a ∈ c.args, (match attrKeyOf a, defnY a with
      | some k, some v => !mergeableFields k || (canonValue (some v) && canonShape (some v))
      | _, _ => true) = true := by
    simp only [canonRule, Bool.and_eq_true, List.all_eq_true] at h
    exact h.2
  have := hall a hmem
  rw [hka, hdy] at this
  simp only [hm, Bool.not_true, Bool.false_or, Bool.and_eq_true] at this
  exact this

/-- The positional-argument prefix copied from the old rule. -/
def posArgs (old : CallE) : List BExpr :=
  old.args.takeWhile (fun a => !(isEqBinary a))

/-- The merged old-attribute block of `mergeRule`. -/
def mergedOldAttrs (gen old : CallE) : List BExpr :=
  (callAttrKeys old).filterMap (mergeAttrStep gen old)

/-- The rule after the old-attribute pass of `mergeRule`. -/
def preMerged (gen old : CallE) : CallE :=
  { old with args := posArgs old ++ mergedOldAttrs gen old }

/-- The generated-only attributes appended by `addGenAttrs`. -/
def genAdds (gen old : CallE) : List BExpr :=
  (callAttrKeys gen).filterMap (fun k =>
    if (attrOf (preMerged gen old) k).isSome then none else some (freshAttr gen k))

theorem mergeRule_char (gen old : CallE) (hnd : (callAttrKeys gen).Nodup) :
    mergeRule gen old =
      { old with args := posArgs old ++ mergedOldAttrs gen old ++ genAdds gen old } := by
  simp only [mergeRule]
  rw [mergeAttrs_eq, addGenAttrs_eq gen (callAttrKeys gen) _ hnd]
  rfl

theorem takeWhile_append_eq {α : Type} (p : α → Bool) (xs ys : List α)
    (hx : ∀ x ∈ xs, p x = true) (hy : ∀ y, ys.head? = some y → p y = false) :
    (xs ++ ys).takeWhile p = xs := by
  induction xs with
  | nil =>
    cases ys with
    | nil => rfl
    | cons y t =>
      simp only [List.nil_append, List.takeWhile_cons, hy y rfl]
      rfl
  | cons x xs ih =>
    simp only [List.cons_append, List.takeWhile_cons, hx x (by simp)]
    simp only [if_true]
    rw [ih (fun x' hx' => hx x' (by simp [hx']))]

theorem mergeAttrStep_key (gen old : CallE) (k : String) (a : BExpr)
    (h : mergeAttrStep gen old k = some a) : attrKeyOf a = some k := by
  unfold mergeAttrStep at h
  cases hd : attrDefn old k with
  | none => simp only [hd] at h; exact absurd h (by simp)
  | some defn =>
    simp only [hd] at h
    have hkd : attrKeyOf defn = some k := (findAttrDefn_some old.args k defn hd).2
    by_cases hm : mergeableFields k = true
    · rw [if_pos hm] at h
      cases hy : defnY defn with
      | none => simp only [hy] at h; exact absurd h (by simp)
      | some oldE =>
        simp only [hy] at h
        cases hv : mergedAttrValue (attrOf gen k) oldE with
        | none => simp only [hv] at h; exact absurd h (by simp)
        | some mv =>
          simp only [hv, Option.map_some', Option.some.injEq] at h
          rw [← h, attrKeyOf_setDefnY]
          exact hkd
    · rw [if_neg hm] at h
      simp only [Option.some.injEq] at h
      rw [← h]
      exact hkd

theorem mergeAttrStep_key_mem (gen old : CallE) (k : String) (a : BExpr)
    (h : mergeAttrStep gen old k = some a) : k ∈ callAttrKeys old := by
  unfold mergeAttrStep at h
  cases hd : attrDefn old k with
  | none => rw [hd] at h; exact absurd h (by simp)
  | some defn =>
    obtain ⟨hmem, hka⟩ := findAttrDefn_some old.args k defn hd
    exact List.mem_filterMap.mpr ⟨defn, hmem, hka⟩

theorem findAttrDefn_of_keyless (args : List BExpr) (k : String)
    (h : ∀ a ∈ args, attrKeyOf a = none) : findAttrDefn args k = none := by
  rw [findAttrDefn, List.find?_eq_none]
  intro a ha
  simp [h a ha]

theorem posArgs_keyless (old : CallE) :
    ∀ a ∈ posArgs old, attrKeyOf a = none := by
  intro a ha
  have := List.mem_takeWhile_imp ha
  simp only [Bool.not_eq_true'] at this
  exact attrKeyOf_none_of_not_isEq a this

/-- First key fact for round two: a first-round merged old attribute is
found unchanged as the attribute definition of the merged rule. -/
theorem attrDefn_merged_of_step (gen old : CallE) (k : String) (a : BExpr)
    (hstep : mergeAttrStep gen old k = some a) :
    attrDefn { old with args := posArgs old ++ mergedOldAttrs gen old ++ genAdds gen old } k =
      some a := by
  have hka : attrKeyOf a = some k := mergeAttrStep_key gen old k a hstep
  have hamem : a ∈ mergedOldAttrs gen old :=
    List.mem_filterMap.mpr ⟨k, mergeAttrStep_key_mem gen old k a hstep, hstep⟩
  have hfindA : findAttrDefn (mergedOldAttrs gen old) k = some a := by
    have hisSome : ((mergedOldAttrs gen old).find?
        (fun x => attrKeyOf x = some k)).isSome := by
      rw [List.find?_isSome]
      exact ⟨a, hamem, by simp [hka]⟩
    cases hf : (mergedOldAttrs gen old).find? (fun x => attrKeyOf x = some k) with
    | none => rw [hf] at hisSome; exact absurd hisSome (by simp)
    | some b =>
      have hbmem := List.mem_of_find?_eq_some hf
      have hbk : attrKeyOf b = some k := by simpa using List.find?_some hf
      obtain ⟨k', _, hbstep⟩ := List.mem_filterMap.mp hbmem
      have hk' : attrKeyOf b = some k' := mergeAttrStep_key gen old k' b hbstep
      rw [hbk] at hk'
      injection hk' with hk'
      rw [← hk'] at hbstep
      rw [hstep] at hbstep
      injection hbstep with hba
      rw [hba]
      exact hf
  show findAttrDefn (posArgs old ++ mergedOldAttrs gen old ++ genAdds gen old) k = some a
  rw [List.append_assoc]
  rw [findAttrDefn_append_none _ _ k (findAttrDefn_of_keyless _ k (posArgs_keyless old))]
  exact findAttrDefn_append_some _ _ k a hfindA

/-- The merged rule in characterized form. -/
def mergedRule (gen old : CallE) : CallE :=
  { old with args := posArgs old ++ mergedOldAttrs gen old ++ genAdds gen old }

theorem mergeRule_eq_mergedRule (gen old : CallE) (hnd : (callAttrKeys gen).Nodup) :
    mergeRule gen old = mergedRule gen old :=
  mergeRule_char gen old hnd

theorem genAdds_mem (gen old : CallE) (g : BExpr) (hg : g ∈ genAdds gen old) :
    ∃ k, g = freshAttr gen k ∧ attrOf (preMerged gen old) k = none ∧
      k ∈ callAttrKeys gen := by
  obtain ⟨k, hk, hstep⟩ := List.mem_filterMap.mp hg
  by_cases hs : (attrOf (preMerged gen old) k).isSome = true
  · rw [if_pos hs] at hstep
    exact absurd hstep (by simp)
  · rw [if_neg hs] at hstep
    injection hstep with h
    refine ⟨k, h.symm, ?_, hk⟩
    cases ha : attrOf (preMerged gen old) k with
    | none => rfl
    | some v => rw [ha] at hs; exact absurd rfl hs

/-- Second key fact for round two: an appended generated-only attribute
is found as the attribute definition of the merged rule. -/
theorem attrDefn_merged_of_genAdd (gen old : CallE) (k : String)
    (hin : k ∈ callAttrKeys gen) (hnone : attrOf (preMerged gen old) k = none) :
    attrDefn (mergedRule gen old) k = some (freshAttr gen k) := by
  have h1 : findAttrDefn (posArgs old ++ mergedOldAttrs gen old) k = none :=
    attrDefn_none_of_attrOf_none (preMerged gen old) k hnone
  show findAttrDefn (posArgs old ++ mergedOldAttrs gen old ++ genAdds gen old) k = _
  rw [findAttrDefn_append_none _ _ k h1]
  have hmem : freshAttr gen k ∈ genAdds gen old :=
    List.mem_filterMap.mpr ⟨k, hin, by rw [if_neg (by simp [hnone])]⟩
  have hisSome : ((genAdds gen old).find? (fun x => attrKeyOf x = some k)).isSome := by
    rw [List.find?_isSome]
    exact ⟨_, hmem, by simp [attrKeyOf_freshAttr]⟩
  cases hf : (genAdds gen old).find? (fun x => attrKeyOf x = some k) with
  | none => rw [hf] at hisSome; exact absurd hisSome (by simp)
  | some b =>
    have hbmem := List.mem_of_find?_eq_some hf
    have hbk : attrKeyOf b = some k := by simpa using List.find?_some hf
    obtain ⟨k', hb, _, _⟩ := genAdds_mem gen old b hbmem
    rw [hb, attrKeyOf_freshAttr] at hbk
    injection hbk with hkk
    have hfd : findAttrDefn (genAdds gen old) k = some b := hf
    rw [hfd, hb, hkk]

theorem callAttrKeys_merged (gen old : CallE) :
    callAttrKeys (mergedRule gen old) =
      (mergedOldAttrs gen old).filterMap attrKeyOf ++
      (genAdds gen old).filterMap attrKeyOf := by
  show (posArgs old ++ mergedOldAttrs gen old ++ genAdds gen old).filterMap attrKeyOf = _
  rw [List.filterMap_append, List.filterMap_append]
  have hpos : (posArgs old).filterMap attrKeyOf = [] := by
    rw [List.filterMap_eq_nil]
    exact posArgs_keyless old
  rw [hpos, List.nil_append]

theorem posArgs_merged (gen old : CallE) :
    posArgs (mergedRule gen old) = posArgs old := by
  show (posArgs old ++ mergedOldAttrs gen old ++ genAdds gen old).takeWhile _ = _
  rw [List.append_assoc]
  apply takeWhile_append_eq
  · intro x hx
    have h1 : x ∈ List.takeWhile (fun a => !(isEqBinary a)) old.args := hx
    have h2 := List.mem_takeWhile_imp h1
    simpa using h2
  · intro y hy
    have hymem : y ∈ mergedOldAttrs gen old ++ genAdds gen old :=
      List.mem_of_mem_head? hy
    have hisEq : isEqBinary y = true := by
      rcases List.mem_append.mp hymem with h1 | h1
      · obtain ⟨k, _, hstep⟩ := List.mem_filterMap.mp h1
        exact attrKeyOf_isEqBinary y k (mergeAttrStep_key gen old k y hstep)
      · obtain ⟨k, hb, _, _⟩ := genAdds_mem gen old y h1
        rw [hb]
        rfl
    simp [hisEq]

theorem findAttrDefn_self (args : List BExpr) (hnd : (args.filterMap attrKeyOf).Nodup) :
    ∀ a ∈ args, ∀ k, attrKeyOf a = some k → findAttrDefn args k = some a := by
  induction args with
  | nil => intro a ha; exact absurd ha (by simp)
  | cons b rest ih =>
    intro a ha k hk
    rcases List.mem_cons.mp ha with h1 | h1
    · subst h1
      simp only [findAttrDefn, List.find?, hk]
      simp
    · cases hkb : attrKeyOf b with
      | none =>
        have hnd' : (rest.filterMap attrKeyOf).Nodup := by
          simpa [List.filterMap_cons, hkb] using hnd
        rw [show findAttrDefn (b :: rest) k = findAttrDefn rest k from by
          simp [findAttrDefn, List.find?, hkb]]
        exact ih hnd' a h1 k hk
      | some kb =>
        have hnd' : (kb :: rest.filterMap attrKeyOf).Nodup := by
          simpa [List.filterMap_cons, hkb] using hnd
        rw [List.nodup_cons] at hnd'
        obtain ⟨hkb_nin, hndr⟩ := hnd'
        have hne : kb ≠ k := by
          intro he
          subst he
          exact hkb_nin (List.mem_filterMap.mpr ⟨a, h1, hk⟩)
        rw [show findAttrDefn (b :: rest) k = findAttrDefn rest k from by
          simp [findAttrDefn, List.find?, hkb, hne]]
        exact ih hndr a h1 k hk

/-- Re-merging a first-round merged old attribute reproduces it. -/
theorem mergeAttrStep_round2 (gen old : CallE) (hg : canonRule gen = true)
    (k : String) (a : BExpr) (hstep : mergeAttrStep gen old k = some a) :
    mergeAttrStep gen (mergedRule gen old) k = some a := by
  have hd2 : attrDefn (mergedRule gen old) k = some a :=
    attrDefn_merged_of_step gen old k a hstep
  unfold mergeAttrStep
  simp only [hd2]
  unfold mergeAttrStep at hstep
  cases hd : attrDefn old k with
  | none => simp only [hd] at hstep; exact absurd hstep (by simp)
  | some defn =>
    simp only [hd] at hstep
    by_cases hm : mergeableFields k = true
    · rw [if_pos hm] at hstep ⊢
      cases hy : defnY defn with
      | none => simp only [hy] at hstep; exact absurd hstep (by simp)
      | some oldE =>
        simp only [hy] at hstep
        cases hv : mergedAttrValue (attrOf gen k) oldE with
        | none => simp only [hv] at hstep; exact absurd hstep (by simp)
        | some mv =>
          simp only [hv, Option.map_some', Option.some.injEq] at hstep
          have hya : defnY a = some mv := by
            rw [← hstep]
            exact defnY_setDefnY defn mv k (findAttrDefn_some old.args k defn hd).2
          simp only [hya]
          have hcanon : canonValue (attrOf gen k) = true := by
            cases hao : attrOf gen k with
            | none => rfl
            | some v => exact (canonRule_value gen hg k v hm hao).1
          have hmv2 : mergedAttrValue (attrOf gen k) mv = some mv := by
            unfold mergedAttrValue at hv ⊢
            cases hME : mergeExpr (attrOf gen k) (some oldE) with
            | error msg =>
              simp only [hME] at hv
              obtain ⟨hcv, hcs⟩ := canonRule_value gen hg k mv hm hv
              rw [hv, mergeExpr_self mv hcv hcs]
            | ok r =>
              simp only [hME] at hv
              subst hv
              have hidem := mergeExpr_idem (attrOf gen k) oldE mv hcanon hME
              rw [hidem]
          rw [hmv2]
          simp only [Option.map_some', Option.some.injEq]
          rw [← hstep, setDefnY_setDefnY]
    · rw [if_neg hm] at hstep ⊢

/-- Re-merging a first-round appended generated-only attribute
reproduces it. -/
theorem mergeAttrStep_round2_gen (gen old : CallE) (hg : canonRule gen = true)
    (k : String) (hin : k ∈ callAttrKeys gen)
    (hnone : attrOf (preMerged gen old) k = none) :
    mergeAttrStep gen (mergedRule gen old) k = some (freshAttr gen k) := by
  have hd2 := attrDefn_merged_of_genAdd gen old k hin hnone
  unfold mergeAttrStep
  simp only [hd2]
  by_cases hm : mergeableFields k = true
  · rw [if_pos hm]
    have hsome := attrOf_isSome_of_mem_keys gen k hin
    cases hao : attrOf gen k with
    | none => rw [hao] at hsome; exact absurd hsome (by simp)
    | some v =>
      have hdy : defnY (freshAttr gen k) = some v := by
        simp only [freshAttr, defnY, hao, Option.getD_some]
      simp only [hdy]
      obtain ⟨hcv, hcs⟩ := canonRule_value gen hg k v hm hao
      have hself : mergedAttrValue (some v) v = some v := by
        unfold mergedAttrValue
        rw [mergeExpr_self v hcv hcs]
      rw [hself]
      simp only [Option.map_some', Option.some.injEq]
      exact setDefnY_of_defnY _ _ hdy
  · rw [if_neg hm]

/-- The second-round old-attribute pass reproduces the first round's
merged attributes followed by the appended generated attributes. -/
theorem mergedOldAttrs_round2 (gen old : CallE) (hg : canonRule gen = true) :
    mergedOldAttrs gen (mergedRule gen old) =
      mergedOldAttrs gen old ++ genAdds gen old := by
  unfold mergedOldAttrs
  rw [callAttrKeys_merged, List.filterMap_append]
  have h1 : ((mergedOldAttrs gen old).filterMap attrKeyOf).filterMap
      (mergeAttrStep gen (mergedRule gen old)) = mergedOldAttrs gen old := by
    rw [List.filterMap_filterMap]
    apply filterMap_id_mem
    intro a ha
    obtain ⟨k, _, hstep⟩ := List.mem_filterMap.mp ha
    have hka := mergeAttrStep_key gen old k a hstep
    show (attrKeyOf a).bind (mergeAttrStep gen (mergedRule gen old)) = some a
    rw [hka]
    show mergeAttrStep gen (mergedRule gen old) k = some a
    exact mergeAttrStep_round2 gen old hg k a hstep
  have h2 : ((genAdds gen old).filterMap attrKeyOf).filterMap
      (mergeAttrStep gen (mergedRule gen old)) = genAdds gen old := by
    rw [List.filterMap_filterMap]
    apply filterMap_id_mem
    intro a ha
    obtain ⟨k, hb, hnone, hin⟩ := genAdds_mem gen old a ha
    show (attrKeyOf a).bind (mergeAttrStep gen (mergedRule gen old)) = some a
    rw [hb, attrKeyOf_freshAttr]
    show mergeAttrStep gen (mergedRule gen old) k = some (freshAttr gen k)
    exact mergeAttrStep_round2_gen gen old hg k hin hnone
  rw [h1, h2]
  rfl

theorem attrOf_mergedRule_isSome (gen old : CallE) (k : String)
    (hin : k ∈ callAttrKeys gen) :
    (attrOf (mergedRule gen old) k).isSome = true := by
  by_cases hs : (attrOf (preMerged gen old) k).isSome = true
  · cases hao : attrOf (preMerged gen old) k with
    | none => rw [hao] at hs; exact absurd hs (by simp)
    | some v =>
      obtain ⟨a, hamem, hka, hdy⟩ := attrOf_some_shape (preMerged gen old) k v hao
      cases hfd : findAttrDefn (posArgs old ++ mergedOldAttrs gen old) k with
      | none =>
        have : attrOf (preMerged gen old) k = none := by
          show (findAttrDefn (posArgs old ++ mergedOldAttrs gen old) k).bind defnY = none
          rw [hfd]
          rfl
        rw [hao] at this
        exact absurd this (by simp)
      | some b =>
        have hfd2 : findAttrDefn (posArgs old ++ mergedOldAttrs gen old ++
            genAdds gen old) k = some b := findAttrDefn_append_some _ _ k b hfd
        have hkb : attrKeyOf b = some k := (findAttrDefn_some _ k b hfd).2
        have : attrOf (mergedRule gen old) k = defnY b := by
          show (findAttrDefn (posArgs old ++ mergedOldAttrs gen old ++
            genAdds gen old) k).bind defnY = defnY b
          rw [hfd2]
          rfl
        rw [this]
        exact defnY_isSome_of_attrKeyOf b k hkb
  · have hnone : attrOf (preMerged gen old) k = none := by
      cases hao : attrOf (preMerged gen old) k with
      | none => rfl
      | some v => rw [hao] at hs; exact absurd rfl hs
    have hd2 := attrDefn_merged_of_genAdd gen old k hin hnone
    have : attrOf (mergedRule gen old) k = defnY (freshAttr gen k) := by
      show (findAttrDefn (mergedRule gen old).args k).bind defnY = _
      rw [show findAttrDefn (mergedRule gen old).args k =
        attrDefn (mergedRule gen old) k from rfl, hd2]
      rfl
    rw [this]
    have hsome := attrOf_isSome_of_mem_keys gen k hin
    cases hao : attrOf gen k with
    | none => rw [hao] at hsome; exact absurd hsome (by simp)
    | some v => simp [freshAttr, defnY, hao]

theorem genAdds_round2 (gen old : CallE) (hg : canonRule gen = true) :
    genAdds gen (mergedRule gen old) = [] := by
  unfold genAdds
  rw [List.filterMap_eq_nil]
  intro k hk
  have hs : (attrOf (preMerged gen (mergedRule gen old)) k).isSome = true := by
    have hargs : (preMerged gen (mergedRule gen old)).args =
        (mergedRule gen old).args := by
      show posArgs (mergedRule gen old) ++ mergedOldAttrs gen (mergedRule gen old) =
        (mergedRule gen old).args
      rw [posArgs_merged, mergedOldAttrs_round2 gen old hg]
      show posArgs old ++ (mergedOldAttrs gen old ++ genAdds gen old) =
        posArgs old ++ mergedOldAttrs gen old ++ genAdds gen old
      rw [List.append_assoc]
    have : attrOf (preMerged gen (mergedRule gen old)) k =
        attrOf (mergedRule gen old) k := by
      show findAttrY (preMerged gen (mergedRule gen old)).args k =
        findAttrY (mergedRule gen old).args k
      rw [hargs]
    rw [this]
    exact attrOf_mergedRule_isSome gen old k hk
  rw [if_pos hs]

/-- Merging a canonical generated rule into an already-merged rule
reproduces the merged rule. -/
theorem mergeRule_idem (gen old : CallE) (hg : canonRule gen = true) :
    mergeRule gen (mergeRule gen old) = mergeRule gen old := by
  have hnd := canonRule_nodup gen hg
  rw [mergeRule_eq_mergedRule gen old hnd,
    mergeRule_eq_mergedRule gen (mergedRule gen old) hnd]
  show { mergedRule gen old with
          args := posArgs (mergedRule gen old) ++
            mergedOldAttrs gen (mergedRule gen old) ++
            genAdds gen (mergedRule gen old) } =
      mergedRule gen old
  rw [posArgs_merged, mergedOldAttrs_round2 gen old hg, genAdds_round2 gen old hg]
  show { mergedRule gen old with
          args := posArgs old ++
            (mergedOldAttrs gen old ++ genAdds gen old) ++ [] } = _
  rw [List.append_nil, ← List.append_assoc]
  rfl

theorem posArgs_canon (gen : CallE) (hg : canonRule gen = true) : posArgs gen = [] := by
  unfold posArgs
  cases hargs : gen.args with
  | nil => rfl
  | cons a rest =>
    have hk := canonRule_named gen hg a (by rw [hargs]; simp)
    cases hka : attrKeyOf a with
    | none => rw [hka] at hk; exact absurd hk (by simp)
    | some k =>
      have hisEq := attrKeyOf_isEqBinary a k hka
      simp [List.takeWhile_cons, hisEq]

theorem mergedOldAttrs_self (gen : CallE) (hg : canonRule gen = true) :
    mergedOldAttrs gen gen = gen.args := by
  unfold mergedOldAttrs callAttrKeys
  rw [List.filterMap_filterMap]
  apply filterMap_id_mem
  intro a ha
  have hks := canonRule_named gen hg a ha
  cases hka : attrKeyOf a with
  | none => rw [hka] at hks; exact absurd hks (by simp)
  | some k =>
    show mergeAttrStep gen gen k = some a
    have hnd : (gen.args.filterMap attrKeyOf).Nodup := canonRule_nodup gen hg
    have hfd : findAttrDefn gen.args k = some a := findAttrDefn_self gen.args hnd a ha k hka
    unfold mergeAttrStep
    simp only [show attrDefn gen k = some a from hfd]
    by_cases hm : mergeableFields k = true
    · rw [if_pos hm]
      cases hy : defnY a with
      | none =>
        have := defnY_isSome_of_attrKeyOf a k hka
        rw [hy] at this
        exact absurd this (by simp)
      | some v =>
        have hao : attrOf gen k = some v := by
          show (findAttrDefn gen.args k).bind defnY = some v
          rw [hfd]
          exact hy
        obtain ⟨hcv, hcs⟩ := canonRule_value gen hg k v hm hao
        have hmv : mergedAttrValue (some v) v = some v := by
          unfold mergedAttrValue
          rw [mergeExpr_self v hcv hcs]
        simp only [hy, hao, hmv, Option.map_some', Option.some.injEq]
        exact setDefnY_of_defnY a v hy
    · rw [if_neg hm]

theorem genAdds_self (gen : CallE) (hg : canonRule gen = true) : genAdds gen gen = [] := by
  unfold genAdds
  rw [List.filterMap_eq_nil]
  intro k hk
  have hpre : (preMerged gen gen).args = gen.args := by
    show posArgs gen ++ mergedOldAttrs gen gen = gen.args
    rw [posArgs_canon gen hg, mergedOldAttrs_self gen hg, List.nil_append]
  have hsame : attrOf (preMerged gen gen) k = attrOf gen k := by
    show findAttrY (preMerged gen gen).args k = findAttrY gen.args k
    rw [hpre]
  rw [if_pos (by rw [hsame]; exact attrOf_isSome_of_mem_keys gen k hk)]

/-- Merging a canonical generated rule with itself reproduces it. -/
theorem mergeRule_self (gen : CallE) (hg : canonRule gen = true) :
    mergeRule gen gen = gen := by
  rw [mergeRule_eq_mergedRule gen gen (canonRule_nodup gen hg)]
  show { gen with args := posArgs gen ++ mergedOldAttrs gen gen ++ genAdds gen gen } = gen
  rw [posArgs_canon gen hg, mergedOldAttrs_self gen hg, genAdds_self gen hg,
    List.nil_append, List.append_nil]

theorem mem_keys_of_attrOf_some (c : CallE) (k : String) (v : BExpr)
    (h : attrOf c k = some v) : k ∈ callAttrKeys c := by
  obtain ⟨a, hmem, hka, _⟩ := attrOf_some_shape c k v h
  exact List.mem_filterMap.mpr ⟨a, hmem, hka⟩

theorem findAttrDefn_A1_none (gen old : CallE) (k : String)
    (h : mergeAttrStep gen old k = none) :
    findAttrDefn (mergedOldAttrs gen old) k = none := by
  rw [findAttrDefn, List.find?_eq_none]
  intro a ha
  obtain ⟨k', _, hstep⟩ := List.mem_filterMap.mp ha
  have hka := mergeAttrStep_key gen old k' a hstep
  simp only [hka, decide_eq_true_eq, Option.some.injEq]
  intro he
  rw [he] at hstep
  rw [h] at hstep
  exact Option.noConfusion hstep

theorem findAttrDefn_G1_none (gen old : CallE) (k : String)
    (h : k ∉ callAttrKeys gen) :
    findAttrDefn (genAdds gen old) k = none := by
  rw [findAttrDefn, List.find?_eq_none]
  intro a ha
  obtain ⟨k', hb, _, hin⟩ := genAdds_mem gen old a ha
  rw [hb, attrKeyOf_freshAttr]
  simp only [decide_eq_true_eq, Option.some.injEq]
  intro he
  rw [he] at hin
  exact h hin

/-- The merged rule's value for a non-mergeable attribute: the old
value when present, the generated value otherwise. -/
theorem attrOf_mergedRule_nonmergeable (gen old : CallE) (k : String)
    (hm : mergeableFields k = false) :
    attrOf (mergedRule gen old) k =
      if (attrOf old k).isSome then attrOf old k else attrOf gen k := by
  by_cases ho : (attrOf old k).isSome = true
  · rw [if_pos ho]
    cases hao : attrOf old k with
    | none => rw [hao] at ho; exact absurd ho (by simp)
    | some v =>
      cases hfd : findAttrDefn old.args k with
      | none =>
        have : attrOf old k = none := by
          show (findAttrDefn old.args k).bind defnY = none
          rw [hfd]
          rfl
        rw [hao] at this
        exact absurd this (by simp)
      | some defn =>
        have hdv : defnY defn = some v := by
          have : attrOf old k = defnY defn := by
            show (findAttrDefn old.args k).bind defnY = defnY defn
            rw [hfd]
            rfl
          rw [hao] at this
          exact this.symm
        have hstep : mergeAttrStep gen old k = some defn := by
          unfold mergeAttrStep
          simp only [show attrDefn old k = some defn from hfd]
          rw [if_neg (by simp [hm])]
        have hd2 : attrDefn (mergedRule gen old) k = some defn :=
          attrDefn_merged_of_step gen old k defn hstep
        show (findAttrDefn (mergedRule gen old).args k).bind defnY = some v
        rw [show findAttrDefn (mergedRule gen old).args k =
          attrDefn (mergedRule gen old) k from rfl, hd2]
        exact hdv
  · rw [if_neg ho]
    have honone : attrOf old k = none := by
      cases hao : attrOf old k with
      | none => rfl
      | some v => rw [hao] at ho; exact absurd rfl ho
    have hstepnone : mergeAttrStep gen old k = none := by
      unfold mergeAttrStep
      rw [attrDefn_none_of_attrOf_none old k honone]
    have hpre : findAttrDefn (posArgs old ++ mergedOldAttrs gen old) k = none := by
      rw [findAttrDefn_append_none _ _ k
        (findAttrDefn_of_keyless _ k (posArgs_keyless old))]
      exact findAttrDefn_A1_none gen old k hstepnone
    by_cases hgen : k ∈ callAttrKeys gen
    · have hnone2 : attrOf (preMerged gen old) k = none := by
        show (findAttrDefn (posArgs old ++ mergedOldAttrs gen old) k).bind defnY = none
        rw [hpre]
        rfl
      have hd2 := attrDefn_merged_of_genAdd gen old k hgen hnone2
      show (findAttrDefn (mergedRule gen old).args k).bind defnY = attrOf gen k
      rw [show findAttrDefn (mergedRule gen old).args k =
        attrDefn (mergedRule gen old) k from rfl, hd2]
      have hsome := attrOf_isSome_of_mem_keys gen k hgen
      cases hao : attrOf gen k with
      | none => rw [hao] at hsome; exact absurd hsome (by simp)
      | some v => simp [freshAttr, defnY, hao]
    · have hgnone : attrOf gen k = none := by
        cases hao : attrOf gen k with
        | none => rfl
        | some v => exact absurd (mem_keys_of_attrOf_some gen k v hao) hgen
      rw [hgnone]
      show (findAttrDefn (posArgs old ++ mergedOldAttrs gen old ++
        genAdds gen old) k).bind defnY = none
      rw [findAttrDefn_append_none _ _ k hpre, findAttrDefn_G1_none gen old k hgen]
      rfl

/-- The merged rule keeps the old rule's callee, hence its kind. -/
theorem mergedRule_kind (gen old : CallE) :
    (mergedRule gen old).kind = old.kind := rfl

/-- When the generated and old rules agree on the name (as the matcher
guarantees), the merged rule keeps that name. -/
theorem mergedRule_name (gen old : CallE) (h : old.name = gen.name) :
    (mergedRule gen old).name = old.name := by
  have hm : mergeableFields "name" = false := rfl
  unfold CallE.name
  rw [attrOf_mergedRule_nonmergeable gen old "name" hm]
  by_cases ho : (attrOf old "name").isSome = true
  · rw [if_pos ho]
  · rw [if_neg ho]
    have honone : attrOf old "name" = none := by
      cases hao : attrOf old "name" with
      | none => rfl
      | some v => rw [hao] at ho; exact absurd rfl ho
    rw [honone]
    unfold CallE.name at h
    rw [honone] at h
    rw [← h]

/-- A canonical generated load: a load path followed by symbols whose
names are strictly ascending. -/
def canonLoad (c : CallE) : Bool :=
  !c.args.isEmpty && strAsc ((c.args.drop 1).map stringValue)

theorem canonLoad_parts (c : CallE) (h : canonLoad c = true) :
    c.args ≠ [] ∧ strAsc ((c.args.drop 1).map stringValue) = true := by
  simp only [canonLoad, Bool.and_eq_true, Bool.not_eq_true'] at h
  refine ⟨?_, h.2⟩
  intro hE
  rw [hE] at h
  exact absurd h.1 (by simp)

theorem loadGenLoop_closed :
    ∀ (syms : List BExpr) (vals : List LoadVal),
      ((syms.map stringValue).Nodup) →
      (∀ w ∈ vals, ∀ v ∈ syms, w.key ≠ stringValue v) →
      loadGenLoop vals syms = vals ++ syms.map (fun v => ⟨stringValue v, v⟩) := by
  intro syms
  induction syms with
  | nil => intro vals _ _; simp [loadGenLoop]
  | cons v rest ih =>
    intro vals hnd hdisj
    simp only [List.map_cons, List.nodup_cons] at hnd
    simp only [loadGenLoop]
    have hany : vals.any (fun w => w.key = stringValue v) = false := by
      rw [List.any_eq_false]
      intro w hw
      simpa using hdisj w hw v (by simp)
    rw [if_neg (by simp [hany])]
    have hdisj' : ∀ w ∈ vals ++ [(⟨stringValue v, v⟩ : LoadVal)], ∀ u ∈ rest,
        w.key ≠ stringValue u := by
      intro w hw u hu
      rcases List.mem_append.mp hw with h1 | h1
      · exact hdisj w h1 u (by simp [hu])
      · simp only [List.mem_singleton] at h1
        subst h1
        intro he
        have he' : stringValue v = stringValue u := he
        refine hnd.1 ?_
        rw [he']
        exact List.mem_map.mpr ⟨u, hu, rfl⟩
    rw [ih _ hnd.2 hdisj', List.append_assoc]
    rfl

theorem loadOldLoop_shape (stmts : List BExpr) :
    ∀ (olds : List BExpr) (vals : List LoadVal),
      ∃ adds, loadOldLoop stmts vals olds = vals ++ adds ∧
        ∀ w ∈ adds, (∃ v ∈ olds, w = ⟨stringValue v, v⟩) ∧ ruleUsed w.key stmts = true := by
  intro olds
  induction olds with
  | nil =>
    intro vals
    exact ⟨[], by simp [loadOldLoop], fun w hw => absurd hw (by simp)⟩
  | cons v rest ih =>
    intro vals
    simp only [loadOldLoop]
    by_cases hc : (!(vals.any (fun w => w.key = stringValue v)) &&
        ruleUsed (stringValue v) stmts) = true
    · rw [if_pos hc]
      obtain ⟨adds, heq, hprops⟩ := ih (vals ++ [⟨stringValue v, v⟩])
      refine ⟨⟨stringValue v, v⟩ :: adds, ?_, ?_⟩
      · rw [heq, List.append_assoc]
        rfl
      · intro w hw
        rcases List.mem_cons.mp hw with h1 | h1
        · subst h1
          rw [Bool.and_eq_true] at hc
          exact ⟨⟨v, by simp, rfl⟩, hc.2⟩
        · obtain ⟨⟨u, hu, hw'⟩, hused⟩ := hprops w h1
          exact ⟨⟨u, by simp [hu], hw'⟩, hused⟩
    · rw [if_neg hc]
      obtain ⟨adds, heq, hprops⟩ := ih vals
      refine ⟨adds, heq, ?_⟩
      intro w hw
      obtain ⟨⟨u, hu, hw'⟩, hused⟩ := hprops w hw
      exact ⟨⟨u, by simp [hu], hw'⟩, hused⟩

theorem loadOldLoop_nodup (stmts : List BExpr) :
    ∀ (olds : List BExpr) (vals : List LoadVal),
      (vals.map (fun w => w.key)).Nodup →
      ((loadOldLoop stmts vals olds).map (fun w => w.key)).Nodup := by
  intro olds
  induction olds with
  | nil => intro vals h; simpa [loadOldLoop] using h
  | cons v rest ih =>
    intro vals hnd
    simp only [loadOldLoop]
    by_cases hc : (!(vals.any (fun w => w.key = stringValue v)) &&
        ruleUsed (stringValue v) stmts) = true
    · rw [if_pos hc]
      apply ih
      rw [Bool.and_eq_true] at hc
      have hnotin : stringValue v ∉ vals.map (fun w => w.key) := by
        intro hmem
        obtain ⟨w, hw, hkw⟩ := List.mem_map.mp hmem
        have : vals.any (fun w => w.key = stringValue v) = true := by
          rw [List.any_eq_true]
          exact ⟨w, hw, by simp [hkw]⟩
        rw [this] at hc
        exact absurd hc.1 (by simp)
      rw [List.map_append]
      rw [List.nodup_append]
      exact ⟨hnd, by simp, by
        intro a ha hb
        simp only [List.map_cons, List.map_nil, List.mem_singleton] at hb
        rw [hb] at ha
        exact hnotin ha⟩
    · rw [if_neg hc]
      exact ih vals hnd

theorem loadOldLoop_all_present (stmts : List BExpr) :
    ∀ (olds : List BExpr) (vals : List LoadVal),
      (∀ v ∈ olds, vals.any (fun w => w.key = stringValue v) = true) →
      loadOldLoop stmts vals olds = vals := by
  intro olds
  induction olds with
  | nil => intro vals _; rfl
  | cons v rest ih =>
    intro vals h
    simp only [loadOldLoop]
    rw [if_neg (by simp [h v (by simp)])]
    exact ih vals (fun u hu => h u (by simp [hu]))

/-- Merging a canonical generated load with itself reproduces it. -/
theorem mergeLoad_self (gen : CallE) (stmts : List BExpr) (hc : canonLoad gen = true) :
    mergeLoad gen gen stmts = gen := by
  obtain ⟨hne, hasc⟩ := canonLoad_parts gen hc
  have hnd : ((gen.args.drop 1).map stringValue).Nodup := strAsc_nodup _ hasc
  have hgv : loadGenLoop [] (gen.args.drop 1) =
      (gen.args.drop 1).map (fun v => ⟨stringValue v, v⟩) := by
    have := loadGenLoop_closed (gen.args.drop 1) [] hnd
      (fun w hw => absurd hw (by simp))
    simpa using this
  have hallpres : ∀ v ∈ gen.args.drop 1,
      ((gen.args.drop 1).map (fun v => (⟨stringValue v, v⟩ : LoadVal))).any
        (fun w => w.key = stringValue v) = true := by
    intro v hv
    rw [List.any_eq_true]
    exact ⟨⟨stringValue v, v⟩, List.mem_map.mpr ⟨v, hv, rfl⟩, by simp⟩
  simp only [mergeLoad, mergeLoadVals]
  rw [hgv, loadOldLoop_all_present stmts _ _ hallpres]
  have hkeys : ((gen.args.drop 1).map (fun v => (⟨stringValue v, v⟩ : LoadVal))).map
      (fun w => w.key) = (gen.args.drop 1).map stringValue := by
    rw [List.map_map]
    rfl
  rw [hkeys, sortStrings_of_sorted _ (strAsc_sorted _ hasc)]
  have htail : ((gen.args.drop 1).map stringValue).map (fun k =>
      ((((gen.args.drop 1).map (fun v => (⟨stringValue v, v⟩ : LoadVal))).find?
        (fun w => w.key = k)).map (fun w => w.val)).getD (.str {} k)) =
      gen.args.drop 1 := by
    rw [List.map_map]
    have hmapid : ∀ v ∈ gen.args.drop 1,
        ((((gen.args.drop 1).map (fun v => (⟨stringValue v, v⟩ : LoadVal))).find?
          (fun w => w.key = stringValue v)).map (fun w => w.val)).getD
            (.str {} (stringValue v)) = v := by
      intro v hv
      have hndk : (((gen.args.drop 1).map
          (fun v => (⟨stringValue v, v⟩ : LoadVal))).map LoadVal.key).Nodup := by
        rw [List.map_map]
        exact hnd
      have hfind := find?_key_self LoadVal.key
        ((gen.args.drop 1).map (fun v => (⟨stringValue v, v⟩ : LoadVal))) hndk
        ⟨stringValue v, v⟩ (List.mem_map.mpr ⟨v, hv, rfl⟩)
      have hfind2 : ((gen.args.drop 1).map
          (fun v => (⟨stringValue v, v⟩ : LoadVal))).find?
          (fun w => w.key = stringValue v) = some ⟨stringValue v, v⟩ := hfind
      rw [hfind2]
      rfl
    calc ((gen.args.drop 1)).map (fun v =>
        ((((gen.args.drop 1).map (fun v => (⟨stringValue v, v⟩ : LoadVal))).find?
          (fun w => w.key = stringValue v)).map (fun w => w.val)).getD
            (.str {} (stringValue v))) =
        (gen.args.drop 1).map id := List.map_congr_left (fun v hv => hmapid v hv)
      _ = gen.args.drop 1 := List.map_id _
  rw [htail, List.take_append_drop]

theorem loadOldLoop_determ (stmts : List BExpr) :
    ∀ (ks : List String) (f : String → BExpr) (vals : List LoadVal),
      ks.Nodup →
      (∀ k ∈ ks, stringValue (f k) = k) →
      (∀ k ∈ ks, vals.any (fun w => w.key = k) = false → ruleUsed k stmts = true) →
      loadOldLoop stmts vals (ks.map f) =
        vals ++ (ks.filter (fun k => !(vals.any (fun w => w.key = k)))).map
          (fun k => ⟨k, f k⟩) := by
  intro ks
  induction ks with
  | nil => intro f vals _ _ _; simp [loadOldLoop]
  | cons k rest ih =>
    intro f vals hnd hsv hused
    rw [List.nodup_cons] at hnd
    simp only [List.map_cons, loadOldLoop, List.filter_cons]
    rw [hsv k (by simp)]
    by_cases hp : vals.any (fun w => w.key = k) = true
    · rw [if_neg (by simp [hp])]
      rw [ih f vals hnd.2 (fun k' hk' => hsv k' (by simp [hk']))
        (fun k' hk' h' => hused k' (by simp [hk']) h')]
      rw [hp]
      rfl
    · have hp' : vals.any (fun w => w.key = k) = false := by
        cases hq : vals.any (fun w => w.key = k) with
        | false => rfl
        | true => exact absurd hq hp
      rw [if_pos (by simp [hp', hused k (by simp) hp'])]
      have husedtail : ∀ k' ∈ rest, ((vals ++ [(⟨k, f k⟩ : LoadVal)]).any
          (fun w => w.key = k')) = false → ruleUsed k' stmts = true := by
        intro k' hk' h'
        refine hused k' (by simp [hk']) ?_
        rw [List.any_append] at h'
        rw [Bool.or_eq_false_iff] at h'
        exact h'.1
      have hstep := ih f (vals ++ [(⟨k, f k⟩ : LoadVal)]) hnd.2
        (fun k' hk' => hsv k' (by simp [hk'])) husedtail
      rw [hstep]
      have hfeq : rest.filter (fun k' => !((vals ++ [(⟨k, f k⟩ : LoadVal)]).any
          (fun w => w.key = k'))) = rest.filter (fun k' => !(vals.any
          (fun w => w.key = k'))) := by
        apply List.filter_congr
        intro k' hk'
        have hne : k ≠ k' := fun he => hnd.1 (he ▸ hk')
        rw [List.any_append]
        have h1 : [(⟨k, f k⟩ : LoadVal)].any (fun w => w.key = k') = false := by
          simp [hne]
        rw [h1, Bool.or_false]
      rw [hfeq, hp']
      simp only [Bool.not_false, eq_self_iff_true, if_true, List.map_cons]
      rw [List.append_assoc]
      rfl

theorem any_key_append_left (vals adds : List LoadVal) (k : String)
    (h : vals.any (fun w => w.key = k) = true) :
    (vals ++ adds).any (fun w => w.key = k) = true := by
  rw [List.any_append, h]
  rfl

/-- The first-round merge values of `mergeLoad`. -/
def loadVals1 (gen old : CallE) (stmts : List BExpr) : List LoadVal :=
  loadOldLoop stmts ((gen.args.drop 1).map (fun v => ⟨stringValue v, v⟩))
    (old.args.drop 1)

/-- The sorted symbol names of a value map. -/
def loadKs (vals : List LoadVal) : List String :=
  sortStrings (vals.map (fun w => w.key))

/-- The merged symbol expression chosen for a name. -/
def loadPick (vals : List LoadVal) (k : String) : BExpr :=
  ((vals.find? (fun w => w.key = k)).map (fun w => w.val)).getD (.str {} k)

theorem mergeLoad_eq (gen old : CallE) (stmts : List BExpr) (hc : canonLoad gen = true) :
    mergeLoad gen old stmts = { old with args := old.args.take 1 ++
      (loadKs (loadVals1 gen old stmts)).map (loadPick (loadVals1 gen old stmts)) } := by
  obtain ⟨hgne, hasc⟩ := canonLoad_parts gen hc
  have hndG : ((gen.args.drop 1).map stringValue).Nodup := strAsc_nodup _ hasc
  have hgv : loadGenLoop [] (gen.args.drop 1) =
      (gen.args.drop 1).map (fun v => ⟨stringValue v, v⟩) := by
    have := loadGenLoop_closed (gen.args.drop 1) [] hndG
      (fun w hw => absurd hw (by simp))
    simpa using this
  simp only [mergeLoad, mergeLoadVals, hgv, loadVals1, loadKs, loadPick]
  rfl

/-- Re-merging a canonical generated load into a previously merged load
reproduces it, provided every rule kind used by the file at the first
merge is still used at the second. -/
theorem mergeLoad_idem (gen old : CallE) (stmts1 stmts2 : List BExpr)
    (hc : canonLoad gen = true) (a0 : BExpr) (tl : List BExpr)
    (hone : old.args = a0 :: tl)
    (hmono : ∀ r, ruleUsed r stmts1 = true → ruleUsed r stmts2 = true) :
    mergeLoad gen (mergeLoad gen old stmts1) stmts2 = mergeLoad gen old stmts1 := by
  obtain ⟨hgne, hasc⟩ := canonLoad_parts gen hc
  have hndG : ((gen.args.drop 1).map stringValue).Nodup := strAsc_nodup _ hasc
  have hgkeys : (((gen.args.drop 1).map (fun v => (⟨stringValue v, v⟩ : LoadVal))).map
      (fun w => w.key)) = (gen.args.drop 1).map stringValue := by
    rw [List.map_map]
    rfl
  have hndV1 : ((loadVals1 gen old stmts1).map (fun w => w.key)).Nodup := by
    apply loadOldLoop_nodup
    rw [hgkeys]
    exact hndG
  have hgoodV1 : goodVals (loadVals1 gen old stmts1) := by
    apply loadOldLoop_good
    intro w hw
    obtain ⟨v, _, hv⟩ := List.mem_map.mp hw
    rw [← hv]
  obtain ⟨adds1, hshape1, hprops1⟩ :=
    loadOldLoop_shape stmts1 (old.args.drop 1)
      ((gen.args.drop 1).map (fun v => (⟨stringValue v, v⟩ : LoadVal)))
  have hndK1 : (loadKs (loadVals1 gen old stmts1)).Nodup :=
    ((sortStrings_perm _).nodup_iff).mpr hndV1
  have hsorted1 : List.Sorted (fun a b : String => a ≤ b)
      (loadKs (loadVals1 gen old stmts1)) := sortStrings_sorted _
  have hfindV1 : ∀ k ∈ loadKs (loadVals1 gen old stmts1),
      ∃ w ∈ loadVals1 gen old stmts1, w.key = k ∧
        (loadVals1 gen old stmts1).find? (fun w => w.key = k) = some w := by
    intro k hk
    rw [loadKs, sortStrings_mem] at hk
    obtain ⟨w, hw, hkw⟩ := List.mem_map.mp hk
    have hfind : (loadVals1 gen old stmts1).find? (fun y => y.key = w.key) = some w :=
      find?_key_self (fun w => w.key) (loadVals1 gen old stmts1) hndV1 w hw
    rw [hkw] at hfind
    exact ⟨w, hw, hkw, hfind⟩
  have hsvP1 : ∀ k ∈ loadKs (loadVals1 gen old stmts1),
      stringValue (loadPick (loadVals1 gen old stmts1) k) = k := by
    intro k hk
    obtain ⟨w, hw, hkw, hfind⟩ := hfindV1 k hk
    rw [loadPick, hfind]
    show stringValue w.val = k
    rw [← hgoodV1 w hw]
    exact hkw
  have hganyT : ∀ k, (((gen.args.drop 1).map
      (fun v => (⟨stringValue v, v⟩ : LoadVal))).any (fun w => w.key = k)) = true ↔
      k ∈ (gen.args.drop 1).map stringValue := by
    intro k
    rw [List.any_eq_true]
    constructor
    · rintro ⟨w, hw, hkw⟩
      obtain ⟨v, hv, hvw⟩ := List.mem_map.mp hw
      simp only [decide_eq_true_eq] at hkw
      rw [← hkw, ← hvw]
      exact List.mem_map.mpr ⟨v, hv, rfl⟩
    · intro hmem
      obtain ⟨v, hv, hvk⟩ := List.mem_map.mp hmem
      exact ⟨⟨stringValue v, v⟩, List.mem_map.mpr ⟨v, hv, rfl⟩, by simp [hvk]⟩
  have husedK1 : ∀ k ∈ loadKs (loadVals1 gen old stmts1),
      (((gen.args.drop 1).map (fun v => (⟨stringValue v, v⟩ : LoadVal))).any
        (fun w => w.key = k)) = false → ruleUsed k stmts2 = true := by
    intro k hk hany
    obtain ⟨w, hw, hkw, _⟩ := hfindV1 k hk
    rw [loadVals1, hshape1] at hw
    rcases List.mem_append.mp hw with h1 | h1
    · exfalso
      have : (((gen.args.drop 1).map (fun v => (⟨stringValue v, v⟩ : LoadVal))).any
          (fun w => w.key = k)) = true := by
        rw [List.any_eq_true]
        exact ⟨w, h1, by simp [hkw]⟩
      rw [hany] at this
      exact Bool.noConfusion this
    · obtain ⟨_, hused⟩ := hprops1 w h1
      rw [hkw] at hused
      exact hmono k hused
  have hM : mergeLoad gen old stmts1 =
      { old with
        args := old.args.take 1 ++
          (loadKs (loadVals1 gen old stmts1)).map
            (loadPick (loadVals1 gen old stmts1)) } :=
    mergeLoad_eq gen old stmts1 hc
  have hMargs : (mergeLoad gen old stmts1).args = a0 ::
      (loadKs (loadVals1 gen old stmts1)).map (loadPick (loadVals1 gen old stmts1)) := by
    rw [hM]
    show old.args.take 1 ++ _ = _
    rw [hone]
    rfl
  have hV2 : loadVals1 gen (mergeLoad gen old stmts1) stmts2 =
      ((gen.args.drop 1).map (fun v => (⟨stringValue v, v⟩ : LoadVal))) ++
      ((loadKs (loadVals1 gen old stmts1)).filter (fun k =>
        !(((gen.args.drop 1).map (fun v => (⟨stringValue v, v⟩ : LoadVal))).any
          (fun w => w.key = k)))).map
        (fun k => ⟨k, loadPick (loadVals1 gen old stmts1) k⟩) := by
    rw [loadVals1, hMargs]
    show loadOldLoop stmts2 _ ((loadKs (loadVals1 gen old stmts1)).map
      (loadPick (loadVals1 gen old stmts1))) = _
    exact loadOldLoop_determ stmts2 _ _ _ hndK1 hsvP1 husedK1
  have hkeys2 : (loadVals1 gen (mergeLoad gen old stmts1) stmts2).map (fun w => w.key) =
      (gen.args.drop 1).map stringValue ++
      ((loadKs (loadVals1 gen old stmts1)).filter (fun k =>
        !(((gen.args.drop 1).map (fun v => (⟨stringValue v, v⟩ : LoadVal))).any
          (fun w => w.key = k)))) := by
    rw [hV2, List.map_append, hgkeys, List.map_map]
    congr 1
    exact List.map_id _
  have hnd2 : ((loadVals1 gen (mergeLoad gen old stmts1) stmts2).map
      (fun w => w.key)).Nodup := by
    rw [hkeys2]
    rw [List.nodup_append]
    refine ⟨hndG, hndK1.filter _, ?_⟩
    intro a ha hb
    have hpred := List.of_mem_filter hb
    rw [Bool.not_eq_true'] at hpred
    rw [← hganyT a] at ha
    rw [ha] at hpred
    exact Bool.noConfusion hpred
  have hmem2 : ∀ k, k ∈ (loadVals1 gen (mergeLoad gen old stmts1) stmts2).map
      (fun w => w.key) ↔ k ∈ (loadVals1 gen old stmts1).map (fun w => w.key) := by
    intro k
    rw [hkeys2]
    constructor
    · intro hk
      rcases List.mem_append.mp hk with h1 | h1
      · rw [loadVals1, hshape1, List.map_append]
        exact List.mem_append_left _ (by rw [hgkeys]; exact h1)
      · have := List.mem_of_mem_filter h1
        rw [loadKs, sortStrings_mem] at this
        exact this
    · intro hk
      by_cases hg : k ∈ (gen.args.drop 1).map stringValue
      · exact List.mem_append_left _ hg
      · refine List.mem_append_right _ ?_
        rw [List.mem_filter]
        refine ⟨by rw [loadKs, sortStrings_mem]; exact hk, ?_⟩
        rw [Bool.not_eq_true']
        cases hq : (((gen.args.drop 1).map (fun v => (⟨stringValue v, v⟩ : LoadVal))).any
            (fun w => w.key = k)) with
        | false => rfl
        | true => exact absurd ((hganyT k).mp hq) hg
  have hperm : List.Perm ((loadVals1 gen (mergeLoad gen old stmts1) stmts2).map
      (fun w => w.key)) ((loadVals1 gen old stmts1).map (fun w => w.key)) := by
    rw [List.perm_ext_iff_of_nodup hnd2 hndV1]
    exact hmem2
  have hK2 : loadKs (loadVals1 gen (mergeLoad gen old stmts1) stmts2) =
      loadKs (loadVals1 gen old stmts1) := by
    apply List.eq_of_perm_of_sorted ?_ (sortStrings_sorted _) hsorted1
    exact (sortStrings_perm _).trans (hperm.trans (sortStrings_perm _).symm)
  have hfind2 : ∀ k ∈ loadKs (loadVals1 gen old stmts1),
      (loadVals1 gen (mergeLoad gen old stmts1) stmts2).find? (fun w => w.key = k) =
      (loadVals1 gen old stmts1).find? (fun w => w.key = k) := by
    intro k hk
    obtain ⟨w, hw, hkw, hfind⟩ := hfindV1 k hk
    rw [hfind]
    have hw2 : w ∈ loadVals1 gen (mergeLoad gen old stmts1) stmts2 := by
      rw [hV2]
      by_cases hg : k ∈ (gen.args.drop 1).map stringValue
      · refine List.mem_append_left _ ?_
        obtain ⟨v, hv, hvk⟩ := List.mem_map.mp hg
        have hwg : (⟨stringValue v, v⟩ : LoadVal) ∈ loadVals1 gen old stmts1 := by
          rw [loadVals1, hshape1]
          exact List.mem_append_left _ (List.mem_map.mpr ⟨v, hv, rfl⟩)
        have heq : w = ⟨stringValue v, v⟩ :=
          nodup_key_unique (fun w => w.key) (loadVals1 gen old stmts1) hndV1
            w ⟨stringValue v, v⟩ hw hwg (by show w.key = stringValue v; rw [hkw, hvk])
        rw [heq]
        exact List.mem_map.mpr ⟨v, hv, rfl⟩
      · refine List.mem_append_right _ ?_
        have hanyF : (((gen.args.drop 1).map
            (fun v => (⟨stringValue v, v⟩ : LoadVal))).any (fun w => w.key = k)) = false := by
          cases hq : (((gen.args.drop 1).map (fun v => (⟨stringValue v, v⟩ : LoadVal))).any
              (fun w => w.key = k)) with
          | false => rfl
          | true => exact absurd ((hganyT k).mp hq) hg
        have hkfilter : k ∈ (loadKs (loadVals1 gen old stmts1)).filter (fun k =>
            !(((gen.args.drop 1).map (fun v => (⟨stringValue v, v⟩ : LoadVal))).any
              (fun w => w.key = k))) := by
          rw [List.mem_filter]
          exact ⟨hk, by rw [hanyF]; rfl⟩
        have hwval : w = ⟨k, loadPick (loadVals1 gen old stmts1) k⟩ := by
          rw [loadPick, hfind]
          show w = ⟨k, w.val⟩
          rw [← hkw]
        rw [hwval]
        exact List.mem_map.mpr ⟨k, hkfilter, rfl⟩
    have hfin : (loadVals1 gen (mergeLoad gen old stmts1) stmts2).find?
        (fun y => y.key = w.key) = some w :=
      find?_key_self (fun w => w.key)
        (loadVals1 gen (mergeLoad gen old stmts1) stmts2) hnd2 w hw2
    rw [hkw] at hfin
    exact hfin
  have hM2 := mergeLoad_eq gen (mergeLoad gen old stmts1) stmts2 hc
  rw [hM2, hK2]
  have hmapeq : (loadKs (loadVals1 gen old stmts1)).map
      (loadPick (loadVals1 gen (mergeLoad gen old stmts1) stmts2)) =
      (loadKs (loadVals1 gen old stmts1)).map
        (loadPick (loadVals1 gen old stmts1)) := by
    apply List.map_congr_left
    intro k hk
    rw [loadPick, loadPick, hfind2 k hk]
  rw [hmapeq]
  have htake : (mergeLoad gen old stmts1).args.take 1 = [a0] := by
    rw [hMargs]
    rfl
  rw [htake]
  show { mergeLoad gen old stmts1 with args := a0 ::
    (loadKs (loadVals1 gen old stmts1)).map (loadPick (loadVals1 gen old stmts1)) } = _
  rw [← hMargs]

theorem asCall_toExpr (s : BExpr) (oc : CallE) (h : asCall s = some oc) :
    oc.toExpr = s := by
  cases s with
  | call c fn args =>
    simp only [asCall, Option.some.injEq] at h
    rw [← h]
    rfl
  | str c v => exact absurd h (by simp [asCall])
  | lit c v => exact absurd h (by simp [asCall])
  | list c f es => exact absurd h (by simp [asCall])
  | dict c f es => exact absurd h (by simp [asCall])
  | kv c k v => exact absurd h (by simp [asCall])
  | binary c o x y => exact absurd h (by simp [asCall])

theorem asCall_toExpr_inv (c : CallE) : asCall c.toExpr = some c := rfl

/-- Matcher-relevant similarity of two statements: same comment
envelope; both calls of the same kind, agreeing on the load path and
emptiness when loads and on the rule name otherwise, or both
non-calls. -/
def simPt (s s' : BExpr) : Prop :=
  s.com = s'.com ∧
  match asCall s, asCall s' with
  | some oc, some oc' =>
      oc.kind = oc'.kind ∧
      (oc.kind = "load" → (oc.args.isEmpty = oc'.args.isEmpty ∧
        stringValue (oc.args.headD (.lit {} "")) =
          stringValue (oc'.args.headD (.lit {} "")))) ∧
      (oc.kind ≠ "load" → oc.name = oc'.name)
  | none, none => True
  | _, _ => False

theorem simPt_refl (s : BExpr) : simPt s s := by
  refine ⟨rfl, ?_⟩
  cases h : asCall s with
  | none => trivial
  | some oc => exact ⟨rfl, fun _ => ⟨rfl, rfl⟩, fun _ => rfl⟩

/-- Matchers built by `match` evaluate equally on similar statements. -/
theorem simPt_matcher (g : CallE) (p : BExpr → Bool) (hp : matcherFor g = some p)
    (s s' : BExpr) (hsim : simPt s s') : p s = p s' := by
  obtain ⟨_, hsim⟩ := hsim
  unfold matcherFor at hp
  by_cases hk : g.kind = "load"
  · rw [if_pos hk] at hp
    cases hargs : g.args with
    | nil => rw [hargs] at hp; exact absurd hp (by simp)
    | cons a0 rest =>
      rw [hargs] at hp
      simp only [Option.some.injEq] at hp
      rw [← hp]
      cases h1 : asCall s with
      | none =>
        cases h2 : asCall s' with
        | none => simp [h1, h2]
        | some oc' => rw [h1, h2] at hsim; exact absurd hsim (by simp)
      | some oc =>
        cases h2 : asCall s' with
        | none => rw [h1, h2] at hsim; exact absurd hsim (by simp)
        | some oc' =>
          rw [h1, h2] at hsim
          obtain ⟨hkind, hload, _⟩ := hsim
          simp only [h1, h2]
          by_cases hocl : oc.kind = "load"
          · obtain ⟨hempty, hhead⟩ := hload hocl
            rw [hkind] at hocl
            rw [← hkind] at hocl
            rw [show oc'.kind = oc.kind from hkind.symm]
            rw [hempty, hhead]
          · have hocl' : oc'.kind ≠ "load" := by rw [← hkind]; exact hocl
            simp [hocl, hocl']
  · rw [if_neg hk] at hp
    simp only [Option.some.injEq] at hp
    rw [← hp]
    cases h1 : asCall s with
    | none =>
      cases h2 : asCall s' with
      | none => simp [h1, h2]
      | some oc' => rw [h1, h2] at hsim; exact absurd hsim (by simp)
    | some oc =>
      cases h2 : asCall s' with
      | none => rw [h1, h2] at hsim; exact absurd hsim (by simp)
      | some oc' =>
        rw [h1, h2] at hsim
        obtain ⟨hkind, _, hname⟩ := hsim
        simp only [h1, h2]
        rw [hkind]
        by_cases hock : oc'.kind = g.kind
        · have hname' : oc.name = oc'.name := by
            apply hname
            rw [hkind, hock]
            exact hk
          rw [hname']
        · simp [hock]

/-- A statement's kind data, as consumed by `ruleUsed`. -/
theorem ruleUsed_congr (r : String) :
    ∀ (l l' : List BExpr), List.Forall₂ simPt l l' → ruleUsed r l = ruleUsed r l' := by
  intro l l' h
  induction h with
  | nil => rfl
  | cons hsim htail ih =>
    next s s' ls ls' =>
    simp only [ruleUsed, List.any_cons] at ih ⊢
    rw [ih]
    congr 1
    obtain ⟨_, hsim⟩ := hsim
    cases h1 : asCall s with
    | none =>
      cases h2 : asCall s' with
      | none =>
        cases s <;> cases s' <;> simp_all [asCall]
      | some oc' => rw [h1, h2] at hsim; exact absurd hsim (by simp)
    | some oc =>
      cases h2 : asCall s' with
      | none => rw [h1, h2] at hsim; exact absurd hsim (by simp)
      | some oc' =>
        rw [h1, h2] at hsim
        obtain ⟨hkind, _, _⟩ := hsim
        have hs : s = .call oc.com oc.fn oc.args := (asCall_toExpr s oc h1).symm
        have hs' : s' = .call oc'.com oc'.fn oc'.args := (asCall_toExpr s' oc' h2).symm
        subst hs
        subst hs'
        show (decide (r = "") || decide (oc.kind = r)) =
          (decide (r = "") || decide (oc'.kind = r))
        rw [hkind]

theorem set_getElem_self {A : Type} : ∀ (l : List A) (i : Nat) (s : A),
    l[i]? = some s → l.set i s = l := by
  intro l
  induction l with
  | nil => intro i s h; exact absurd h (by simp)
  | cons a rest ih =>
    intro i s h
    cases i with
    | zero =>
      simp only [List.getElem?_cons_zero, Option.some.injEq] at h
      show s :: rest = a :: rest
      rw [h]
    | succ n =>
      simp only [List.getElem?_cons_succ] at h
      show a :: rest.set n s = a :: rest
      rw [ih n s h]

theorem getElem?_set_self {A : Type} (l : List A) (i : Nat) (a b : A)
    (h : l[i]? = some b) : (l.set i a)[i]? = some a := by
  obtain ⟨hlt, _⟩ := List.getElem?_eq_some_iff.mp h
  exact List.getElem?_set_self hlt

theorem getElem?_set_ne {A : Type} (l : List A) (i j : Nat) (a : A) (h : i ≠ j) :
    (l.set i a)[j]? = l[j]? := List.getElem?_set_ne h

theorem getElem?_append_l {A : Type} (l l' : List A) (i : Nat) (a : A)
    (h : l[i]? = some a) : (l ++ l')[i]? = some a := by
  obtain ⟨hlt, he⟩ := List.getElem?_eq_some_iff.mp h
  rw [List.getElem?_append_left hlt]
  exact h

theorem getElem?_append_r {A : Type} (l l' : List A) (j : Nat) :
    (l ++ l')[l.length + j]? = l'[j]? := by
  rw [List.getElem?_append_right (by omega)]
  have : l.length + j - l.length = j := by omega
  rw [this]

theorem findMatch_some (p : BExpr → Bool) :
    ∀ (l : List BExpr) (i : Nat) (s : BExpr), findMatch p l = some (i, s) →
      l[i]? = some s ∧ p s = true := by
  intro l
  induction l with
  | nil => intro i s h; exact absurd h (by simp [findMatch])
  | cons a rest ih =>
    intro i s h
    by_cases hp : p a = true
    · simp only [findMatch, if_pos hp, Option.some.injEq, Prod.mk.injEq] at h
      obtain ⟨h1, h2⟩ := h
      rw [← h1, ← h2]
      exact ⟨List.getElem?_cons_zero, hp⟩
    · simp only [findMatch, if_neg hp] at h
      cases hf : findMatch p rest with
      | none => rw [hf] at h; exact absurd h (by simp)
      | some x =>
        obtain ⟨j, t⟩ := x
        rw [hf] at h
        simp only [Option.map_some', Option.some.injEq, Prod.mk.injEq] at h
        obtain ⟨h1, h2⟩ := h
        obtain ⟨hmem, hpt⟩ := ih j t hf
        rw [← h1, ← h2]
        exact ⟨by rw [List.getElem?_cons_succ]; exact hmem, hpt⟩

theorem findMatch_none (p : BExpr → Bool) :
    ∀ (l : List BExpr), findMatch p l = none ↔ ∀ s ∈ l, p s = false := by
  intro l
  induction l with
  | nil => simp [findMatch]
  | cons a rest ih =>
    by_cases hp : p a = true
    · simp only [findMatch, if_pos hp]
      constructor
      · intro h; exact absurd h (by simp)
      · intro h
        have := h a (by simp)
        rw [hp] at this
        exact absurd this (by simp)
    · simp only [findMatch, if_neg hp, Option.map_eq_none', ih, List.mem_cons]
      constructor
      · intro h s hs
        cases hs with
        | inl he => rw [he]; exact Bool.eq_false_iff.mpr hp
        | inr hm => exact h s hm
      · intro h s hs
        exact h s (Or.inr hs)

theorem findMatch_congr_none (p : BExpr → Bool) (l l' : List BExpr)
    (h : List.Forall₂ (fun a b => p a = p b) l l')
    (hn : findMatch p l = none) : findMatch p l' = none := by
  induction h with
  | nil => rfl
  | cons hab htail ih =>
    next a b la lb =>
    simp only [findMatch] at hn ⊢
    by_cases hp : p a = true
    · rw [if_pos hp] at hn; exact absurd hn (by simp)
    · rw [if_neg hp] at hn
      have hpb : ¬ p b = true := by rw [← hab]; exact hp
      rw [if_neg hpb]
      have hla : findMatch p la = none := by
        cases hf : findMatch p la with
        | none => rfl
        | some x => rw [hf] at hn; exact absurd hn (by simp)
      rw [ih hla]
      rfl

theorem findMatch_congr_some (p : BExpr → Bool) (l l' : List BExpr)
    (h : List.Forall₂ (fun a b => p a = p b) l l') :
    ∀ (i : Nat) (s : BExpr), findMatch p l = some (i, s) →
      ∃ s', findMatch p l' = some (i, s') ∧ l'[i]? = some s' := by
  induction h with
  | nil => intro i s hs; exact absurd hs (by simp [findMatch])
  | cons hab htail ih =>
    next a b la lb =>
    intro i s hs
    simp only [findMatch] at hs ⊢
    by_cases hp : p a = true
    · rw [if_pos hp] at hs
      have hpb : p b = true := by rw [← hab]; exact hp
      rw [if_pos hpb]
      simp only [Option.some.injEq, Prod.mk.injEq] at hs
      refine ⟨b, ?_, ?_⟩
      · rw [← hs.1]
      · rw [← hs.1]
        exact List.getElem?_cons_zero
    · rw [if_neg hp] at hs
      have hpb : ¬ p b = true := by rw [← hab]; exact hp
      rw [if_neg hpb]
      cases hf : findMatch p la with
      | none => rw [hf] at hs; exact absurd hs (by simp)
      | some x =>
        obtain ⟨j, t⟩ := x
        rw [hf] at hs
        simp only [Option.map_some', Option.some.injEq, Prod.mk.injEq] at hs
        obtain ⟨hs1, hs2⟩ := hs
        obtain ⟨t', hft', hmem'⟩ := ih j t hf
        rw [hft']
        refine ⟨t', ?_, ?_⟩
        · simp only [Option.map_some']
          rw [← hs1]
        · rw [← hs1]
          rw [List.getElem?_cons_succ]
          exact hmem'

theorem findMatch_append_left (p : BExpr → Bool) :
    ∀ (l l' : List BExpr) (i : Nat) (s : BExpr), findMatch p l = some (i, s) →
      findMatch p (l ++ l') = some (i, s) := by
  intro l
  induction l with
  | nil => intro l' i s h; exact absurd h (by simp [findMatch])
  | cons a rest ih =>
    intro l' i s h
    simp only [findMatch, List.cons_append, List.append_eq] at h ⊢
    by_cases hp : p a = true
    · rw [if_pos hp] at h ⊢; exact h
    · rw [if_neg hp] at h ⊢
      cases hf : findMatch p rest with
      | none => rw [hf] at h; exact absurd h (by simp)
      | some x =>
        rw [hf] at h
        rw [ih l' x.1 x.2 (by rw [hf])]
        exact h

theorem findMatch_append_right (p : BExpr → Bool) :
    ∀ (l l' : List BExpr), findMatch p l = none →
      findMatch p (l ++ l') =
        (findMatch p l').map (fun x => (x.1 + l.length, x.2)) := by
  intro l
  induction l with
  | nil =>
    intro l' h
    rw [List.nil_append]
    cases hf : findMatch p l' with
    | none => rfl
    | some x => rfl
  | cons a rest ih =>
    intro l' h
    simp only [findMatch, List.cons_append, List.append_eq] at h ⊢
    by_cases hp : p a = true
    · rw [if_pos hp] at h; exact absurd h (by simp)
    · rw [if_neg hp] at h ⊢
      have hr : findMatch p rest = none := by
        cases hf : findMatch p rest with
        | none => rfl
        | some x => rw [hf] at h; exact absurd h (by simp)
      rw [ih l' hr]
      cases hf : findMatch p l' with
      | none => rfl
      | some x =>
        simp only [Option.map_some', List.length_cons]
        have harith : x.1 + rest.length + 1 = x.1 + (rest.length + 1) := by omega
        rw [harith]

theorem findMatch_unique (p : BExpr → Bool) :
    ∀ (l : List BExpr) (g : BExpr), g ∈ l → p g = true →
      (∀ x ∈ l, p x = true → x = g) →
      ∃ j, findMatch p l = some (j, g) ∧ l[j]? = some g := by
  intro l
  induction l with
  | nil => intro g hmem; exact absurd hmem (by simp)
  | cons a rest ih =>
    intro g hmem hg huniq
    by_cases hp : p a = true
    · have ha : a = g := huniq a (by simp) hp
      refine ⟨0, ?_, ?_⟩
      · rw [← ha]
        simp [findMatch, hp]
      · rw [← ha]
        exact List.getElem?_cons_zero
    · have hmem' : g ∈ rest := by
        cases List.mem_cons.mp hmem with
        | inl he => rw [he] at hg; exact absurd hg hp
        | inr hm => exact hm
      obtain ⟨j, hj, hjm⟩ :=
        ih g hmem' hg (fun x hx hpx => huniq x (List.mem_cons_of_mem a hx) hpx)
      refine ⟨j + 1, ?_, ?_⟩
      · simp [findMatch, hp, hj]
      · rw [List.getElem?_cons_succ]
        exact hjm

theorem simPt_trans (s t u : BExpr) (h1 : simPt s t) (h2 : simPt t u) : simPt s u := by
  obtain ⟨hc1, h1⟩ := h1
  obtain ⟨hc2, h2⟩ := h2
  refine ⟨hc1.trans hc2, ?_⟩
  cases ha : asCall s with
  | none =>
    cases hb : asCall t with
    | none =>
      cases hcu : asCall u with
      | none => trivial
      | some oc => rw [hb, hcu] at h2; exact absurd h2 (by simp)
    | some oc => rw [ha, hb] at h1; exact absurd h1 (by simp)
  | some oc =>
    cases hb : asCall t with
    | none => rw [ha, hb] at h1; exact absurd h1 (by simp)
    | some oc' =>
      cases hcu : asCall u with
      | none => rw [hb, hcu] at h2; exact absurd h2 (by simp)
      | some oc2 =>
        rw [ha, hb] at h1
        rw [hb, hcu] at h2
        obtain ⟨hk1, hl1, hn1⟩ := h1
        obtain ⟨hk2, hl2, hn2⟩ := h2
        refine ⟨hk1.trans hk2, ?_, ?_⟩
        · intro hload
          obtain ⟨he1, hh1⟩ := hl1 hload
          obtain ⟨he2, hh2⟩ := hl2 (by rw [← hk1]; exact hload)
          exact ⟨he1.trans he2, hh1.trans hh2⟩
        · intro hnl
          have hnl' : oc'.kind ≠ "load" := by rw [← hk1]; exact hnl
          exact (hn1 hnl).trans (hn2 hnl')

theorem forall2_simPt_set (l l' : List BExpr) (h : List.Forall₂ simPt l l')
    (i : Nat) (b b' : BExpr) (hb : l'[i]? = some b) (hsim : simPt b b') :
    List.Forall₂ simPt l (l'.set i b') := by
  induction h generalizing i with
  | nil => exact absurd hb (by simp)
  | cons hab htail ih =>
    next a c la lc =>
    cases i with
    | zero =>
      simp only [List.getElem?_cons_zero, Option.some.injEq] at hb
      exact List.Forall₂.cons (by rw [hb] at hab; exact simPt_trans _ _ _ hab hsim) htail
    | succ n =>
      simp only [List.getElem?_cons_succ] at hb
      exact List.Forall₂.cons hab (ih n hb)

/-- The per-statement ignore-sentinel test of `shouldIgnore`. -/
def igPred (s : BExpr) : Bool :=
  s.com.after.any (fun c => tokenStarts c gazelleIgnore) ||
  s.com.before.any (fun c => tokenStarts c gazelleIgnore)

theorem shouldIgnore_eq (f : BFile) : shouldIgnore f = f.stmts.any igPred := rfl

theorem shouldIgnore_stmts (l l' : List BExpr) (h : List.Forall₂ simPt l l') :
    l.any igPred = l'.any igPred := by
  induction h with
  | nil => rfl
  | cons hab htail ih =>
    simp only [List.any_cons, ih]
    congr 1
    obtain ⟨hc, _⟩ := hab
    simp only [igPred, hc]

theorem matcher_self (c : CallE) (p : BExpr → Bool) (hp : matcherFor c = some p) :
    p c.toExpr = true := by
  unfold matcherFor at hp
  by_cases hk : c.kind = "load"
  · rw [if_pos hk] at hp
    cases hargs : c.args with
    | nil => rw [hargs] at hp; exact absurd hp (by simp)
    | cons a0 rest =>
      rw [hargs] at hp
      simp only [Option.some.injEq] at hp
      rw [← hp]
      simp only [asCall_toExpr_inv]
      rw [hk, hargs]
      simp
  · rw [if_neg hk] at hp
    simp only [Option.some.injEq] at hp
    rw [← hp]
    simp only [asCall_toExpr_inv]
    simp

theorem match_true_call (genC : CallE) (p : BExpr → Bool)
    (hp : matcherFor genC = some p) (s : BExpr) (hs : p s = true) :
    ∃ oc, asCall s = some oc := by
  unfold matcherFor at hp
  by_cases hk : genC.kind = "load"
  · rw [if_pos hk] at hp
    cases hargs : genC.args with
    | nil => rw [hargs] at hp; exact absurd hp (by simp)
    | cons a0 rest =>
      rw [hargs] at hp
      simp only [Option.some.injEq] at hp
      rw [← hp] at hs
      cases hc : asCall s with
      | none => simp [hc] at hs
      | some oc => exact ⟨oc, rfl⟩
  · rw [if_neg hk] at hp
    simp only [Option.some.injEq] at hp
    rw [← hp] at hs
    cases hc : asCall s with
    | none => simp [hc] at hs
    | some oc => exact ⟨oc, rfl⟩

theorem match_true_load (genC : CallE) (p : BExpr → Bool) (a0 : BExpr)
    (grest : List BExpr) (hk : genC.kind = "load") (hargs : genC.args = a0 :: grest)
    (hp : matcherFor genC = some p) (s : BExpr) (oc : CallE)
    (hoc : asCall s = some oc) (hs : p s = true) :
    oc.kind = "load" ∧ oc.args ≠ [] ∧
      stringValue (oc.args.headD (.lit {} "")) = stringValue a0 := by
  unfold matcherFor at hp
  rw [if_pos hk, hargs] at hp
  simp only [Option.some.injEq] at hp
  rw [← hp] at hs
  simp only [hoc, Bool.and_eq_true, decide_eq_true_eq] at hs
  obtain ⟨⟨h1, h2⟩, h3⟩ := hs
  refine ⟨h1, ?_, h3⟩
  intro hE
  rw [hE] at h2
  exact absurd h2 (by simp)

theorem match_true_rule (genC : CallE) (p : BExpr → Bool)
    (hk : ¬ genC.kind = "load") (hp : matcherFor genC = some p) (s : BExpr)
    (oc : CallE) (hoc : asCall s = some oc) (hs : p s = true) :
    oc.kind = genC.kind ∧ oc.name = genC.name := by
  unfold matcherFor at hp
  rw [if_neg hk] at hp
  simp only [Option.some.injEq] at hp
  rw [← hp] at hs
  simp only [hoc, Bool.and_eq_true, decide_eq_true_eq] at hs
  exact hs

/-- The match signature of a generated statement: loads are matched by
their load path, rules by kind and name. -/
def genSig (c : CallE) : Bool × String × String :=
  if c.kind = "load" then (true, stringValue (c.args.headD (.lit {} "")), "")
  else (false, c.kind, c.name)

/-- The match signature of a raw statement. -/
def sigOf (s : BExpr) : Bool × String × String :=
  match asCall s with
  | some c => genSig c
  | none => (false, "", "")

theorem genSig_of_match (g : CallE) (p : BExpr → Bool) (hp : matcherFor g = some p)
    (s : BExpr) (hs : p s = true) :
    ∃ oc, asCall s = some oc ∧ genSig oc = genSig g := by
  unfold matcherFor at hp
  by_cases hk : g.kind = "load"
  · rw [if_pos hk] at hp
    cases hargs : g.args with
    | nil => rw [hargs] at hp; exact absurd hp (by simp)
    | cons a0 rest =>
      rw [hargs] at hp
      simp only [Option.some.injEq] at hp
      rw [← hp] at hs
      cases hc : asCall s with
      | none => simp [hc] at hs
      | some oc =>
        simp only [hc, Bool.and_eq_true, decide_eq_true_eq] at hs
        obtain ⟨⟨hk', hne⟩, hhead⟩ := hs
        refine ⟨oc, rfl, ?_⟩
        unfold genSig
        rw [if_pos hk', if_pos hk, hargs, List.headD_cons, hhead]
  · rw [if_neg hk] at hp
    simp only [Option.some.injEq] at hp
    rw [← hp] at hs
    cases hc : asCall s with
    | none => simp [hc] at hs
    | some oc =>
      simp only [hc, Bool.and_eq_true, decide_eq_true_eq] at hs
      obtain ⟨hk', hn'⟩ := hs
      refine ⟨oc, rfl, ?_⟩
      unfold genSig
      rw [hk', hn', if_neg hk, if_neg hk]

theorem sigOf_inj : ∀ (gs : List BExpr), (gs.map sigOf).Nodup →
    ∀ x ∈ gs, ∀ g ∈ gs, sigOf x = sigOf g → x = g := by
  intro gs
  induction gs with
  | nil => intro _ x hx; exact absurd hx (by simp)
  | cons a rest ih =>
    intro hnd x hx g hg hsig
    simp only [List.map_cons, List.nodup_cons] at hnd
    obtain ⟨hna, hndr⟩ := hnd
    cases List.mem_cons.mp hx with
    | inl hxa =>
      cases List.mem_cons.mp hg with
      | inl hga => rw [hxa, hga]
      | inr hgr =>
        exfalso
        apply hna
        have hmm : sigOf g ∈ rest.map sigOf := List.mem_map_of_mem sigOf hgr
        rw [← hsig, hxa] at hmm
        exact hmm
    | inr hxr =>
      cases List.mem_cons.mp hg with
      | inl hga =>
        exfalso
        apply hna
        have hmm : sigOf x ∈ rest.map sigOf := List.mem_map_of_mem sigOf hxr
        rw [hsig, hga] at hmm
        exact hmm
      | inr hgr => exact ih hndr x hxr g hgr hsig

/-- A canonical generated statement: a call with an empty comment
envelope that is a canonical load or a canonical rule. -/
def canonStmt (s : BExpr) : Bool :=
  match asCall s with
  | none => false
  | some c => decide (s.com = ({} : Comments)) &&
      (if c.kind = "load" then canonLoad c else canonRule c)

/-- A canonical generated file: all statements canonical, with
pairwise distinct match signatures. -/
def canonFile (f : BFile) : Bool :=
  f.stmts.all canonStmt && decide (f.stmts.map sigOf).Nodup

theorem canonStmt_parts (s : BExpr) (h : canonStmt s = true) :
    ∃ c, asCall s = some c ∧ s.com = ({} : Comments) ∧
      (c.kind = "load" → canonLoad c = true) ∧
      (c.kind ≠ "load" → canonRule c = true) := by
  unfold canonStmt at h
  cases hc : asCall s with
  | none => rw [hc] at h; exact absurd h (by simp)
  | some c =>
    rw [hc] at h
    simp only [Bool.and_eq_true, decide_eq_true_eq] at h
    obtain ⟨hcom, hrest⟩ := h
    refine ⟨c, rfl, hcom, ?_, ?_⟩
    · intro hk; rw [if_pos hk] at hrest; exact hrest
    · intro hk; rw [if_neg hk] at hrest; exact hrest

theorem matcherFor_of_canon (c : CallE) (h : c.kind = "load" → canonLoad c = true) :
    ∃ p, matcherFor c = some p := by
  unfold matcherFor
  by_cases hk : c.kind = "load"
  · rw [if_pos hk]
    obtain ⟨hne, _⟩ := canonLoad_parts c (h hk)
    cases hargs : c.args with
    | nil => exact absurd hargs hne
    | cons a0 rest => exact ⟨_, rfl⟩
  · rw [if_neg hk]
    exact ⟨_, rfl⟩

theorem canonFile_parts (f : BFile) (h : canonFile f = true) :
    (∀ g ∈ f.stmts, canonStmt g = true) ∧ (f.stmts.map sigOf).Nodup := by
  simp only [canonFile, Bool.and_eq_true, decide_eq_true_eq, List.all_eq_true] at h
  exact h

theorem mergeLoad_com (gen old : CallE) (stmts : List BExpr) :
    (mergeLoad gen old stmts).com = old.com := rfl

theorem mergeLoad_kind (gen old : CallE) (stmts : List BExpr) :
    (mergeLoad gen old stmts).kind = old.kind := rfl

theorem mergedRule_com (gen old : CallE) : (mergedRule gen old).com = old.com := rfl

theorem ruleUsed_append (r : String) (l l' : List BExpr) :
    ruleUsed r (l ++ l') = (ruleUsed r l || ruleUsed r l') := List.any_append

theorem mergeLoad_args_cons (genC oldC : CallE) (stmts : List BExpr)
    (a0 : BExpr) (tl : List BExpr) (hargs : oldC.args = a0 :: tl) :
    ∃ rest, (mergeLoad genC oldC stmts).args = a0 :: rest := by
  unfold mergeLoad
  rw [hargs]
  exact ⟨_, rfl⟩

theorem simPt_mergeLoad (genC oldC : CallE) (stmts : List BExpr)
    (hk : oldC.kind = "load") (a0 : BExpr) (tl : List BExpr)
    (hargs : oldC.args = a0 :: tl) :
    simPt oldC.toExpr (mergeLoad genC oldC stmts).toExpr := by
  obtain ⟨rest, hm⟩ := mergeLoad_args_cons genC oldC stmts a0 tl hargs
  refine ⟨rfl, ?_⟩
  simp only [asCall_toExpr_inv]
  refine ⟨(mergeLoad_kind genC oldC stmts).symm, fun _ => ?_, fun hnl => absurd hk hnl⟩
  rw [hargs, hm]
  exact ⟨rfl, rfl⟩

theorem simPt_mergeRule (genC oldC : CallE) (hg : canonRule genC = true)
    (hk : oldC.kind ≠ "load") (hkind : oldC.kind = genC.kind)
    (hname : oldC.name = genC.name) :
    simPt oldC.toExpr (mergeRule genC oldC).toExpr := by
  have hnd := canonRule_nodup genC hg
  rw [mergeRule_eq_mergedRule genC oldC hnd]
  refine ⟨?_, ?_⟩
  · show oldC.com = (mergedRule genC oldC).com
    rw [mergedRule_com]
  · simp only [asCall_toExpr_inv]
    refine ⟨(mergedRule_kind genC oldC).symm, fun hl => absurd hl hk, fun _ => ?_⟩
    rw [mergedRule_name genC oldC hname]

theorem mergeRule_kind_old (gen old : CallE) (hnd : (callAttrKeys gen).Nodup) :
    (mergeRule gen old).kind = old.kind := by
  rw [mergeRule_eq_mergedRule gen old hnd]
  exact mergedRule_kind gen old

/-- The total version of `mergeStep`, defined on statements that are
calls (the only case in which `mergeStep` does not fail). -/
def mergeStepP (acc : List BExpr × List BExpr) (s : BExpr) : List BExpr × List BExpr :=
  match asCall s with
  | none => acc
  | some genC =>
    match matcherFor genC with
    | none => (acc.1, acc.2 ++ [s])
    | some p =>
      match findMatch p acc.1 with
      | none => (acc.1, acc.2 ++ [s])
      | some (i, olds) =>
        match asCall olds with
        | none => (acc.1, acc.2)
        | some oldC =>
          let merged := if oldC.kind = "load" then (mergeLoad genC oldC acc.1).toExpr
            else (mergeRule genC oldC).toExpr
          (acc.1.set i merged, acc.2)

theorem mergeStep_eq_P (acc : List BExpr × List BExpr) (s : BExpr)
    (h : (asCall s).isSome = true) :
    mergeStep acc s = .ok (mergeStepP acc s) := by
  cases hc : asCall s with
  | none => rw [hc] at h; exact absurd h (by simp)
  | some genC =>
    cases hm : matcherFor genC with
    | none => simp only [mergeStep, mergeStepP, hc, hm]
    | some p =>
      cases hf : findMatch p acc.1 with
      | none => simp only [mergeStep, mergeStepP, hc, hm, hf]
      | some x =>
        obtain ⟨i, olds⟩ := x
        cases ho : asCall olds with
        | none => simp only [mergeStep, mergeStepP, hc, hm, hf, ho]
        | some oldC => simp only [mergeStep, mergeStepP, hc, hm, hf, ho]

theorem foldlM_mergeStep (l : List BExpr) :
    ∀ (acc : List BExpr × List BExpr), (∀ s ∈ l, (asCall s).isSome = true) →
      l.foldlM mergeStep acc = Except.ok (l.foldl mergeStepP acc) := by
  induction l with
  | nil => intro acc h; rfl
  | cons a rest ih =>
    intro acc h
    have ha : (asCall a).isSome = true := h a (by simp)
    simp only [List.foldlM_cons, List.foldl_cons]
    rw [mergeStep_eq_P acc a ha]
    exact ih (mergeStepP acc a) (fun s hs => h s (List.mem_cons_of_mem a hs))

theorem mergeWithExisting_eq_P (gen old : BFile) (hig : shouldIgnore old = false)
    (hcalls : ∀ s ∈ gen.stmts, (asCall s).isSome = true) :
    mergeWithExisting gen old =
      .merged ⟨(gen.stmts.foldl mergeStepP (old.stmts, [])).1 ++
        (gen.stmts.foldl mergeStepP (old.stmts, [])).2⟩ := by
  unfold mergeWithExisting
  rw [hig, if_neg (by simp : ¬ (false = true))]
  rw [foldlM_mergeStep gen.stmts (old.stmts, []) hcalls]

/-- The replacement statement computed by `mergeStep` for a matched
generated call. -/
def mergeApply (genC oldC : CallE) (stmts : List BExpr) : BExpr :=
  if oldC.kind = "load" then (mergeLoad genC oldC stmts).toExpr
  else (mergeRule genC oldC).toExpr

/-- The record kept about an already-processed generated statement that
found a match in the existing file. -/
def goodRec (old1 : List BExpr) (F : List BExpr) (g : BExpr) : Prop :=
  ∀ genC, asCall g = some genC → ∀ p, matcherFor genC = some p →
    ∀ i s0, findMatch p old1 = some (i, s0) →
      ∃ oldC stmtsX,
        F[i]? = some (mergeApply genC oldC stmtsX) ∧
        (∀ r, ruleUsed r stmtsX = ruleUsed r old1) ∧
        (genC.kind = "load" → oldC.kind = "load" ∧ oldC.args ≠ []) ∧
        (genC.kind ≠ "load" → oldC.kind = genC.kind ∧ oldC.name = genC.name)

/-- The record kept about an already-processed generated statement that
found no match in the existing file: it was appended as new. -/
def noMatchRec (old1 : List BExpr) (news : List BExpr) (g : BExpr) : Prop :=
  ∀ genC, asCall g = some genC → ∀ p, matcherFor genC = some p →
    findMatch p old1 = none → g ∈ news

/-- The invariant of the `MergeWithExisting` loop: the working list
stays pointwise matcher-similar to the existing statements, the new
statements all come from the processed prefix, and each processed
generated statement has its merge record. -/
def inv1 (old1 : List BExpr) (done : List BExpr) (F news : List BExpr) : Prop :=
  List.Forall₂ simPt old1 F ∧
  (∀ x ∈ news, x ∈ done) ∧
  (∀ g ∈ done, goodRec old1 F g ∧ noMatchRec old1 news g)

/-- The `MergeWithExisting` loop over a canonical generated file
maintains `inv1`. -/
theorem round1 (gsall old1 : List BExpr)
    (hcanon : ∀ g ∈ gsall, canonStmt g = true)
    (hnd : (gsall.map sigOf).Nodup) :
    ∀ (todo done F news : List BExpr),
      gsall = done ++ todo →
      inv1 old1 done F news →
      inv1 old1 gsall (todo.foldl mergeStepP (F, news)).1
        (todo.foldl mergeStepP (F, news)).2 := by
  intro todo
  induction todo with
  | nil =>
    intro done F news hsplit hinv
    rw [List.append_nil] at hsplit
    rw [hsplit]
    exact hinv
  | cons g todo' ih =>
    intro done F news hsplit hinv
    obtain ⟨hA, hC1, hBC⟩ := hinv
    have hgmem : g ∈ gsall := by
      rw [hsplit]
      exact List.mem_append_right done (by simp)
    obtain ⟨genC, hgc, hcom, hloadC, hruleC⟩ := canonStmt_parts g (hcanon g hgmem)
    obtain ⟨p, hmp⟩ := matcherFor_of_canon genC hloadC
    have hpeq : List.Forall₂ (fun a b => p a = p b) old1 F :=
      List.Forall₂.imp (fun a b hab => simPt_matcher genC p hmp a b hab) hA
    have hflip : List.Forall₂ (fun a b => p b = p a) old1 F :=
      List.Forall₂.imp (fun a b hh => hh.symm) hpeq
    have hpeq' : List.Forall₂ (fun a b => p a = p b) F old1 := List.Forall₂.flip hflip
    have hsplit' : gsall = (done ++ [g]) ++ todo' := by
      rw [hsplit]
      simp
    have hstep : inv1 old1 (done ++ [g]) (mergeStepP (F, news) g).1
        (mergeStepP (F, news) g).2 := by
      cases hfm : findMatch p F with
      | none =>
        have hP : mergeStepP (F, news) g = (F, news ++ [g]) := by
          simp only [mergeStepP, hgc, hmp, hfm]
        rw [hP]
        refine ⟨hA, ?_, ?_⟩
        · intro x hx
          cases List.mem_append.mp hx with
          | inl hxn => exact List.mem_append_left _ (hC1 x hxn)
          | inr hxg => exact List.mem_append_right _ hxg
        · intro gh hghmem
          cases List.mem_append.mp hghmem with
          | inl hdone =>
            obtain ⟨hgood, hnom⟩ := hBC gh hdone
            refine ⟨hgood, ?_⟩
            intro genCh hh ph hph hfm'
            exact List.mem_append_left _ (hnom genCh hh ph hph hfm')
          | inr hg1 =>
            have hgeq : gh = g := by simpa using hg1
            subst hgeq
            constructor
            · intro genC' hgc' p' hp' i s0 hfmo
              rw [hgc] at hgc'
              obtain rfl : genC = genC' := Option.some.inj hgc'
              rw [hmp] at hp'
              obtain rfl : p = p' := Option.some.inj hp'
              have hnone : findMatch p old1 = none :=
                findMatch_congr_none p F old1 hpeq' hfm
              rw [hnone] at hfmo
              exact absurd hfmo (by simp)
            · intro genC' hgc' p' hp' hfmo
              exact List.mem_append_right _ (by simp)
      | some x =>
        obtain ⟨i, olds⟩ := x
        obtain ⟨hFi, holdsP⟩ := findMatch_some p F i olds hfm
        obtain ⟨oldC, hocall⟩ := match_true_call genC p hmp olds holdsP
        have hP : mergeStepP (F, news) g =
            (F.set i (mergeApply genC oldC F), news) := by
          simp only [mergeStepP, mergeApply, hgc, hmp, hfm, hocall]
        obtain ⟨s0, hfmo, hs0i⟩ := findMatch_congr_some p F old1 hpeq' i olds hfm
        obtain ⟨_, hs0P⟩ := findMatch_some p old1 i s0 hfmo
        have hside : ((genC.kind = "load" → oldC.kind = "load" ∧ oldC.args ≠ []) ∧
            (genC.kind ≠ "load" → oldC.kind = genC.kind ∧ oldC.name = genC.name)) ∧
            simPt olds (mergeApply genC oldC F) := by
          by_cases hgk : genC.kind = "load"
          · obtain ⟨hne, _⟩ := canonLoad_parts genC (hloadC hgk)
            cases hgargs : genC.args with
            | nil => exact absurd hgargs hne
            | cons a0 grest =>
              obtain ⟨hok, hone, hhead⟩ :=
                match_true_load genC p a0 grest hgk hgargs hmp olds oldC hocall holdsP
              refine ⟨⟨fun _ => ⟨hok, hone⟩, fun hn => absurd hgk hn⟩, ?_⟩
              cases hoargs : oldC.args with
              | nil => exact absurd hoargs hone
              | cons b0 orest =>
                have hsim := simPt_mergeLoad genC oldC F hok b0 orest hoargs
                rw [asCall_toExpr olds oldC hocall] at hsim
                unfold mergeApply
                rw [if_pos hok]
                exact hsim
          · obtain ⟨hok, honame⟩ :=
              match_true_rule genC p hgk hmp olds oldC hocall holdsP
            have hnl : oldC.kind ≠ "load" := by rw [hok]; exact hgk
            have hsim := simPt_mergeRule genC oldC (hruleC hgk) hnl hok honame
            rw [asCall_toExpr olds oldC hocall] at hsim
            refine ⟨⟨fun hl => absurd hl hgk, fun _ => ⟨hok, honame⟩⟩, ?_⟩
            unfold mergeApply
            rw [if_neg hnl]
            exact hsim
        obtain ⟨⟨hsideL, hsideR⟩, hsimMerged⟩ := hside
        rw [hP]
        refine ⟨?_, ?_, ?_⟩
        · exact forall2_simPt_set old1 F hA i olds (mergeApply genC oldC F) hFi
            hsimMerged
        · intro x hx
          exact List.mem_append_left _ (hC1 x hx)
        · intro gh hghmem
          cases List.mem_append.mp hghmem with
          | inl hdone =>
            obtain ⟨hgood, hnom⟩ := hBC gh hdone
            refine ⟨?_, hnom⟩
            intro genCh hch ph hph i2 s0h hfmoh
            obtain ⟨oldCh, stmtsXh, hFih, hru, hcc1, hcc2⟩ :=
              hgood genCh hch ph hph i2 s0h hfmoh
            by_cases hidx : i2 = i
            · exfalso
              subst hidx
              obtain ⟨hs0ih, hs0Ph⟩ := findMatch_some ph old1 i2 s0h hfmoh
              have hseq : s0 = s0h := Option.some.inj (hs0i.symm.trans hs0ih)
              obtain ⟨oc0, hoc0, hsig1⟩ := genSig_of_match genC p hmp s0 hs0P
              obtain ⟨oc0', hoc0', hsig2⟩ := genSig_of_match genCh ph hph s0h hs0Ph
              rw [← hseq] at hoc0'
              have hoceq : oc0 = oc0' := Option.some.inj (hoc0.symm.trans hoc0')
              have hsgg : sigOf g = sigOf gh := by
                unfold sigOf
                rw [hgc, hch]
                show genSig genC = genSig genCh
                rw [← hsig1, ← hsig2, hoceq]
              have hghall : gh ∈ gsall := by
                rw [hsplit]
                exact List.mem_append_left _ hdone
              have hgg : g = gh := sigOf_inj gsall hnd g hgmem gh hghall hsgg
              have hndall : gsall.Nodup := List.Nodup.of_map sigOf hnd
              rw [hsplit] at hndall
              obtain ⟨_, _, hdisj⟩ := List.nodup_append.mp hndall
              rw [← hgg] at hdone
              exact hdisj hdone (List.mem_cons_self g todo')
            · refine ⟨oldCh, stmtsXh, ?_, hru, hcc1, hcc2⟩
              rw [getElem?_set_ne F i i2 (mergeApply genC oldC F)
                (fun he => hidx he.symm)]
              exact hFih
          | inr hg1 =>
            have hgeq : gh = g := by simpa using hg1
            subst hgeq
            constructor
            · intro genC' hgc' p' hp' i' s0' hfmo'
              rw [hgc] at hgc'
              obtain rfl : genC = genC' := Option.some.inj hgc'
              rw [hmp] at hp'
              obtain rfl : p = p' := Option.some.inj hp'
              rw [hfmo] at hfmo'
              have hpair := Option.some.inj hfmo'
              have hi' : i = i' := congrArg Prod.fst hpair
              subst hi'
              refine ⟨oldC, F, ?_, ?_, hsideL, hsideR⟩
              · exact getElem?_set_self F i (mergeApply genC oldC F) olds hFi
              · intro r
                exact (ruleUsed_congr r old1 F hA).symm
            · intro genC' hgc' p' hp' hfmo'
              rw [hgc] at hgc'
              obtain rfl : genC = genC' := Option.some.inj hgc'
              rw [hmp] at hp'
              obtain rfl : p = p' := Option.some.inj hp'
              rw [hfmo] at hfmo'
              exact absurd hfmo' (by simp)
    exact ih (done ++ [g]) (mergeStepP (F, news) g).1
      (mergeStepP (F, news) g).2 hsplit' hstep

/-- After a first merge of a canonical generated file, re-merging any
of its statements into the merged statement list is the identity. -/
theorem round2_step (gsall old1 F news : List BExpr)
    (hcanon : ∀ g ∈ gsall, canonStmt g = true)
    (hnd : (gsall.map sigOf).Nodup)
    (hinv : inv1 old1 gsall F news)
    (g : BExpr) (hg : g ∈ gsall) :
    ∀ x, mergeStepP (F ++ news, x) g = (F ++ news, x) := by
  obtain ⟨hA, hC1, hBC⟩ := hinv
  obtain ⟨genC, hgc, hcom, hloadC, hruleC⟩ := canonStmt_parts g (hcanon g hg)
  obtain ⟨p, hmp⟩ := matcherFor_of_canon genC hloadC
  obtain ⟨hgood, hnom⟩ := hBC g hg
  have hpeq : List.Forall₂ (fun a b => p a = p b) old1 F :=
    List.Forall₂.imp (fun a b hab => simPt_matcher genC p hmp a b hab) hA
  intro x
  cases hfmo : findMatch p old1 with
  | some pr =>
    obtain ⟨i, s0⟩ := pr
    obtain ⟨oldC, stmtsX, hFi, hru, hc1, hc2⟩ := hgood genC hgc p hmp i s0 hfmo
    obtain ⟨s1, hfmF, hFi1⟩ := findMatch_congr_some p old1 F hpeq i s0 hfmo
    have hs1 : s1 = mergeApply genC oldC stmtsX :=
      Option.some.inj (hFi1.symm.trans hFi)
    have hfmFN : findMatch p (F ++ news) = some (i, s1) :=
      findMatch_append_left p F news i s1 hfmF
    have hset : (F ++ news).set i s1 = F ++ news := by
      apply set_getElem_self
      exact getElem?_append_l F news i s1 hFi1
    by_cases hgk : genC.kind = "load"
    · obtain ⟨hok, hone⟩ := hc1 hgk
      have hs1' : s1 = (mergeLoad genC oldC stmtsX).toExpr := by
        rw [hs1]
        unfold mergeApply
        rw [if_pos hok]
      have hsc : asCall s1 = some (mergeLoad genC oldC stmtsX) := by
        rw [hs1']
        exact asCall_toExpr_inv _
      have hmk : (mergeLoad genC oldC stmtsX).kind = "load" := by
        rw [mergeLoad_kind]
        exact hok
      cases hoargs : oldC.args with
      | nil => exact absurd hoargs hone
      | cons b0 orest =>
        have hidem : mergeLoad genC (mergeLoad genC oldC stmtsX) (F ++ news) =
            mergeLoad genC oldC stmtsX := by
          apply mergeLoad_idem genC oldC stmtsX (F ++ news) (hloadC hgk) b0 orest
            hoargs
          intro r hr
          rw [ruleUsed_append]
          have h1 : ruleUsed r old1 = true := by rw [← hru r]; exact hr
          have h2 : ruleUsed r F = true := by
            rw [← ruleUsed_congr r old1 F hA]
            exact h1
          rw [h2]
          rfl
        simp only [mergeStepP, hgc, hmp, hfmFN, hsc]
        rw [hmk, if_pos rfl, hidem, ← hs1', hset]
    · obtain ⟨hok, honame⟩ := hc2 hgk
      have hnl : oldC.kind ≠ "load" := by rw [hok]; exact hgk
      have hs1' : s1 = (mergeRule genC oldC).toExpr := by
        rw [hs1]
        unfold mergeApply
        rw [if_neg hnl]
      have hsc : asCall s1 = some (mergeRule genC oldC) := by
        rw [hs1']
        exact asCall_toExpr_inv _
      have hmknl : ¬ ((mergeRule genC oldC).kind = "load") := by
        rw [mergeRule_kind_old genC oldC (canonRule_nodup genC (hruleC hgk))]
        exact hnl
      have hidem : mergeRule genC (mergeRule genC oldC) = mergeRule genC oldC :=
        mergeRule_idem genC oldC (hruleC hgk)
      simp only [mergeStepP, hgc, hmp, hfmFN, hsc]
      rw [if_neg hmknl, hidem, ← hs1', hset]
  | none =>
    have hmemN : g ∈ news := hnom genC hgc p hmp hfmo
    have hfmF : findMatch p F = none := findMatch_congr_none p old1 F hpeq hfmo
    have huniq : ∀ y ∈ news, p y = true → y = g := by
      intro y hy hpy
      obtain ⟨ocy, hocy, hsigy⟩ := genSig_of_match genC p hmp y hpy
      have hsy : sigOf y = sigOf g := by
        unfold sigOf
        rw [hocy, hgc]
        show genSig ocy = genSig genC
        exact hsigy
      exact sigOf_inj gsall hnd y (hC1 y hy) g hg hsy
    have hpg : p g = true := by
      have hself := matcher_self genC p hmp
      rw [asCall_toExpr g genC hgc] at hself
      exact hself
    obtain ⟨j, hjfind, hjmem⟩ := findMatch_unique p news g hmemN hpg huniq
    have hfmFN : findMatch p (F ++ news) = some (j + F.length, g) := by
      rw [findMatch_append_right p F news hfmF, hjfind]
      rfl
    have hset : (F ++ news).set (j + F.length) g = F ++ news := by
      apply set_getElem_self
      have happ := getElem?_append_r F news j
      rw [Nat.add_comm F.length j] at happ
      rw [happ]
      exact hjmem
    by_cases hgk : genC.kind = "load"
    · have hidem : mergeLoad genC genC (F ++ news) = genC :=
        mergeLoad_self genC (F ++ news) (hloadC hgk)
      simp only [mergeStepP, hgc, hmp, hfmFN]
      rw [hgk, if_pos rfl, hidem, asCall_toExpr g genC hgc, hset]
    · have hidem : mergeRule genC genC = genC := mergeRule_self genC (hruleC hgk)
      simp only [mergeStepP, hgc, hmp, hfmFN]
      rw [if_neg hgk, hidem, asCall_toExpr g genC hgc, hset]

theorem round2_foldl (gs m1s : List BExpr)
    (hfix : ∀ g ∈ gs, ∀ x, mergeStepP (m1s, x) g = (m1s, x)) :
    ∀ x, gs.foldl mergeStepP (m1s, x) = (m1s, x) := by
  induction gs with
  | nil => intro x; rfl
  | cons g rest ih =>
    intro x
    simp only [List.foldl_cons]
    rw [hfix g (by simp) x]
    exact ih (fun g' hg' x' => hfix g' (List.mem_cons_of_mem g hg') x') x

theorem shouldIgnore_news (gsall news : List BExpr)
    (hcanon : ∀ g ∈ gsall, canonStmt g = true)
    (hsub : ∀ x ∈ news, x ∈ gsall) :
    news.any igPred = false := by
  cases hae : news.any igPred with
  | false => rfl
  | true =>
    obtain ⟨y, hy, hpy⟩ := List.any_eq_true.mp hae
    obtain ⟨c, hcy, hcom, _, _⟩ := canonStmt_parts y (hcanon y (hsub y hy))
    simp [igPred, hcom] at hpy

/-- C6 (amended): `MergeWithExisting` is idempotent on canonical
generated files. A generated file is canonical (`canonFile`) when:
every statement is a call with an empty comment envelope; every load
statement carries a load path followed by symbols whose string values
are strictly ascending; every rule statement has only named attribute
assignments with pairwise-distinct keys, and each mergeable attribute
value is either absent, a comment-free string literal, a comment-free
single-line non-empty list without keep markers, or a bare
comment-free `select` call on a comment-free multi-line dictionary
with at least one entry, each entry mapping a string key to a
non-empty comment-free single-line keep-free list, the non-default
keys strictly ascending and the default condition, if present, last
(in particular, `list + select` sums are not in the class); and the
match signatures of the statements (load path for loads, kind and
name for rules) are pairwise distinct. Re-merging such a generated
file into the result of a first merge reproduces that result
exactly. -/
theorem mergeWithExisting_idem (gen old m1 : BFile) (hg : canonFile gen = true)
    (h : mergeWithExisting gen old = .merged m1) :
    mergeWithExisting gen m1 = .merged m1 := by
  obtain ⟨hcanon, hnd⟩ := canonFile_parts gen hg
  have hcalls : ∀ s ∈ gen.stmts, (asCall s).isSome = true := by
    intro s hs
    obtain ⟨c, hcs, _, _, _⟩ := canonStmt_parts s (hcanon s hs)
    rw [hcs]
    rfl
  have hig : shouldIgnore old = false := by
    cases hio : shouldIgnore old with
    | false => rfl
    | true =>
      rw [mergeWithExisting_ignored gen old hio] at h
      exact absurd h (by simp)
  have hm1 : m1 = ⟨(gen.stmts.foldl mergeStepP (old.stmts, [])).1 ++
      (gen.stmts.foldl mergeStepP (old.stmts, [])).2⟩ := by
    rw [mergeWithExisting_eq_P gen old hig hcalls] at h
    injection h with h1
    exact h1.symm
  have hinv0 : inv1 old.stmts [] old.stmts [] := by
    refine ⟨?_, ?_, ?_⟩
    · exact List.forall₂_same.mpr (fun a ha => simPt_refl a)
    · intro x hx
      exact absurd hx (by simp)
    · intro g1 hg1
      exact absurd hg1 (by simp)
  have hinvF := round1 gen.stmts old.stmts hcanon hnd gen.stmts [] old.stmts []
    rfl hinv0
  have hig2 : shouldIgnore m1 = false := by
    rw [hm1]
    show ((gen.stmts.foldl mergeStepP (old.stmts, [])).1 ++
      (gen.stmts.foldl mergeStepP (old.stmts, [])).2).any igPred = false
    rw [List.any_append]
    have h1 : (gen.stmts.foldl mergeStepP (old.stmts, [])).1.any igPred = false := by
      rw [← shouldIgnore_stmts old.stmts _ hinvF.1]
      rw [← shouldIgnore_eq old]
      exact hig
    have h2 : (gen.stmts.foldl mergeStepP (old.stmts, [])).2.any igPred = false :=
      shouldIgnore_news gen.stmts _ hcanon hinvF.2.1
    rw [h1, h2]
    rfl
  have hfix : ∀ g ∈ gen.stmts, ∀ x,
      mergeStepP (m1.stmts, x) g = (m1.stmts, x) := by
    intro g hgmem x
    have hone := round2_step gen.stmts old.stmts
      (gen.stmts.foldl mergeStepP (old.stmts, [])).1
      (gen.stmts.foldl mergeStepP (old.stmts, [])).2
      hcanon hnd hinvF g hgmem x
    rw [hm1]
    exact hone
  rw [mergeWithExisting_eq_P gen m1 hig2 hcalls]
  have hfold : gen.stmts.foldl mergeStepP (m1.stmts, []) = (m1.stmts, []) :=
    round2_foldl gen.stmts m1.stmts hfix []
  rw [hfold]
  show MergeOutcome.merged ⟨m1.stmts ++ []⟩ = MergeOutcome.merged m1
  rw [List.append_nil]

/-- C6 witness generated file: a single canonical generated rule. -/
def c6wGen : BFile := ⟨[.call {} (.lit {} "go_library")
  [.binary {} "=" (.lit {} "name") (.str {} "foo")]]⟩

/-- C6 witness existing file: empty. -/
def c6wOld : BFile := ⟨[]⟩

/-- C6 witness first-merge output. -/
def c6wM : BFile := ⟨[.call {} (.lit {} "go_library")
  [.binary {} "=" (.lit {} "name") (.str {} "foo")]]⟩

theorem mergeWithExisting_idem_witness :
    canonFile c6wGen = true ∧
      mergeWithExisting c6wGen c6wOld = .merged c6wM ∧
      mergeWithExisting c6wGen c6wM = .merged c6wM :=
  ⟨by rfl, by rfl, mergeWithExisting_idem c6wGen c6wOld c6wM (by rfl) (by rfl)⟩

end GazelleProof
